import Mathlib

/-!
# Verification of the Lovefield transaction journal (`src/lib/cache/journal.js`)

This file shallowly embeds `lf.cache.Journal` and the collaborator interfaces
it drives (row cache, index store, `lf.cache.TableDiff`), and proves the
specification claims about it.

The journal source is `src/lib/cache/journal.js`; the collaborators
(`lf.cache.TableDiff`, `lf.cache.Cache`, `lf.index.IndexStore`, `lf.Row`,
the schema objects) are not part of the sources, so they are modelled from
the specification (`spec.md` sections 3, 4.1 and 6), as noted on each
definition.

Modelling conventions:
* JavaScript exceptions become `Except (Exn × Journal) Journal`: a thrown
  exception carries the state at the moment of the throw, so "a failure
  leaves no partial state" is expressible.
* The shared row cache is a map `Nat → Option Row`; the index store maps a
  normalized index name to the index contents, a `Finset (Int × Nat)` of
  (key, rowId) pairs.  The spec leaves individual index implementations
  opaque, so an index is identified with its extensional contents.
* `goog.asserts.assert` failures are modelled as `ExnType.ASSERTION` errors.
* The unchecked JavaScript cast of `cache.get([rowId])[0]` to a row
  (journal.js:253, 272) is modelled as a `TYPE_ERROR` on a missing row.
-/

/-- Modelled from the spec (section 3, "Row"): an opaque record with a stable
row id, able to project an index key for a normalized index name.  Index
keys are modelled as integers; the payload maps a normalized index name to
the key this row projects for it. -/
structure Row where
  id : Nat
  payload : List (String × Int)
deriving DecidableEq, Repr

/-- Modelled from the spec (glossary, "Normalized index name" and "Row-id
index"): a normalized index name is either an ordinary index name or the
name of the implicit per-table row-id index. -/
inductive IndexName where
  | normal (s : String)
  | rowId (table : String)
deriving DecidableEq, Repr

/-- Modelled from the spec (section 6, "Consumed from Row"):
`keyOfIndex(name) → key`.  For the per-table row-id index the projected key
is the row id itself (glossary: the row-id index enumerates live row-ids). -/
def Row.keyOfIndex (r : Row) (n : IndexName) : Int :=
  match n with
  | .rowId _ => (r.id : Int)
  | .normal s => ((r.payload.lookup s).getD 0)

/-- Modelled from the spec (section 6, "Consumed from Row"): `setRowId`. -/
def Row.setRowId (r : Row) (rid : Nat) : Row :=
  { r with id := rid }

/-- Modelled from the spec (section 6, "Consumed from Table schema"):
an index schema is used only through `getNormalizedName()`. -/
structure IndexSchema where
  normalizedName : IndexName
deriving DecidableEq, Repr

/-- Modelled from the spec (section 6, "Consumed from Table schema"):
`getName()`, `getConstraint().getPrimaryKey()`, `getIndices()`. -/
structure Table where
  name : String
  primaryKey : Option IndexSchema
  indices : List IndexSchema
deriving DecidableEq, Repr

/-- The contents of one index: the set of (key, rowId) pairs it holds.
Modelled from the spec (section 6, "Consumed from Index"). -/
abbrev IndexData := Finset (Int × Nat)

/-- Insert a number into a list, before the first larger-or-equal element
(structurally recursive so that it evaluates inside the kernel). -/
def insSortedNat (a : Nat) : List Nat → List Nat
  | [] => [a]
  | b :: l => if a ≤ b then a :: b :: l else b :: insSortedNat a l

instance : LeftCommutative insSortedNat := ⟨by
  intro a b l
  induction l with
  | nil =>
    simp only [insSortedNat]
    by_cases hab : a ≤ b <;> by_cases hba : b ≤ a <;>
      simp [insSortedNat, hab, hba] <;> omega
  | cons c l ih =>
    simp only [insSortedNat]
    by_cases hac : a ≤ c <;> by_cases hbc : b ≤ c <;> by_cases hab : a ≤ b <;>
      by_cases hba : b ≤ a <;>
      simp [insSortedNat, hac, hbc, hab, hba, ih] <;> omega⟩

/-- The canonical (ascending) enumeration of a finite set of row-ids,
implemented by insertion sort so that it evaluates inside the kernel. -/
def sortFinset (s : Finset Nat) : List Nat :=
  Multiset.foldr insSortedNat [] s.val

/-- Modelled from the spec: `Index.get(key) → sequence<rowId>`. -/
def IndexData.get (idx : IndexData) (k : Int) : List Nat :=
  sortFinset ((idx.filter (fun p => p.1 = k)).image Prod.snd)

/-- Modelled from the spec: `Index.set(key, rowId)`. -/
def IndexData.set (idx : IndexData) (k : Int) (rid : Nat) : IndexData :=
  insert (k, rid) idx

/-- Modelled from the spec: `Index.remove(key, rowId)`. -/
def IndexData.remove (idx : IndexData) (k : Int) (rid : Nat) : IndexData :=
  idx.erase (k, rid)

/-- Modelled from the spec (section 4.2.2): a key range with optional bounds,
inclusive or exclusive according to its own flags. -/
structure KeyRange where
  low : Option Int
  high : Option Int
  excludeLower : Bool
  excludeUpper : Bool
deriving DecidableEq, Repr

/-- Whether a key falls inside the range. -/
def KeyRange.containsKey (kr : KeyRange) (k : Int) : Bool :=
  (match kr.low with
   | none => true
   | some l => if kr.excludeLower then decide (l < k) else decide (l ≤ k)) &&
  (match kr.high with
   | none => true
   | some h => if kr.excludeUpper then decide (k < h) else decide (k ≤ h))

/-- Modelled from the spec: `Index.getRange(keyRange) → sequence<rowId>`. -/
def IndexData.getRange (idx : IndexData) (kr : KeyRange) : List Nat :=
  sortFinset ((idx.filter (fun p => kr.containsKey p.1)).image Prod.snd)

/-- Modelled from the spec: `Index.getRange()` with the range absent returns
the whole index. -/
def IndexData.getRangeAll (idx : IndexData) : List Nat :=
  sortFinset (idx.image Prod.snd)

/-- The normalized names of every index `updateTableIndices_` touches for a
table: the declared indices plus the implicit per-table row-id index
(journal.js:427-434). -/
def Table.indexNames (t : Table) : List IndexName :=
  t.indices.map IndexSchema.normalizedName ++ [IndexName.rowId t.name]

/-- One row-level effect recorded in a `TableDiff`.  Modelled from the spec
(section 3, "TableDiff"): a row-id is in at most one of the three
collections, so a diff is a map from row-id to one of these entries. -/
inductive DiffEntry where
  | added (r : Row)
  | modified (o n : Row)
  | deleted (r : Row)
deriving DecidableEq, Repr

/-- Modelled from the spec (section 3): the per-table change record.  The
three collections `added`, `modified`, `deleted` are kept as a single
association list keyed by row-id, which makes the spec invariant "a given
row-id appears in at most one of the three collections" structural. -/
structure TableDiff where
  entries : List (Nat × DiffEntry)
deriving DecidableEq, Repr

def TableDiff.empty : TableDiff := ⟨[]⟩

def TableDiff.find (d : TableDiff) (j : Nat) : Option DiffEntry :=
  d.entries.lookup j

/-- Accessor `added()`: read-only view of the added collection. -/
def TableDiff.getAdded (d : TableDiff) : List (Nat × Row) :=
  d.entries.filterMap (fun p =>
    match p.2 with
    | .added r => some (p.1, r)
    | _ => none)

/-- Accessor `modified()`: read-only view of the modified collection. -/
def TableDiff.getModified (d : TableDiff) : List (Nat × (Row × Row)) :=
  d.entries.filterMap (fun p =>
    match p.2 with
    | .modified o n => some (p.1, (o, n))
    | _ => none)

/-- Accessor `deleted()`: read-only view of the deleted collection. -/
def TableDiff.getDeleted (d : TableDiff) : List (Nat × Row) :=
  d.entries.filterMap (fun p =>
    match p.2 with
    | .deleted r => some (p.1, r)
    | _ => none)

/-- A single diff operation as issued by the journal: `add(row)`,
`modify([old, new])` or `delete(row)` (spec section 4.1). -/
inductive DiffOp where
  | add (r : Row)
  | modify (o n : Row)
  | del (r : Row)
deriving DecidableEq, Repr

/-- The row-id a diff operation is keyed by (for `modify` the source keys by
`modification[0].id()`). -/
def DiffOp.rowId : DiffOp → Nat
  | .add r => r.id
  | .modify o _ => o.id
  | .del r => r.id

/-- Replace the entry at key `j`, or append it if absent. -/
def setEntry (l : List (Nat × DiffEntry)) (j : Nat) (e : DiffEntry) :
    List (Nat × DiffEntry) :=
  if (l.lookup j).isSome then
    l.map (fun p => if p.1 = j then (j, e) else p)
  else l ++ [(j, e)]

/-- Remove the entry at key `j`. -/
def removeEntry (l : List (Nat × DiffEntry)) (j : Nat) :
    List (Nat × DiffEntry) :=
  l.filter (fun p => p.1 ≠ j)

/-- Modelled from the spec (section 3, "Merge semantics"): appending one
operation to an accumulated diff, following the merge table.  The cells the
spec marks invalid (caller bugs that cannot occur when validation runs
first) keep the existing before-image and take the latest after-image. -/
def TableDiff.applyOp (d : TableDiff) (op : DiffOp) : TableDiff :=
  let j := op.rowId
  match d.find j, op with
  | none, .add n => ⟨d.entries ++ [(j, .added n)]⟩
  | none, .modify o n => ⟨d.entries ++ [(j, .modified o n)]⟩
  | none, .del r => ⟨d.entries ++ [(j, .deleted r)]⟩
  | some (.added _), .add n => ⟨setEntry d.entries j (.added n)⟩
  | some (.added _), .modify _ n => ⟨setEntry d.entries j (.added n)⟩
  | some (.added _), .del _ => ⟨removeEntry d.entries j⟩
  | some (.modified o₁ _), .add n => ⟨setEntry d.entries j (.modified o₁ n)⟩
  | some (.modified o₁ _), .modify _ n => ⟨setEntry d.entries j (.modified o₁ n)⟩
  | some (.modified o₁ _), .del _ => ⟨setEntry d.entries j (.deleted o₁)⟩
  | some (.deleted dr), .add n =>
      if n = dr then ⟨removeEntry d.entries j⟩
      else ⟨setEntry d.entries j (.modified dr n)⟩
  | some (.deleted dr), .modify _ n => ⟨setEntry d.entries j (.modified dr n)⟩
  | some (.deleted _), .del _ => d

/-- Build a fresh diff from a list of operations, as the journal does with
`diff.add` / `diff.modify` / `diff.delete` calls on `new lf.cache.TableDiff()`. -/
def buildDiff (l : List DiffOp) : TableDiff :=
  l.foldl TableDiff.applyOp TableDiff.empty

/-- Modelled from the spec (section 3): the reverse diff swaps
`added` and `deleted` and swaps the pair within each `modified` entry. -/
def DiffEntry.reverse : DiffEntry → DiffEntry
  | .added r => .deleted r
  | .deleted r => .added r
  | .modified o n => .modified n o

def TableDiff.getReverse (d : TableDiff) : TableDiff :=
  ⟨d.entries.map (fun p => (p.1, p.2.reverse))⟩

/-- The diff operations replayed by `merge`: `added` entries as `add`,
`modified` entries as `modify`, `deleted` entries as `delete`, in that
order (spec section 4.1, `merge(other)`). -/
def TableDiff.toOps (d : TableDiff) : List DiffOp :=
  d.getAdded.map (fun p => DiffOp.add p.2) ++
  d.getModified.map (fun p => DiffOp.modify p.2.1 p.2.2) ++
  d.getDeleted.map (fun p => DiffOp.del p.2)

/-- Modelled from the spec (section 4.1): fold `other` into `d` using the
merge table; the result is the diff equivalent to applying `d` then
`other`. -/
def TableDiff.merge (d other : TableDiff) : TableDiff :=
  other.toOps.foldl TableDiff.applyOp d

/-- The before-image an entry records for its row. -/
def DiffEntry.thenImg : DiffEntry → Option Row
  | .added _ => none
  | .modified o _ => some o
  | .deleted r => some r

/-- The after-image an entry records for its row. -/
def DiffEntry.nowImg : DiffEntry → Option Row
  | .added r => some r
  | .modified _ n => some n
  | .deleted _ => none

/-- Error taxonomy (spec section 7) plus the modelled assertion failure and
the modelled JavaScript cast failure. -/
inductive ExnType where
  | SCOPE_ERROR
  | CONSTRAINT
  | ASSERTION
  | TYPE_ERROR
deriving DecidableEq, Repr

/-- `lf.Exception`: a kind and an informative message. -/
structure Exn where
  ty : ExnType
  msg : String
deriving DecidableEq, Repr

/-- The state `lf.cache.Journal` operates on: its own fields (`scope_`,
`tableDiffs_`, `terminated_`) together with the shared services it mutates
(`cache_`, `indexStore_`). -/
structure Journal where
  scope : List Table
  cache : Nat → Option Row
  store : IndexName → IndexData
  tableDiffs : List (String × TableDiff)
  terminated : Bool

/-- `lf.cache.Journal.prototype.getDiff` (journal.js:85-87). -/
def Journal.getDiff (s : Journal) : List (String × TableDiff) :=
  s.tableDiffs

/-- `lf.cache.Journal.prototype.getScope` (journal.js:93-95). -/
def Journal.getScope (s : Journal) : List Table :=
  s.scope

/-- `lf.cache.Journal.prototype.getIndexRange` (journal.js:104-115): collect
the row-ids of every range into a set, return its values. -/
def Journal.getIndexRange (s : Journal) (indexSchema : IndexSchema)
    (keyRanges : List KeyRange) : List Nat :=
  let rowIds : Finset Nat := keyRanges.foldl
    (fun acc keyRange =>
      acc ∪ ((s.store indexSchema.normalizedName).getRange keyRange).toFinset)
    ∅
  sortFinset rowIds

/-- `lf.cache.Journal.prototype.getTableRows` (journal.js:123-127). -/
def Journal.getTableRows (s : Journal) (tableName : String)
    (optRowIds : Option (List Nat)) : List (Option Row) :=
  let rowIds := match optRowIds with
    | some ids => ids
    | none => (s.store (IndexName.rowId tableName)).getRangeAll
  rowIds.map s.cache

/-- `lf.cache.Journal.prototype.checkScope_` (journal.js:463-469). -/
def Journal.checkScope_ (s : Journal) (tableSchema : Table) : Option Exn :=
  if (s.scope.map Table.name).contains tableSchema.name then none
  else some ⟨.SCOPE_ERROR, tableSchema.name ++ " is not in the journal\x27s scope."⟩

/-- `lf.cache.Journal.prototype.findExistingRowIdInPkIndex_`
(journal.js:293-308). -/
def Journal.findExistingRowIdInPkIndex_ (s : Journal) (t : Table) (row : Row) :
    Option Nat :=
  match t.primaryKey with
  | none => none
  | some pkIndexSchema =>
    ((s.store pkIndexSchema.normalizedName).get
      (row.keyOfIndex pkIndexSchema.normalizedName)).head?

/-- `lf.cache.Journal.prototype.checkPrimaryKeyExistence_`
(journal.js:155-181): the reported key is the first colliding row's. -/
def Journal.checkPrimaryKeyExistence_ (s : Journal) (t : Table)
    (rows : List Row) : Option Exn :=
  match t.primaryKey with
  | none => none
  | some pkIndexSchema =>
    match rows.find? (fun row => (s.findExistingRowIdInPkIndex_ t row).isSome) with
    | some row => some ⟨.CONSTRAINT,
        "A row with primary key " ++
        toString (row.keyOfIndex pkIndexSchema.normalizedName) ++
        " already exists " ++ " in table " ++ t.name⟩
    | none => none

/-- `lf.cache.Journal.prototype.checkPrimaryKeysUnique_` (journal.js:190-209). -/
def Journal.checkPrimaryKeysUnique_ (s : Journal) (t : Table)
    (rows : List Row) : Option Exn :=
  match t.primaryKey with
  | none => none
  | some pkIndexSchema =>
    let primaryKeys : Finset Int :=
      (rows.map (fun row => row.keyOfIndex pkIndexSchema.normalizedName)).toFinset
    if primaryKeys.card < rows.length then
      some ⟨.CONSTRAINT, "Primary key violation when inserting rows to " ++ t.name⟩
    else none

/-- `lf.cache.Journal.prototype.checkPrimaryKeyUpdate_` (journal.js:219-240).
A row counts as having a modified primary key when the PK-index lookup of
its (new) key differs from its own row-id; with more than one row this
always raises `CONSTRAINT`, with a single row the existence check runs on
`[rows[0]]`. -/
def Journal.checkPrimaryKeyUpdate_ (s : Journal) (t : Table)
    (rows : List Row) : Option Exn :=
  let primaryKeyModified :=
    rows.any (fun row => s.findExistingRowIdInPkIndex_ t row != some row.id)
  if !primaryKeyModified then none
  else if rows.length > 1 then
    some ⟨.CONSTRAINT, "Primary key violation when updating rows for " ++ t.name⟩
  else s.checkPrimaryKeyExistence_ t (rows.take 1)

/-- `lf.cache.Journal.prototype.updateCache_` (journal.js:381-392): remove
deleted rows, then set added rows, then set the new image of modified rows. -/
def updateCache_ (diff : TableDiff) (c : Nat → Option Row) : Nat → Option Row :=
  let c1 := diff.getDeleted.foldl
    (fun c p => fun i => if i = p.2.id then none else c i) c
  let c2 := diff.getAdded.foldl
    (fun c p => fun i => if i = p.2.id then some p.2 else c i) c1
  diff.getModified.foldl
    (fun c p => fun i => if i = p.2.2.id then some p.2.2 else c i) c2

/-- The "now / then" snapshot pairs of `updateTableIndices_`
(journal.js:401-424): deleted rows as (null, row), modified rows as
(new, old), added rows as (row, null). -/
def snapshotOf (diff : TableDiff) : List (Option Row × Option Row) :=
  diff.getDeleted.map (fun p => (none, some p.2)) ++
  diff.getModified.map (fun p => (some p.2.2, some p.2.1)) ++
  diff.getAdded.map (fun p => (some p.2, none))

/-- The per-pair index mutation of `updateTableIndices_` (journal.js:438-452):
when the projected keys differ, remove the old entry and set the new one. -/
def applyPair (name : IndexName) (c : IndexData)
    (p : Option Row × Option Row) : IndexData :=
  let keyNow := p.1.map (fun r => r.keyOfIndex name)
  let keyThen := p.2.map (fun r => r.keyOfIndex name)
  if keyNow = keyThen then c
  else
    let c1 := match p.2 with
      | some r => c.erase (r.keyOfIndex name, r.id)
      | none => c
    match p.1 with
    | some r => insert (r.keyOfIndex name, r.id) c1
    | none => c1

/-- `lf.cache.Journal.prototype.updateTableIndices_` (journal.js:400-454):
for every index of the table (including the row-id index) apply every
snapshot pair. -/
def updateTableIndices_ (t : Table) (diff : TableDiff)
    (st : IndexName → IndexData) : IndexName → IndexData :=
  t.indexNames.foldl
    (fun st name => fun m =>
      if m = name then (snapshotOf diff).foldl (applyPair name) (st name)
      else st m)
    st

/-- Update the accumulated per-table diffs: get-or-create the table's diff,
store it back, merge the fresh diff into it (journal.js:369-372). -/
def diffsSet (ds : List (String × TableDiff)) (tn : String) (d : TableDiff) :
    List (String × TableDiff) :=
  if (ds.lookup tn).isSome then
    ds.map (fun p => if p.1 = tn then (tn, d) else p)
  else ds ++ [(tn, d)]

/-- `lf.cache.Journal.prototype.applyTableDiff_` (journal.js:363-373). -/
def Journal.applyTableDiff_ (s : Journal) (t : Table) (diff : TableDiff) :
    Journal :=
  { s with
    store := updateTableIndices_ t diff s.store,
    cache := updateCache_ diff s.cache,
    tableDiffs := diffsSet s.tableDiffs t.name
      (((s.tableDiffs.lookup t.name).getD TableDiff.empty).merge diff) }

/-- `lf.cache.Journal.prototype.insert` (journal.js:134-145). -/
def Journal.insert (s : Journal) (t : Table) (rows : List Row) :
    Except (Exn × Journal) Journal :=
  match s.checkScope_ t with
  | some e => .error (e, s)
  | none =>
    match s.checkPrimaryKeysUnique_ t rows with
    | some e => .error (e, s)
    | none =>
      match s.checkPrimaryKeyExistence_ t rows with
      | some e => .error (e, s)
      | none => .ok (s.applyTableDiff_ t (buildDiff (rows.map DiffOp.add)))

/-- The per-row diff operations of `update` (journal.js:252-255): each row
contributes `modify([oldRow, row])` where `oldRow` is the cache image at the
row's id.  The source casts `cache.get([row.id()])[0]` to a row
(journal.js:253); a missing row is modelled as `none`. -/
def Journal.updOps (s : Journal) : List Row → Option (List DiffOp)
  | [] => some []
  | row :: rest =>
    match s.cache row.id with
    | some oldRow => (s.updOps rest).map (fun l => DiffOp.modify oldRow row :: l)
    | none => none

/-- `lf.cache.Journal.prototype.update` (journal.js:247-258). -/
def Journal.update (s : Journal) (t : Table) (rows : List Row) :
    Except (Exn × Journal) Journal :=
  match s.checkScope_ t with
  | some e => .error (e, s)
  | none =>
    match s.checkPrimaryKeyUpdate_ t rows with
    | some e => .error (e, s)
    | none =>
      match s.updOps rows with
      | none => .error (⟨.TYPE_ERROR, "cache miss on update"⟩, s)
      | some ops => .ok (s.applyTableDiff_ t (buildDiff ops))

/-- The per-row dispatch of `insertOrReplace` (journal.js:269-279): a row
whose primary key has an existing row is recorded as a modification of it
(with the row-id reassigned), otherwise as an addition.  The source casts
`cache.get([existingRowId])[0]` to a row (journal.js:272); a missing row is
modelled as `none`. -/
def Journal.iorOps (s : Journal) (t : Table) : List Row → Option (List DiffOp)
  | [] => some []
  | row :: rest =>
    match s.findExistingRowIdInPkIndex_ t row with
    | some existingRowId =>
      match s.cache existingRowId with
      | some oldRow =>
        (s.iorOps t rest).map
          (fun l => DiffOp.modify oldRow (row.setRowId existingRowId) :: l)
      | none => none
    | none => (s.iorOps t rest).map (fun l => DiffOp.add row :: l)

/-- `lf.cache.Journal.prototype.insertOrReplace` (journal.js:265-282). -/
def Journal.insertOrReplace (s : Journal) (t : Table) (rows : List Row) :
    Except (Exn × Journal) Journal :=
  match s.checkScope_ t with
  | some e => .error (e, s)
  | none =>
    match s.iorOps t rows with
    | none => .error (⟨.TYPE_ERROR, "cache miss on insertOrReplace"⟩, s)
    | some ops => .ok (s.applyTableDiff_ t (buildDiff ops))

/-- `lf.cache.Journal.prototype.remove` (journal.js:315-324). -/
def Journal.remove (s : Journal) (t : Table) (rows : List Row) :
    Except (Exn × Journal) Journal :=
  match s.checkScope_ t with
  | some e => .error (e, s)
  | none => .ok (s.applyTableDiff_ t (buildDiff (rows.map DiffOp.del)))

/-- `lf.cache.Journal.prototype.commit` (journal.js:330-334): assert not
terminated, mark terminated. -/
def Journal.commit (s : Journal) : Except (Exn × Journal) Journal :=
  if s.terminated then
    .error (⟨.ASSERTION, "Attemptted to commit a terminated journal."⟩, s)
  else .ok { s with terminated := true }

/-- `lf.cache.Journal.prototype.rollback` (journal.js:341-354): for each
accumulated per-table diff (in insertion order), look its table schema up
in the scope, apply the reverse diff to the indices and then the cache;
mark terminated. -/
def Journal.rollback (s : Journal) : Except (Exn × Journal) Journal :=
  if s.terminated then
    .error (⟨.ASSERTION, "Attempted to rollback a terminated journal."⟩, s)
  else
    let st := s.tableDiffs.foldl
      (fun (acc : (IndexName → IndexData) × (Nat → Option Row)) p =>
        match s.scope.find? (fun t => t.name = p.1) with
        | some tableSchema =>
          let reverseDiff := p.2.getReverse
          (updateTableIndices_ tableSchema reverseDiff acc.1,
           updateCache_ reverseDiff acc.2)
        | none => acc)
      (s.store, s.cache)
    .ok { s with store := st.1, cache := st.2, terminated := true }

/-- One mutation operation issued to a journal. -/
inductive JournalOp where
  | ins (t : Table) (rows : List Row)
  | upd (t : Table) (rows : List Row)
  | ior (t : Table) (rows : List Row)
  | rem (t : Table) (rows : List Row)
deriving Repr

/-- Dispatch a mutation operation. -/
def Journal.runOp (s : Journal) : JournalOp → Except (Exn × Journal) Journal
  | .ins t rows => s.insert t rows
  | .upd t rows => s.update t rows
  | .ior t rows => s.insertOrReplace t rows
  | .rem t rows => s.remove t rows

/-- Run a sequence of mutation operations, stopping at the first failure. -/
def Journal.runOps (s : Journal) : List JournalOp → Except (Exn × Journal) Journal
  | [] => .ok s
  | op :: rest =>
    match s.runOp op with
    | .ok s1 => s1.runOps rest
    | .error e => .error e

/-! ## Statement helpers -/

/-- The kind of the thrown exception, if any. -/
def errType : Except (Exn × Journal) Journal → Option ExnType
  | .error (e, _) => some e.ty
  | .ok _ => none

/-- The full thrown exception, if any. -/
def errExn : Except (Exn × Journal) Journal → Option Exn
  | .error (e, _) => some e
  | .ok _ => none

/-- The state carried by the thrown exception (the state at the moment of
the throw), if any. -/
def errJournal : Except (Exn × Journal) Journal → Option Journal
  | .error (_, s) => some s
  | .ok _ => none

/-- The resulting state of a successful call, if any. -/
def okJournal : Except (Exn × Journal) Journal → Option Journal
  | .ok s => some s
  | .error _ => none

/-- Run a sequence of operations and then `rollback`, returning the final
cache and index store. -/
def roundTrip (s0 : Journal) (ops : List JournalOp) :
    Option ((Nat → Option Row) × (IndexName → IndexData)) :=
  match s0.runOps ops with
  | .ok s1 =>
    match s1.rollback with
    | .ok s2 => some (s2.cache, s2.store)
    | .error _ => none
  | .error _ => none

/-! ## Well-formedness -/

/-- The row images inside a diff entry carry the row-id the entry is keyed
by. -/
def DiffEntry.idsMatch : DiffEntry → Nat → Prop
  | .added r, j => r.id = j
  | .modified o n, j => o.id = j ∧ n.id = j
  | .deleted r, j => r.id = j

/-- A well-formed table diff: one entry per row-id, and every row image
carries the row-id of its entry. -/
structure DiffWF (d : TableDiff) : Prop where
  nodup : (d.entries.map Prod.fst).Nodup
  ids : ∀ p ∈ d.entries, p.2.idsMatch p.1

/-- A well-formed table schema: the index names (declared plus the implicit
row-id index) are distinct, and the primary key, when declared, is among
the declared indices. -/
def TableWF (t : Table) : Prop :=
  t.indexNames.Nodup ∧ ∀ pk, t.primaryKey = some pk → pk ∈ t.indices

/-- Well-formedness of the shared state a journal operates on: the cache
and the indices of every in-scope table describe the same row population.
These are the invariants the surrounding engine maintains (spec sections 3
and 8). -/
structure StateWF (s : Journal) : Prop where
  scopeNames : (s.scope.map Table.name).Nodup
  tablesWF : ∀ t ∈ s.scope, TableWF t
  namesDisjoint : ∀ t ∈ s.scope, ∀ u ∈ s.scope, t ≠ u →
    ∀ n ∈ t.indexNames, n ∉ u.indexNames
  cacheIds : ∀ j r, s.cache j = some r → r.id = j
  storeSound : ∀ t ∈ s.scope, ∀ n ∈ t.indexNames, ∀ (k : Int) (j : Nat),
    (k, j) ∈ s.store n →
    ∃ r, s.cache j = some r ∧ k = r.keyOfIndex n ∧
      ((j : Int), j) ∈ s.store (IndexName.rowId t.name)
  storeComplete : ∀ t ∈ s.scope, ∀ n ∈ t.indexNames, ∀ (j : Nat) (r : Row),
    ((j : Int), j) ∈ s.store (IndexName.rowId t.name) →
    s.cache j = some r → (r.keyOfIndex n, j) ∈ s.store n
  popDisjoint : ∀ t ∈ s.scope, ∀ u ∈ s.scope, t ≠ u → ∀ (j : Nat),
    ((j : Int), j) ∈ s.store (IndexName.rowId t.name) →
    ((j : Int), j) ∉ s.store (IndexName.rowId u.name)

/-- No accumulated diff of a table other than `tn` touches row-id `j`. -/
def ownerOkay (ds : List (String × TableDiff)) (tn : String) (j : Nat) : Bool :=
  ds.all (fun p => p.1 = tn || (p.2.find j).isNone)

/-- Per-operation side conditions under which an operation is a meaningful
journal call (fresh row-ids for insertions, live rows of the right table
for updates and removals, removed rows passed as their current images).
Real executions satisfy these: row-ids are engine-assigned and globally
unique, and callers feed rows fetched from the same journal. -/
def Journal.opOK (s : Journal) : JournalOp → Bool
  | .ins t rows =>
    decide (t ∈ s.scope) &&
    rows.all (fun row =>
      (s.cache row.id).isNone && ownerOkay s.tableDiffs t.name row.id)
  | .upd t rows =>
    decide (t ∈ s.scope) &&
    rows.all (fun row =>
      (s.cache row.id).isSome &&
      decide (((row.id : Int), row.id) ∈ s.store (IndexName.rowId t.name)))
  | .ior t rows =>
    decide (t ∈ s.scope) &&
    rows.all (fun row =>
      (s.findExistingRowIdInPkIndex_ t row).isSome ||
      ((s.cache row.id).isNone && ownerOkay s.tableDiffs t.name row.id))
  | .rem t rows =>
    decide (t ∈ s.scope) &&
    rows.all (fun row =>
      (s.cache row.id == some row) &&
      decide (((row.id : Int), row.id) ∈ s.store (IndexName.rowId t.name)))

/-- Stepwise side conditions over a sequence of operations. -/
def Journal.opsOK (s : Journal) : List JournalOp → Bool
  | [] => true
  | op :: rest =>
    s.opOK op &&
    (match s.runOp op with
     | .ok s1 => s1.opsOK rest
     | .error _ => true)

/-! ## Linking relation used for the rollback proof -/

/-- The accumulated diff of a table (empty when absent). -/
def diffOf (ds : List (String × TableDiff)) (tn : String) : TableDiff :=
  (ds.lookup tn).getD TableDiff.empty

/-- The diff entry recorded for row-id `j` across all accumulated diffs. -/
def findDiffEntry (ds : List (String × TableDiff)) (j : Nat) : Option DiffEntry :=
  ds.findSome? (fun p => p.2.find j)

/-- The in-scope table owning a normalized index name. -/
def ownerTable (scope : List Table) (n : IndexName) : Option Table :=
  scope.find? (fun t => t.indexNames.contains n)

/-- The linking relation between the journal state at construction time
(`s0`) and the current state (`s`): the current cache and indices are the
initial ones transformed per row-id by the accumulated diff entries, and
the before-images of the accumulated diffs record the initial state. -/
structure Link (s0 s : Journal) : Prop where
  scopeEq : s.scope = s0.scope
  termEq : s.terminated = s0.terminated
  diffNames : ∀ p ∈ s.tableDiffs, ∃ t ∈ s0.scope, t.name = p.1
  diffKeysNodup : (s.tableDiffs.map Prod.fst).Nodup
  diffWF : ∀ p ∈ s.tableDiffs, DiffWF p.2
  ownerUnique : ∀ p ∈ s.tableDiffs, ∀ q ∈ s.tableDiffs, ∀ j,
    (p.2.find j).isSome → (q.2.find j).isSome → p.1 = q.1
  cacheNow : ∀ j, s.cache j =
    (match findDiffEntry s.tableDiffs j with
     | some e => e.nowImg
     | none => s0.cache j)
  cacheThen : ∀ j e, findDiffEntry s.tableDiffs j = some e →
    s0.cache j = e.thenImg
  storeNow : ∀ t ∈ s0.scope, ∀ n ∈ t.indexNames, ∀ (k : Int) (j : Nat),
    (match (diffOf s.tableDiffs t.name).find j with
     | some e => ((k, j) ∈ s.store n ↔ ∃ r, e.nowImg = some r ∧ k = r.keyOfIndex n)
     | none => ((k, j) ∈ s.store n ↔ (k, j) ∈ s0.store n))
  storeThen : ∀ t ∈ s0.scope, ∀ n ∈ t.indexNames, ∀ (k : Int) (j : Nat) (e : DiffEntry),
    (diffOf s.tableDiffs t.name).find j = some e →
    ((k, j) ∈ s0.store n ↔ ∃ r, e.thenImg = some r ∧ k = r.keyOfIndex n)
  storeUnowned : ∀ n, (∀ t ∈ s0.scope, n ∉ t.indexNames) →
    s.store n = s0.store n

/-! ## Derived notions used by the rollback verification -/

/-- The before-image a diff operation records. -/
def DiffOp.thenImg : DiffOp → Option Row
  | .add _ => none
  | .modify o _ => some o
  | .del r => some r

/-- The after-image a diff operation records. -/
def DiffOp.nowImg : DiffOp → Option Row
  | .add r => some r
  | .modify _ n => some n
  | .del _ => none

/-- For `modify` operations, both images carry the same row-id. -/
def DiffOp.idsOK : DiffOp → Prop
  | .modify o n => n.id = o.id
  | _ => True

/-- The merge table (spec section 3) as a cell function: the entry a diff
holds at a row-id after one more operation on that row-id. -/
def mergeCell : Option DiffEntry → DiffOp → Option DiffEntry
  | none, .add n => some (.added n)
  | none, .modify o n => some (.modified o n)
  | none, .del r => some (.deleted r)
  | some (.added _), .add n => some (.added n)
  | some (.added _), .modify _ n => some (.added n)
  | some (.added _), .del _ => none
  | some (.modified o₁ _), .add n => some (.modified o₁ n)
  | some (.modified o₁ _), .modify _ n => some (.modified o₁ n)
  | some (.modified o₁ _), .del _ => some (.deleted o₁)
  | some (.deleted dr), .add n =>
      if n = dr then none else some (.modified dr n)
  | some (.deleted dr), .modify _ n => some (.modified dr n)
  | some (.deleted dr), .del _ => some (.deleted dr)

/-- The operation `merge` replays for an entry. -/
def entryToOp : DiffEntry → DiffOp
  | .added r => .add r
  | .modified o n => .modify o n
  | .deleted r => .del r

/-- Every before-image a diff records is the current cache image of its
row. -/
def ChainsWith (s : Journal) (d : TableDiff) : Prop :=
  ∀ j e, d.find j = some e → e.thenImg = s.cache j

/-- Every row a diff touches with a live before-image is in the table's
row-id index. -/
def BelongsTo (s : Journal) (tn : String) (d : TableDiff) : Prop :=
  ∀ j e, d.find j = some e → e.thenImg ≠ none →
    ((j : Int), j) ∈ s.store (IndexName.rowId tn)

/-- The row-id of a snapshot pair (both sides agree when both are present). -/
def pairRowId : Option Row × Option Row → Nat
  | (some r, _) => r.id
  | (none, some r) => r.id
  | (none, none) => 0

/-- A meaningful snapshot pair: at least one side present and both sides
carrying the same row-id. -/
def pairGood : Option Row × Option Row → Prop
  | (some rN, some rT) => rN.id = rT.id
  | (some _, none) => True
  | (none, some _) => True
  | (none, none) => False

/-- Membership in an index at `(k, pairRowId p)` after `applyPair`, as a
function of previous membership `b`. -/
def pairMemAfter (n : IndexName) (p : Option Row × Option Row) (k : Int)
    (b : Prop) : Prop :=
  if p.1.map (fun r => r.keyOfIndex n) = p.2.map (fun r => r.keyOfIndex n) then b
  else (p.1.map (fun r => r.keyOfIndex n) = some k ∨
        (b ∧ p.2.map (fun r => r.keyOfIndex n) ≠ some k))

/-! ## Concrete fixtures for witnesses and counterexamples -/

/-- The primary-key index schema of the fixture table `T1`. -/
def pkNameT1 : IndexName := IndexName.normal "T1.pkId"

def pkSchemaT1 : IndexSchema := ⟨pkNameT1⟩

/-- Fixture table `T1` with a primary key (spec section 8 scenarios). -/
def tblT1 : Table := ⟨"T1", some pkSchemaT1, [pkSchemaT1]⟩

/-- Fixture table `TN` without a primary key. -/
def tblTN : Table := ⟨"TN", none, []⟩

/-- Fixture table `T2`, not in any fixture scope. -/
def tblT2 : Table := ⟨"T2", some ⟨IndexName.normal "T2.pkId"⟩, [⟨IndexName.normal "T2.pkId"⟩]⟩

def rowA : Row := ⟨1, [("T1.pkId", 10)]⟩

def rowB : Row := ⟨2, [("T1.pkId", 20)]⟩

/-- Row 2 updated to the fresh primary key 99. -/
def rowB99 : Row := ⟨2, [("T1.pkId", 99)]⟩

/-- Row 2 updated to primary key 10 (colliding with row 1). -/
def rowB10 : Row := ⟨2, [("T1.pkId", 10)]⟩

/-- A row sharing `rowA`'s primary key but with a fresh row-id. -/
def rowC10 : Row := ⟨3, [("T1.pkId", 10)]⟩

def rowD : Row := ⟨4, [("T1.pkId", 40)]⟩

def rowN1 : Row := ⟨7, []⟩

def rowN2 : Row := ⟨8, []⟩

/-- The empty journal over scope `[T1, TN]`. -/
def J0 : Journal :=
  { scope := [tblT1, tblTN],
    cache := fun _ => none,
    store := fun _ => ∅,
    tableDiffs := [],
    terminated := false }

/-- A journal over scope `[T1, TN]` whose shared state holds `rowA` and
`rowB` in `T1`, with consistent cache and indices and no accumulated
diffs. -/
def J2 : Journal :=
  { scope := [tblT1, tblTN],
    cache := fun i => if i = 1 then some rowA else if i = 2 then some rowB else none,
    store := fun n =>
      if n = pkNameT1 then {((10 : Int), 1), ((20 : Int), 2)}
      else if n = IndexName.rowId "T1" then {((1 : Int), 1), ((2 : Int), 2)}
      else ∅,
    tableDiffs := [],
    terminated := false }

/-- A journal with no-PK table state: `rowN1` lives in `TN`. -/
def JN : Journal :=
  { scope := [tblT1, tblTN],
    cache := fun i => if i = 7 then some rowN1 else none,
    store := fun n => if n = IndexName.rowId "TN" then {((7 : Int), 7)} else ∅,
    tableDiffs := [],
    terminated := false }

/-- The fixture journal `J0` after its `commit` has sealed it. -/
def JC : Journal := { J0 with terminated := true }

/-- A journal with an accumulated (forward) diff recording the insertion of
`rowA`, consistent with `J2`-like shared state. -/
def JD : Journal :=
  { scope := [tblT1, tblTN],
    cache := fun i => if i = 1 then some rowA else none,
    store := fun n =>
      if n = pkNameT1 then {((10 : Int), 1)}
      else if n = IndexName.rowId "T1" then {((1 : Int), 1)}
      else ∅,
    tableDiffs := [("T1", ⟨[(1, DiffEntry.added rowA)]⟩)],
    terminated := false }

/-! # Theorems -/

/-! ## General helper lemmas -/

theorem insSortedNat_perm (a : Nat) (l : List Nat) :
    (insSortedNat a l).Perm (a :: l) := by
  induction l with
  | nil => simp [insSortedNat]
  | cons b l ih =>
    simp only [insSortedNat]
    split
    · exact List.Perm.refl _
    · exact (ih.cons b).trans (List.Perm.swap a b l)

theorem coe_foldr_insSortedNat (m : Multiset Nat) :
    ((Multiset.foldr insSortedNat [] m : List Nat) : Multiset Nat) = m := by
  induction m using Multiset.induction_on with
  | empty => simp
  | cons a m ih =>
    rw [Multiset.foldr_cons]
    calc ((insSortedNat a (Multiset.foldr insSortedNat [] m) : List Nat) : Multiset Nat)
        = ((a :: Multiset.foldr insSortedNat [] m : List Nat) : Multiset Nat) :=
          Multiset.coe_eq_coe.mpr (insSortedNat_perm a _)
      _ = a ::ₘ ((Multiset.foldr insSortedNat [] m : List Nat) : Multiset Nat) := by
          rw [Multiset.cons_coe]
      _ = a ::ₘ m := by rw [ih]

theorem coe_sortFinset (s : Finset Nat) :
    ((sortFinset s : List Nat) : Multiset Nat) = s.val :=
  coe_foldr_insSortedNat s.val

theorem mem_sortFinset {j : Nat} {s : Finset Nat} : j ∈ sortFinset s ↔ j ∈ s := by
  rw [← Multiset.mem_coe, coe_sortFinset]
  exact Iff.rfl

theorem sortFinset_nodup (s : Finset Nat) : (sortFinset s).Nodup := by
  rw [← Multiset.coe_nodup, coe_sortFinset]
  exact s.nodup

theorem runOp_error_state (s : Journal) (op : JournalOp) (x : Exn)
    (s2 : Journal) (h : s.runOp op = .error (x, s2)) : s2 = s := by
  cases op with
  | ins t rows =>
    simp only [Journal.runOp, Journal.insert] at h
    split at h
    · cases h; rfl
    · split at h
      · cases h; rfl
      · split at h
        · cases h; rfl
        · cases h
  | upd t rows =>
    simp only [Journal.runOp, Journal.update] at h
    split at h
    · cases h; rfl
    · split at h
      · cases h; rfl
      · split at h
        · cases h; rfl
        · cases h
  | ior t rows =>
    simp only [Journal.runOp, Journal.insertOrReplace] at h
    split at h
    · cases h; rfl
    · split at h
      · cases h; rfl
      · cases h
  | rem t rows =>
    simp only [Journal.runOp, Journal.remove] at h
    split at h
    · cases h; rfl
    · cases h

theorem mem_IndexData_get {idx : IndexData} {k : Int} {j : Nat} :
    j ∈ idx.get k ↔ (k, j) ∈ idx := by
  unfold IndexData.get
  rw [mem_sortFinset, Finset.mem_image]
  constructor
  · rintro ⟨⟨k2, j2⟩, hmem, rfl⟩
    rw [Finset.mem_filter] at hmem
    obtain ⟨hm, he⟩ := hmem
    simp only [] at he
    subst he
    exact hm
  · intro hm
    exact ⟨(k, j), Finset.mem_filter.mpr ⟨hm, rfl⟩, rfl⟩

theorem head?_isSome_iff {α : Type} (l : List α) :
    l.head?.isSome ↔ ∃ x, x ∈ l := by
  cases l <;> simp

theorem checkScope_eq_none_iff (s : Journal) (t : Table) :
    s.checkScope_ t = none ↔ t.name ∈ s.scope.map Table.name := by
  unfold Journal.checkScope_
  split <;> rename_i h <;> simp_all

theorem checkScope_of_mem (s : Journal) (t : Table)
    (h : t.name ∈ s.scope.map Table.name) : s.checkScope_ t = none :=
  (checkScope_eq_none_iff s t).mpr h

theorem findExisting_isSome_iff (s : Journal) (t : Table) (row : Row)
    (pk : IndexSchema) (hpk : t.primaryKey = some pk) :
    (s.findExistingRowIdInPkIndex_ t row).isSome ↔
      ∃ rid, (row.keyOfIndex pk.normalizedName, rid) ∈ s.store pk.normalizedName := by
  unfold Journal.findExistingRowIdInPkIndex_
  rw [hpk]
  simp only [head?_isSome_iff]
  constructor
  · rintro ⟨rid, hm⟩
    exact ⟨rid, mem_IndexData_get.mp hm⟩
  · rintro ⟨rid, hm⟩
    exact ⟨rid, mem_IndexData_get.mpr hm⟩

theorem findExisting_mem (s : Journal) (t : Table) (row : Row)
    (pk : IndexSchema) (hpk : t.primaryKey = some pk) (rid : Nat)
    (h : s.findExistingRowIdInPkIndex_ t row = some rid) :
    (row.keyOfIndex pk.normalizedName, rid) ∈ s.store pk.normalizedName := by
  unfold Journal.findExistingRowIdInPkIndex_ at h
  rw [hpk] at h
  exact mem_IndexData_get.mp (List.mem_of_mem_head? h)

theorem findExisting_of_no_pk (s : Journal) (t : Table) (row : Row)
    (hpk : t.primaryKey = none) : s.findExistingRowIdInPkIndex_ t row = none := by
  unfold Journal.findExistingRowIdInPkIndex_
  rw [hpk]

theorem toFinset_card_lt_iff {l : List Int} :
    l.toFinset.card < l.length ↔ ¬ l.Nodup := by
  constructor
  · intro h hn
    rw [List.toFinset_card_of_nodup hn] at h
    exact lt_irrefl _ h
  · intro h
    refine Nat.lt_of_le_of_ne (List.toFinset_card_le l) ?_
    intro heq
    exact h (Multiset.coe_nodup.mp
      ((Multiset.toFinset_card_eq_card_iff_nodup (m := (l : Multiset Int))).mp heq))

theorem checkUnique_eq_none_iff (s : Journal) (t : Table) (rows : List Row)
    (pk : IndexSchema) (hpk : t.primaryKey = some pk) :
    s.checkPrimaryKeysUnique_ t rows = none ↔
      (rows.map (fun row => row.keyOfIndex pk.normalizedName)).Nodup := by
  simp only [Journal.checkPrimaryKeysUnique_, hpk]
  split <;> rename_i h
  · constructor
    · intro hc; cases hc
    · intro hn
      rw [List.toFinset_card_of_nodup hn, List.length_map] at h
      exact absurd h (lt_irrefl _)
  · constructor
    · intro _
      by_contra hn
      have hlt := toFinset_card_lt_iff.mpr hn
      rw [List.length_map] at hlt
      exact h hlt
    · intro _
      rfl

theorem checkExistence_eq_none_iff (s : Journal) (t : Table) (rows : List Row)
    (pk : IndexSchema) (hpk : t.primaryKey = some pk) :
    s.checkPrimaryKeyExistence_ t rows = none ↔
      ∀ row ∈ rows, s.findExistingRowIdInPkIndex_ t row = none := by
  simp only [Journal.checkPrimaryKeyExistence_, hpk]
  cases hf : rows.find? (fun row => (s.findExistingRowIdInPkIndex_ t row).isSome) with
  | none =>
    simp only []
    rw [List.find?_eq_none] at hf
    constructor
    · intro _ row hr
      have := hf row hr
      simpa using this
    · intro _; trivial
  | some row =>
    simp only []
    constructor
    · intro hc; cases hc
    · intro hall
      have hmem := List.mem_of_find?_eq_some hf
      have hsome := List.find?_some hf
      rw [hall row hmem] at hsome
      cases hsome

theorem checkUnique_eq_some (s : Journal) (t : Table) (rows : List Row)
    (pk : IndexSchema) (hpk : t.primaryKey = some pk)
    (h : ¬ (rows.map (fun row => row.keyOfIndex pk.normalizedName)).Nodup) :
    s.checkPrimaryKeysUnique_ t rows =
      some ⟨ExnType.CONSTRAINT,
        "Primary key violation when inserting rows to " ++ t.name⟩ := by
  simp only [Journal.checkPrimaryKeysUnique_, hpk]
  split <;> rename_i hlt
  · rfl
  · exfalso
    have := toFinset_card_lt_iff.mpr h
    rw [List.length_map] at this
    exact hlt this

theorem checkExistence_eq_some (s : Journal) (t : Table) (rows : List Row)
    (pk : IndexSchema) (row : Row) (hpk : t.primaryKey = some pk)
    (hf : rows.find? (fun row => (s.findExistingRowIdInPkIndex_ t row).isSome) =
      some row) :
    s.checkPrimaryKeyExistence_ t rows =
      some ⟨ExnType.CONSTRAINT,
        "A row with primary key " ++
        toString (row.keyOfIndex pk.normalizedName) ++
        " already exists " ++ " in table " ++ t.name⟩ := by
  simp only [Journal.checkPrimaryKeyExistence_, hpk, hf]

theorem checkScope_some_ty (s : Journal) (t : Table) (e : Exn)
    (h : s.checkScope_ t = some e) : e.ty = ExnType.SCOPE_ERROR := by
  unfold Journal.checkScope_ at h
  split at h
  · cases h
  · cases h; rfl

theorem updOps_eq_some (s : Journal) (rows : List Row)
    (h : ∀ row ∈ rows, (s.cache row.id).isSome) :
    ∃ ops, s.updOps rows = some ops := by
  induction rows with
  | nil => exact ⟨[], rfl⟩
  | cons row rest ih =>
    have hr := h row (List.mem_cons_self row rest)
    obtain ⟨oldRow, ho⟩ := Option.isSome_iff_exists.mp hr
    obtain ⟨ops, hops⟩ := ih (fun r hmem => h r (List.mem_cons_of_mem row hmem))
    refine ⟨DiffOp.modify oldRow row :: ops, ?_⟩
    simp only [Journal.updOps, ho, hops]
    rfl

/-! ## C1 -/

/-- C1: every `insert`, `update`, `insertOrReplace` or `remove` call that
fails with `SCOPE_ERROR` or `CONSTRAINT` leaves the journal — row cache,
indices, and accumulated per-table diffs — exactly in its pre-call state:
the exception carries a state equal to the input state. -/
theorem c1_failed_op_leaves_state_unchanged (s : Journal) (op : JournalOp)
    (h : errType (s.runOp op) = some ExnType.SCOPE_ERROR ∨
         errType (s.runOp op) = some ExnType.CONSTRAINT) :
    errJournal (s.runOp op) = some s := by
  match hr : s.runOp op with
  | .ok s1 => rw [hr] at h; simp [errType] at h
  | .error (x, s2) =>
    simp only [errJournal]
    rw [runOp_error_state s op x s2 hr]

/-- Witness for C1: an out-of-scope insert on the fixture journal fails with
`SCOPE_ERROR` and the carried state is the pre-call state. -/
theorem c1_witness :
    (errType (J0.runOp (JournalOp.ins tblT2 [rowA])) = some ExnType.SCOPE_ERROR ∨
     errType (J0.runOp (JournalOp.ins tblT2 [rowA])) = some ExnType.CONSTRAINT) ∧
    errJournal (J0.runOp (JournalOp.ins tblT2 [rowA])) = some J0 :=
  ⟨Or.inl (by decide),
   c1_failed_op_leaves_state_unchanged J0 (JournalOp.ins tblT2 [rowA])
     (Or.inl (by decide))⟩

/-! ## C3 -/

/-- C3 (code bug): the source's own comment (journal.js:64-67) says a
terminated journal "can no longer be modified", and the spec says every
further operation is rejected, but only `commit` and `rollback` check the
flag.  After a successful `commit` the journal is terminated, yet a
subsequent `insert` raises no error at all and mutates the cache. -/
theorem c3_terminated_journal_accepts_insert :
    J0.commit = .ok JC ∧
    JC.terminated = true ∧
    errType (JC.insert tblT1 [rowA]) = none ∧
    (okJournal (JC.insert tblT1 [rowA])).map (fun s2 => s2.cache 1) =
      some (some rowA) := by
  refine ⟨rfl, rfl, ?_, ?_⟩ <;> decide

/-! ## C7 -/

theorem foldl_union_mem (krs : List KeyRange) (idx : IndexData)
    (acc : Finset Nat) (j : Nat) :
    (j ∈ krs.foldl (fun acc kr => acc ∪ (idx.getRange kr).toFinset) acc) ↔
      j ∈ acc ∨ ∃ kr ∈ krs, j ∈ idx.getRange kr := by
  induction krs generalizing acc with
  | nil => simp
  | cons kr rest ih =>
    rw [List.foldl_cons, ih]
    simp only [Finset.mem_union, List.mem_toFinset, List.mem_cons]
    constructor
    · rintro ((h | h) | ⟨kr2, h2, h3⟩)
      · exact Or.inl h
      · exact Or.inr ⟨kr, Or.inl rfl, h⟩
      · exact Or.inr ⟨kr2, Or.inr h2, h3⟩
    · rintro (h | ⟨kr2, (rfl | h2), h3⟩)
      · exact Or.inl (Or.inl h)
      · exact Or.inl (Or.inr h3)
      · exact Or.inr ⟨kr2, h2, h3⟩

/-- C7: `getIndexRange` returns, as a set, exactly the de-duplicated union
over the given ranges of `index.getRange(range)` on the current state of
the named index; the returned list carries no duplicates. -/
theorem c7_getIndexRange_is_deduplicated_union (s : Journal)
    (indexSchema : IndexSchema) (keyRanges : List KeyRange) :
    (s.getIndexRange indexSchema keyRanges).Nodup ∧
    ∀ j, j ∈ s.getIndexRange indexSchema keyRanges ↔
      ∃ kr ∈ keyRanges, j ∈ (s.store indexSchema.normalizedName).getRange kr := by
  constructor
  · exact sortFinset_nodup _
  · intro j
    unfold Journal.getIndexRange
    rw [mem_sortFinset]
    rw [foldl_union_mem]
    simp

/-! ## C8 -/

/-- C8: `getTableRows` and `getIndexRange` perform no scope validation: they
are insensitive to the journal's scope (and, being total, cannot raise
`SCOPE_ERROR`), returning results straight from the shared cache and index
store for any table or index name. -/
theorem c8_reads_ignore_scope (s : Journal) (sc : List Table) (tn : String)
    (optRowIds : Option (List Nat)) (indexSchema : IndexSchema)
    (keyRanges : List KeyRange) :
    Journal.getTableRows { s with scope := sc } tn optRowIds =
      s.getTableRows tn optRowIds ∧
    Journal.getIndexRange { s with scope := sc } indexSchema keyRanges =
      s.getIndexRange indexSchema keyRanges :=
  ⟨rfl, rfl⟩

/-! ## C9 -/

/-- C9: `rollback` mutates only the cache, the indices and the terminated
flag: the accumulated `tableDiffs` map is left untouched, so `getDiff`
still returns the forward per-table diffs accumulated before the rollback. -/
theorem c9_rollback_preserves_diffs (s : Journal) (h : s.terminated = false) :
    (s.rollback).map Journal.getDiff = .ok s.getDiff ∧
    (s.rollback).map Journal.terminated = .ok true ∧
    (s.rollback).map Journal.getScope = .ok s.getScope := by
  unfold Journal.rollback
  rw [h]
  exact ⟨rfl, rfl, rfl⟩

/-- Witness for C9: rolling back the fixture journal with a non-empty
accumulated diff keeps `getDiff` intact. -/
theorem c9_witness :
    JD.terminated = false ∧
    ((JD.rollback).map Journal.getDiff = .ok JD.getDiff ∧
     (JD.rollback).map Journal.terminated = .ok true ∧
     (JD.rollback).map Journal.getScope = .ok JD.getScope) :=
  ⟨rfl, c9_rollback_preserves_diffs JD rfl⟩

/-! ## C5 -/

/-- C5: for an in-scope `insert` on a table with a primary key: a batch with
two rows sharing a primary key fails with `CONSTRAINT`; a batch whose first
colliding row's key is already present in the PK index fails with
`CONSTRAINT` quoting that key and the table name; otherwise the call
records `add(row)` for each row and applies the diff. -/
theorem c5_insert_constraint_checks (s : Journal) (t : Table) (rows : List Row)
    (pk : IndexSchema) (hpk : t.primaryKey = some pk)
    (hscope : t.name ∈ s.scope.map Table.name) :
    (¬ (rows.map (fun row => row.keyOfIndex pk.normalizedName)).Nodup →
      s.insert t rows = .error
        (⟨ExnType.CONSTRAINT,
          "Primary key violation when inserting rows to " ++ t.name⟩, s)) ∧
    (∀ row, (rows.map (fun row => row.keyOfIndex pk.normalizedName)).Nodup →
      rows.find? (fun row => (s.findExistingRowIdInPkIndex_ t row).isSome) =
        some row →
      s.insert t rows = .error
        (⟨ExnType.CONSTRAINT,
          "A row with primary key " ++
          toString (row.keyOfIndex pk.normalizedName) ++
          " already exists " ++ " in table " ++ t.name⟩, s)) ∧
    ((rows.map (fun row => row.keyOfIndex pk.normalizedName)).Nodup →
      (∀ row ∈ rows, ∀ rid,
        (row.keyOfIndex pk.normalizedName, rid) ∉ s.store pk.normalizedName) →
      s.insert t rows = .ok (s.applyTableDiff_ t (buildDiff (rows.map DiffOp.add)))) := by
  have h1 := checkScope_of_mem s t hscope
  refine ⟨?_, ?_, ?_⟩
  · intro hdup
    simp only [Journal.insert, h1, checkUnique_eq_some s t rows pk hpk hdup]
  · intro row hnd hf
    have h2 := (checkUnique_eq_none_iff s t rows pk hpk).mpr hnd
    simp only [Journal.insert, h1, h2, checkExistence_eq_some s t rows pk row hpk hf]
  · intro hnd hnone
    have h2 := (checkUnique_eq_none_iff s t rows pk hpk).mpr hnd
    have h3 : s.checkPrimaryKeyExistence_ t rows = none := by
      rw [checkExistence_eq_none_iff s t rows pk hpk]
      intro row hr
      rw [← Option.not_isSome_iff_eq_none]
      rw [findExisting_isSome_iff s t row pk hpk]
      rintro ⟨rid, hm⟩
      exact hnone row hr rid hm
    simp only [Journal.insert, h1, h2, h3]

/-- Witness for C5: inserting a row whose primary key 10 is already held by
`rowA` in `J2` fails with `CONSTRAINT` quoting key and table. -/
theorem c5_witness :
    tblT1.primaryKey = some pkSchemaT1 ∧
    tblT1.name ∈ J2.scope.map Table.name ∧
    ([rowC10].map (fun row => row.keyOfIndex pkSchemaT1.normalizedName)).Nodup ∧
    J2.insert tblT1 [rowC10] = .error
      (⟨ExnType.CONSTRAINT,
        "A row with primary key " ++
        toString (rowC10.keyOfIndex pkSchemaT1.normalizedName) ++
        " already exists " ++ " in table " ++ tblT1.name⟩, J2) := by
  refine ⟨rfl, by decide, by decide, ?_⟩
  exact (c5_insert_constraint_checks J2 tblT1 [rowC10] pkSchemaT1 rfl
    (by decide)).2.1 rowC10 (by decide) (by decide)

/-! ## C10 -/

/-- C10: for an in-scope table with no primary key, `update` with two or
more rows always throws `CONSTRAINT` (the PK-index lookup is null for such
tables, so every row counts as having a modified primary key), while
`update` with a single (cached) row succeeds. -/
theorem c10_update_no_pk_table (s : Journal) (t : Table) (rows : List Row)
    (hpk : t.primaryKey = none)
    (hscope : t.name ∈ s.scope.map Table.name) :
    (rows.length ≥ 2 →
      s.update t rows = .error
        (⟨ExnType.CONSTRAINT,
          "Primary key violation when updating rows for " ++ t.name⟩, s)) ∧
    (∀ row, rows = [row] → (s.cache row.id).isSome →
      (s.update t rows).isOk = true) := by
  have h1 := checkScope_of_mem s t hscope
  constructor
  · intro hlen
    obtain ⟨row, rest, rfl⟩ : ∃ row rest, rows = row :: rest := by
      cases rows with
      | nil => simp at hlen
      | cons a l => exact ⟨a, l, rfl⟩
    have hmod : (row :: rest).any
        (fun row => s.findExistingRowIdInPkIndex_ t row != some row.id) = true := by
      refine List.any_eq_true.mpr ⟨row, List.mem_cons_self row rest, ?_⟩
      rw [findExisting_of_no_pk s t row hpk]
      rfl
    have hcu : s.checkPrimaryKeyUpdate_ t (row :: rest) =
        some ⟨ExnType.CONSTRAINT,
          "Primary key violation when updating rows for " ++ t.name⟩ := by
      simp only [Journal.checkPrimaryKeyUpdate_, hmod, Bool.not_true, Bool.false_eq_true,
        if_false, List.length_cons, gt_iff_lt]
      have : 1 < rest.length + 1 := by
        simp only [List.length_cons] at hlen
        omega
      rw [if_pos this]
    simp only [Journal.update, h1, hcu]
  · rintro row rfl hsome
    have hcu : s.checkPrimaryKeyUpdate_ t [row] = none := by
      have hmod : [row].any
          (fun row => s.findExistingRowIdInPkIndex_ t row != some row.id) = true := by
        refine List.any_eq_true.mpr ⟨row, List.mem_cons_self row [], ?_⟩
        rw [findExisting_of_no_pk s t row hpk]
        rfl
      simp only [Journal.checkPrimaryKeyUpdate_, hmod, Bool.not_true, Bool.false_eq_true,
        if_false, List.length_cons, List.length_nil, gt_iff_lt]
      rw [if_neg (by omega)]
      simp only [List.take, Journal.checkPrimaryKeyExistence_, hpk]
    obtain ⟨ops, hops⟩ := updOps_eq_some s [row] (by
      intro r hr
      rw [List.mem_singleton] at hr
      subst hr
      exact hsome)
    simp only [Journal.update, h1, hcu, hops]
    rfl

/-- Witness for C10: a two-row update on the no-PK table `TN` throws
`CONSTRAINT` even though the rows are unrelated. -/
theorem c10_witness :
    tblTN.primaryKey = none ∧
    tblTN.name ∈ JN.scope.map Table.name ∧
    JN.update tblTN [rowN1, rowN2] = .error
      (⟨ExnType.CONSTRAINT,
        "Primary key violation when updating rows for " ++ tblTN.name⟩, JN) := by
  refine ⟨rfl, by decide, ?_⟩
  exact (c10_update_no_pk_table JN tblTN [rowN1, rowN2] rfl (by decide)).1 (by decide)

/-! ## C4 -/

/-- C4 is refuted by the code: in `J2`, rows 1 and 2 hold keys 10 and 20;
the batch updates row 1 keeping key 10 (its PK-index lookup returns its own
id) and row 2 to the fresh key 99 (lookup differs from its id), so exactly
one row changes its primary key and no existing row holds the new key — the
claim says such a call fails only on a collision, yet the code throws
`CONSTRAINT` because the batch has more than one row
(journal.js:230-236). -/
theorem c4_counterexample :
    J2.findExistingRowIdInPkIndex_ tblT1 rowA = some rowA.id ∧
    J2.findExistingRowIdInPkIndex_ tblT1 rowB99 ≠ some rowB99.id ∧
    rowB99.keyOfIndex pkNameT1 = 99 ∧
    (∀ rid : Nat, ((99 : Int), rid) ∉ J2.store pkNameT1) ∧
    errType (J2.update tblT1 [rowA, rowB99]) = some ExnType.CONSTRAINT := by
  refine ⟨by decide, by decide, by decide, ?_, by decide⟩
  intro rid hm
  simp only [J2] at hm
  rw [if_pos trivial] at hm
  rw [Finset.mem_insert, Finset.mem_singleton] at hm
  rcases hm with h | h <;> simp [Prod.ext_iff] at h

/-- C4 (amended): for an in-scope `update` on a table with a primary key
(rows present in the cache): if no row changes its primary key (each row's
PK-index lookup returns its own row-id) the call makes no further PK check
and succeeds; if any row changes its primary key and the batch holds more
than one row, the call fails with `CONSTRAINT` regardless of collisions; if
the batch is a single row that changes its primary key, the call fails with
`CONSTRAINT` exactly when the PK index already holds an entry for the new
key. -/
theorem c4_amended_update_pk_check (s : Journal) (t : Table) (rows : List Row)
    (pk : IndexSchema) (hpk : t.primaryKey = some pk)
    (hscope : t.name ∈ s.scope.map Table.name)
    (hcache : ∀ row ∈ rows, (s.cache row.id).isSome) :
    ((∀ row ∈ rows, s.findExistingRowIdInPkIndex_ t row = some row.id) →
      (s.update t rows).isOk = true) ∧
    ((∃ row ∈ rows, s.findExistingRowIdInPkIndex_ t row ≠ some row.id) →
      rows.length > 1 →
      s.update t rows = .error
        (⟨ExnType.CONSTRAINT,
          "Primary key violation when updating rows for " ++ t.name⟩, s)) ∧
    (∀ row, rows = [row] → s.findExistingRowIdInPkIndex_ t row ≠ some row.id →
      (((s.store pk.normalizedName).filter
          (fun p => p.1 = row.keyOfIndex pk.normalizedName)).Nonempty →
        s.update t rows = .error
          (⟨ExnType.CONSTRAINT,
            "A row with primary key " ++
            toString (row.keyOfIndex pk.normalizedName) ++
            " already exists " ++ " in table " ++ t.name⟩, s)) ∧
      ((∀ rid, (row.keyOfIndex pk.normalizedName, rid) ∉ s.store pk.normalizedName) →
        (s.update t rows).isOk = true)) := by
  have h1 := checkScope_of_mem s t hscope
  refine ⟨?_, ?_, ?_⟩
  · intro hall
    have hmod : rows.any
        (fun row => s.findExistingRowIdInPkIndex_ t row != some row.id) = false := by
      rw [List.any_eq_false]
      intro row hr
      rw [hall row hr]
      simp
    have hcu : s.checkPrimaryKeyUpdate_ t rows = none := by
      simp only [Journal.checkPrimaryKeyUpdate_, hmod, Bool.not_false, if_true]
    obtain ⟨ops, hops⟩ := updOps_eq_some s rows hcache
    simp only [Journal.update, h1, hcu, hops]
    rfl
  · rintro ⟨row, hr, hne⟩ hlen
    have hmod : rows.any
        (fun row => s.findExistingRowIdInPkIndex_ t row != some row.id) = true :=
      List.any_eq_true.mpr ⟨row, hr, bne_iff_ne.mpr hne⟩
    have hcu : s.checkPrimaryKeyUpdate_ t rows =
        some ⟨ExnType.CONSTRAINT,
          "Primary key violation when updating rows for " ++ t.name⟩ := by
      simp only [Journal.checkPrimaryKeyUpdate_, hmod, Bool.not_true, Bool.false_eq_true,
        if_false, gt_iff_lt]
      rw [if_pos hlen]
    simp only [Journal.update, h1, hcu]
  · rintro row rfl hne
    have hmod : [row].any
        (fun row => s.findExistingRowIdInPkIndex_ t row != some row.id) = true :=
      List.any_eq_true.mpr ⟨row, List.mem_cons_self row [], bne_iff_ne.mpr hne⟩
    constructor
    · intro hex
      have hsome : (s.findExistingRowIdInPkIndex_ t row).isSome = true := by
        rw [findExisting_isSome_iff s t row pk hpk]
        obtain ⟨⟨k, rid⟩, hmem⟩ := hex
        rw [Finset.mem_filter] at hmem
        obtain ⟨hm, hk⟩ := hmem
        simp only [] at hk
        subst hk
        exact ⟨rid, hm⟩
      have hcu : s.checkPrimaryKeyUpdate_ t [row] =
          some ⟨ExnType.CONSTRAINT,
            "A row with primary key " ++
            toString (row.keyOfIndex pk.normalizedName) ++
            " already exists " ++ " in table " ++ t.name⟩ := by
        simp only [Journal.checkPrimaryKeyUpdate_, hmod, Bool.not_true, Bool.false_eq_true,
          if_false, List.length_cons, List.length_nil, gt_iff_lt]
        rw [if_neg (by omega)]
        have hf : [row].find?
            (fun row => (s.findExistingRowIdInPkIndex_ t row).isSome) = some row := by
          simp [List.find?, hsome]
        exact checkExistence_eq_some s t (List.take 1 [row]) pk row hpk hf
      simp only [Journal.update, h1, hcu]
    · intro hnone
      have hnot : s.findExistingRowIdInPkIndex_ t row = none := by
        rw [← Option.not_isSome_iff_eq_none]
        rw [findExisting_isSome_iff s t row pk hpk]
        rintro ⟨rid, hm⟩
        exact hnone rid hm
      have hcu : s.checkPrimaryKeyUpdate_ t [row] = none := by
        simp only [Journal.checkPrimaryKeyUpdate_, hmod, Bool.not_true, Bool.false_eq_true,
          if_false, List.length_cons, List.length_nil, gt_iff_lt]
        rw [if_neg (by omega)]
        have hf : [row].find?
            (fun row => (s.findExistingRowIdInPkIndex_ t row).isSome) = none := by
          simp [List.find?, hnot]
        simp only [List.take, Journal.checkPrimaryKeyExistence_, hpk, hf]
      obtain ⟨ops, hops⟩ := updOps_eq_some s [row] hcache
      simp only [Journal.update, h1, hcu, hops]
      rfl

/-- Witness for the amended C4: a single-row update in `J2` moving row 2's
key onto row 1's key 10 fails with `CONSTRAINT`. -/
theorem c4_witness :
    tblT1.primaryKey = some pkSchemaT1 ∧
    tblT1.name ∈ J2.scope.map Table.name ∧
    (∀ row ∈ [rowB10], (J2.cache row.id).isSome) ∧
    J2.update tblT1 [rowB10] = .error
      (⟨ExnType.CONSTRAINT,
        "A row with primary key " ++
        toString (rowB10.keyOfIndex pkSchemaT1.normalizedName) ++
        " already exists " ++ " in table " ++ tblT1.name⟩, J2) := by
  refine ⟨rfl, by decide, by decide, ?_⟩
  refine ((c4_amended_update_pk_check J2 tblT1 [rowB10] pkSchemaT1 rfl
    (by decide) (by decide)).2.2 rowB10 rfl (by decide)).1 ?_
  exact ⟨((10 : Int), 1), by decide⟩

/-! ## C6 -/

theorem iorOps_forall2 (s : Journal) (t : Table) (rows : List Row)
    (ops : List DiffOp) (h : s.iorOps t rows = some ops) :
    List.Forall₂ (fun row op =>
      (∀ rid, s.findExistingRowIdInPkIndex_ t row = some rid →
        ∃ oldRow, s.cache rid = some oldRow ∧
          op = DiffOp.modify oldRow (row.setRowId rid)) ∧
      (s.findExistingRowIdInPkIndex_ t row = none → op = DiffOp.add row))
      rows ops := by
  induction rows generalizing ops with
  | nil =>
    simp only [Journal.iorOps] at h
    cases h
    exact List.Forall₂.nil
  | cons row rest ih =>
    simp only [Journal.iorOps] at h
    cases hf : s.findExistingRowIdInPkIndex_ t row with
    | some rid =>
      rw [hf] at h
      replace h : (match s.cache rid with
        | some oldRow =>
          Option.map (fun l => DiffOp.modify oldRow (row.setRowId rid) :: l)
            (s.iorOps t rest)
        | none => none) = some ops := h
      cases hc : s.cache rid with
      | some oldRow =>
        rw [hc] at h
        cases hr : s.iorOps t rest with
        | some ops2 =>
          rw [hr] at h
          replace h : some (DiffOp.modify oldRow (row.setRowId rid) :: ops2) =
            some ops := h
          cases h
          refine List.Forall₂.cons ⟨?_, ?_⟩ (ih ops2 hr)
          · intro rid2 h2
            rw [hf] at h2
            cases h2
            exact ⟨oldRow, hc, rfl⟩
          · intro h2
            rw [hf] at h2
            cases h2
        | none =>
          rw [hr] at h
          replace h : (none : Option (List DiffOp)) = some ops := h
          cases h
      | none =>
        rw [hc] at h
        replace h : (none : Option (List DiffOp)) = some ops := h
        cases h
    | none =>
      rw [hf] at h
      replace h : Option.map (fun l => DiffOp.add row :: l) (s.iorOps t rest) =
        some ops := h
      cases hr : s.iorOps t rest with
      | some ops2 =>
        rw [hr] at h
        replace h : some (DiffOp.add row :: ops2) = some ops := h
        cases h
        refine List.Forall₂.cons ⟨?_, ?_⟩ (ih ops2 hr)
        · intro rid2 h2
          rw [hf] at h2
          cases h2
        · intro _
          rfl
      | none =>
        rw [hr] at h
        replace h : (none : Option (List DiffOp)) = some ops := h
        cases h

/-- C6: `insertOrReplace` never performs a uniqueness pre-check (it can
never fail with `CONSTRAINT`); for an in-scope call it applies the
composite diff built row by row, where a row whose primary key has an
existing row in the PK index is recorded as `modify(existing, new)` with
the new row's row-id reassigned to the existing one, and any other row is
recorded as `add(new)`. -/
theorem c6_insertOrReplace_dispatch (s : Journal) (t : Table) (rows : List Row)
    (hscope : t.name ∈ s.scope.map Table.name) :
    (∀ (s2 : Journal) (t2 : Table) (rows2 : List Row),
      errType (s2.insertOrReplace t2 rows2) ≠ some ExnType.CONSTRAINT) ∧
    (∀ ops, s.iorOps t rows = some ops →
      s.insertOrReplace t rows = .ok (s.applyTableDiff_ t (buildDiff ops)) ∧
      List.Forall₂ (fun row op =>
        (∀ rid, s.findExistingRowIdInPkIndex_ t row = some rid →
          ∃ oldRow, s.cache rid = some oldRow ∧
            op = DiffOp.modify oldRow (row.setRowId rid)) ∧
        (s.findExistingRowIdInPkIndex_ t row = none → op = DiffOp.add row))
        rows ops) ∧
    (∀ row pk, t.primaryKey = some pk →
      ((s.findExistingRowIdInPkIndex_ t row).isSome ↔
        ∃ rid, (row.keyOfIndex pk.normalizedName, rid) ∈ s.store pk.normalizedName)) := by
  refine ⟨?_, ?_, ?_⟩
  · intro s2 t2 rows2
    unfold Journal.insertOrReplace
    cases hs : s2.checkScope_ t2 with
    | some e =>
      have := checkScope_some_ty s2 t2 e hs
      simp only [errType, this]
      intro hc
      cases hc
    | none =>
      cases hi : s2.iorOps t2 rows2 with
      | some ops => simp [errType]
      | none => simp [errType]
  · intro ops hops
    have h1 := checkScope_of_mem s t hscope
    refine ⟨?_, iorOps_forall2 s t rows ops hops⟩
    simp only [Journal.insertOrReplace, h1, hops]
  · intro row pk hpk
    exact findExisting_isSome_iff s t row pk hpk

/-- Witness for C6: in `J2`, insert-or-replace of a row with `rowA`'s key 10
plus a fresh row applies a modify-plus-add diff. -/
theorem c6_witness :
    tblT1.name ∈ J2.scope.map Table.name ∧
    J2.iorOps tblT1 [rowC10, rowD] =
      some [DiffOp.modify rowA (rowC10.setRowId 1), DiffOp.add rowD] ∧
    J2.insertOrReplace tblT1 [rowC10, rowD] =
      .ok (J2.applyTableDiff_ tblT1
        (buildDiff [DiffOp.modify rowA (rowC10.setRowId 1), DiffOp.add rowD])) := by
  refine ⟨by decide, by decide, ?_⟩
  exact ((c6_insertOrReplace_dispatch J2 tblT1 [rowC10, rowD] (by decide)).2.1
    [DiffOp.modify rowA (rowC10.setRowId 1), DiffOp.add rowD] (by decide)).1

/-! ## Association-list lemmas for the rollback verification -/

theorem lookup_eq_none_iff_keys {κ ν : Type} [BEq κ] [LawfulBEq κ]
    (l : List (κ × ν)) (j : κ) :
    l.lookup j = none ↔ j ∉ l.map Prod.fst := by
  rw [List.lookup_eq_none_iff]
  constructor
  · intro h hm
    obtain ⟨p, hp, he⟩ := List.mem_map.mp hm
    have := h p hp
    rw [bne_iff_ne] at this
    exact this he.symm
  · intro h p hp
    rw [bne_iff_ne]
    intro he
    exact h (List.mem_map.mpr ⟨p, hp, he.symm⟩)

theorem mem_of_lookup_eq_some {κ ν : Type} [BEq κ] [LawfulBEq κ]
    {l : List (κ × ν)} {j : κ} {v : ν} (h : l.lookup j = some v) : (j, v) ∈ l := by
  rw [List.lookup_eq_some_iff] at h
  obtain ⟨l1, l2, rfl, _⟩ := h
  exact List.mem_append.mpr (Or.inr (List.mem_cons_self _ _))

theorem lookup_eq_some_of_mem_nodup {κ ν : Type} [BEq κ] [LawfulBEq κ]
    {l : List (κ × ν)} (hnd : (l.map Prod.fst).Nodup) {j : κ} {v : ν}
    (hmem : (j, v) ∈ l) : l.lookup j = some v := by
  induction l with
  | nil => cases hmem
  | cons p l ih =>
    obtain ⟨a, b⟩ := p
    rw [List.map_cons, List.nodup_cons] at hnd
    rcases List.mem_cons.mp hmem with heq | hmem2
    · cases heq
      exact List.lookup_cons_self
    · have haj : j ≠ a := by
        intro h
        subst h
        exact hnd.1 (List.mem_map.mpr ⟨(j, v), hmem2, rfl⟩)
      simp only [List.lookup_cons, beq_false_of_ne haj]
      exact ih hnd.2 hmem2

theorem lookup_map_replace (l : List (Nat × DiffEntry)) (j : Nat) (e : DiffEntry) :
    (l.map (fun p => if p.1 = j then (j, e) else p)).lookup j =
      if (l.lookup j).isSome then some e else none := by
  induction l with
  | nil => simp
  | cons p l ih =>
    obtain ⟨a, b⟩ := p
    by_cases h : a = j
    · subst h
      simp
    · have hne : j ≠ a := fun he => h he.symm
      simp only [List.map_cons, if_neg h, List.lookup_cons, beq_false_of_ne hne]
      exact ih

theorem lookup_map_replace_ne (l : List (Nat × DiffEntry)) (j : Nat)
    (e : DiffEntry) (j2 : Nat) (h : j2 ≠ j) :
    (l.map (fun p => if p.1 = j then (j, e) else p)).lookup j2 = l.lookup j2 := by
  induction l with
  | nil => simp
  | cons p l ih =>
    obtain ⟨a, b⟩ := p
    by_cases hp : a = j
    · have h2 : j2 ≠ a := by rw [hp]; exact h
      simp only [List.map_cons, if_pos hp, List.lookup_cons, beq_false_of_ne h,
        beq_false_of_ne h2]
      exact ih
    · simp only [List.map_cons, if_neg hp, List.lookup_cons]
      by_cases hq : j2 = a
      · simp only [hq, beq_self_eq_true]
      · simp only [beq_false_of_ne hq]
        exact ih

theorem lookup_setEntry_self (l : List (Nat × DiffEntry)) (j : Nat) (e : DiffEntry) :
    (setEntry l j e).lookup j = some e := by
  unfold setEntry
  split <;> rename_i h
  · rw [lookup_map_replace, if_pos h]
  · rw [List.lookup_append]
    rw [Option.not_isSome_iff_eq_none] at h
    rw [h]
    simp

theorem lookup_setEntry_ne (l : List (Nat × DiffEntry)) (j : Nat) (e : DiffEntry)
    (j2 : Nat) (h : j2 ≠ j) :
    (setEntry l j e).lookup j2 = l.lookup j2 := by
  unfold setEntry
  split <;> rename_i hp
  · exact lookup_map_replace_ne l j e j2 h
  · rw [List.lookup_append]
    cases hl : l.lookup j2 with
    | some v => rfl
    | none => simp [List.lookup_cons, beq_false_of_ne h]

theorem lookup_removeEntry_self (l : List (Nat × DiffEntry)) (j : Nat) :
    (removeEntry l j).lookup j = none := by
  rw [lookup_eq_none_iff_keys]
  intro hm
  rw [List.mem_map] at hm
  obtain ⟨p, hp, he⟩ := hm
  simp only [removeEntry] at hp
  rw [List.mem_filter] at hp
  subst he
  simpa using hp.2

theorem lookup_removeEntry_ne (l : List (Nat × DiffEntry)) (j j2 : Nat)
    (h : j2 ≠ j) : (removeEntry l j).lookup j2 = l.lookup j2 := by
  unfold removeEntry
  induction l with
  | nil => simp
  | cons p l ih =>
    obtain ⟨a, b⟩ := p
    rw [List.filter_cons]
    by_cases hp : a = j
    · rw [if_neg (by simpa using hp)]
      have h2 : j2 ≠ a := by rw [hp]; exact h
      rw [List.lookup_cons, beq_false_of_ne h2]
      exact ih
    · rw [if_pos (by simpa using hp), List.lookup_cons, List.lookup_cons]
      by_cases hq : j2 = a
      · simp only [hq, beq_self_eq_true]
      · simp only [beq_false_of_ne hq]
        exact ih

theorem keys_setEntry_present (l : List (Nat × DiffEntry)) (j : Nat)
    (e : DiffEntry) (h : (l.lookup j).isSome) :
    (setEntry l j e).map Prod.fst = l.map Prod.fst := by
  unfold setEntry
  rw [if_pos h, List.map_map]
  refine List.map_congr_left ?_
  intro p _
  by_cases hp : p.1 = j
  · simp [hp]
  · simp [hp]

theorem keys_setEntry_absent (l : List (Nat × DiffEntry)) (j : Nat)
    (e : DiffEntry) (h : l.lookup j = none) :
    (setEntry l j e).map Prod.fst = l.map Prod.fst ++ [j] := by
  unfold setEntry
  rw [if_neg (by rw [h]; simp)]
  simp

theorem keys_removeEntry_sublist (l : List (Nat × DiffEntry)) (j : Nat) :
    ((removeEntry l j).map Prod.fst).Sublist (l.map Prod.fst) :=
  List.Sublist.map Prod.fst (List.filter_sublist l)

/-! ## applyOp and mergeCell lemmas -/

theorem find_mk_append (l : List (Nat × DiffEntry)) (i : Nat) (e : DiffEntry)
    (j : Nat) (hi : l.lookup i = none) :
    (TableDiff.mk (l ++ [(i, e)])).find j =
      if j = i then some e else l.lookup j := by
  show (l ++ [(i, e)]).lookup j = _
  rw [List.lookup_append]
  by_cases hj : j = i
  · subst hj
    rw [hi, if_pos rfl]
    simp
  · rw [if_neg hj]
    have h2 : ([(i, e)] : List (Nat × DiffEntry)).lookup j = none := by
      simp [List.lookup_cons, beq_false_of_ne hj]
    rw [h2]
    simp

theorem find_mk_set (l : List (Nat × DiffEntry)) (i : Nat) (e : DiffEntry)
    (j : Nat) :
    (TableDiff.mk (setEntry l i e)).find j =
      if j = i then some e else l.lookup j := by
  by_cases hj : j = i
  · subst hj
    rw [if_pos rfl]
    exact lookup_setEntry_self l j e
  · rw [if_neg hj]
    exact lookup_setEntry_ne l i e j hj

theorem find_mk_remove (l : List (Nat × DiffEntry)) (i : Nat) (j : Nat) :
    (TableDiff.mk (removeEntry l i)).find j =
      if j = i then none else l.lookup j := by
  by_cases hj : j = i
  · subst hj
    rw [if_pos rfl]
    exact lookup_removeEntry_self l j
  · rw [if_neg hj]
    exact lookup_removeEntry_ne l i j hj

theorem find_applyOp (d : TableDiff) (op : DiffOp) (j : Nat) :
    (d.applyOp op).find j =
      if j = op.rowId then mergeCell (d.find op.rowId) op else d.find j := by
  rcases hf : d.find op.rowId with _ | e
  · cases op with
    | add r =>
      have hb : d.applyOp (.add r) =
          TableDiff.mk (d.entries ++ [((DiffOp.add r).rowId, .added r)]) := by
        simp only [TableDiff.applyOp, hf]
      rw [hb, find_mk_append d.entries _ _ j hf]
      rfl
    | modify o n =>
      have hb : d.applyOp (.modify o n) =
          TableDiff.mk (d.entries ++ [((DiffOp.modify o n).rowId, .modified o n)]) := by
        simp only [TableDiff.applyOp, hf]
      rw [hb, find_mk_append d.entries _ _ j hf]
      rfl
    | del r =>
      have hb : d.applyOp (.del r) =
          TableDiff.mk (d.entries ++ [((DiffOp.del r).rowId, .deleted r)]) := by
        simp only [TableDiff.applyOp, hf]
      rw [hb, find_mk_append d.entries _ _ j hf]
      rfl
  · cases e with
    | added r0 =>
      cases op with
      | add n =>
        have hb : d.applyOp (.add n) =
            TableDiff.mk (setEntry d.entries (DiffOp.add n).rowId (.added n)) := by
          simp only [TableDiff.applyOp, hf]
        rw [hb, find_mk_set]
        rfl
      | modify o n =>
        have hb : d.applyOp (.modify o n) =
            TableDiff.mk (setEntry d.entries (DiffOp.modify o n).rowId (.added n)) := by
          simp only [TableDiff.applyOp, hf]
        rw [hb, find_mk_set]
        rfl
      | del r =>
        have hb : d.applyOp (.del r) =
            TableDiff.mk (removeEntry d.entries (DiffOp.del r).rowId) := by
          simp only [TableDiff.applyOp, hf]
        rw [hb, find_mk_remove]
        rfl
    | modified o1 n1 =>
      cases op with
      | add n =>
        have hb : d.applyOp (.add n) =
            TableDiff.mk (setEntry d.entries (DiffOp.add n).rowId (.modified o1 n)) := by
          simp only [TableDiff.applyOp, hf]
        rw [hb, find_mk_set]
        rfl
      | modify o n =>
        have hb : d.applyOp (.modify o n) =
            TableDiff.mk (setEntry d.entries (DiffOp.modify o n).rowId (.modified o1 n)) := by
          simp only [TableDiff.applyOp, hf]
        rw [hb, find_mk_set]
        rfl
      | del r =>
        have hb : d.applyOp (.del r) =
            TableDiff.mk (setEntry d.entries (DiffOp.del r).rowId (.deleted o1)) := by
          simp only [TableDiff.applyOp, hf]
        rw [hb, find_mk_set]
        rfl
    | deleted dr =>
      cases op with
      | add n =>
        by_cases hn : n = dr
        · have hb : d.applyOp (.add n) =
              TableDiff.mk (removeEntry d.entries (DiffOp.add n).rowId) := by
            simp only [TableDiff.applyOp, hf, if_pos hn]
          rw [hb, find_mk_remove]
          simp only [mergeCell, if_pos hn]
          rfl
        · have hb : d.applyOp (.add n) =
              TableDiff.mk (setEntry d.entries (DiffOp.add n).rowId (.modified dr n)) := by
            simp only [TableDiff.applyOp, hf, if_neg hn]
          rw [hb, find_mk_set]
          simp only [mergeCell, if_neg hn]
          rfl
      | modify o n =>
        have hb : d.applyOp (.modify o n) =
            TableDiff.mk (setEntry d.entries (DiffOp.modify o n).rowId (.modified dr n)) := by
          simp only [TableDiff.applyOp, hf]
        rw [hb, find_mk_set]
        rfl
      | del r =>
        have hb : d.applyOp (.del r) = d := by
          simp only [TableDiff.applyOp, hf]
        rw [hb]
        by_cases hj : j = (DiffOp.del r).rowId
        · subst hj
          rw [if_pos rfl, hf]
          rfl
        · rw [if_neg hj]

theorem mergeCell_then (x : Option DiffEntry) (op : DiffOp) (e2 : DiffEntry)
    (h : mergeCell x op = some e2) :
    e2.thenImg = (match x with | some e => e.thenImg | none => op.thenImg) := by
  rcases x with _ | e
  · cases op <;> (cases h; rfl)
  · cases e <;> cases op <;>
      first
      | (cases h <;> rfl)
      | (simp only [mergeCell] at h
         split at h <;> (cases h <;> rfl))

theorem mergeCell_now (x : Option DiffEntry) (op : DiffOp) (e2 : DiffEntry)
    (h : mergeCell x op = some e2) : e2.nowImg = op.nowImg := by
  rcases x with _ | e
  · cases op <;> (cases h; rfl)
  · cases e <;> cases op <;>
      first
      | (cases h <;> rfl)
      | (simp only [mergeCell] at h
         split at h <;> (cases h <;> rfl))

theorem entryIds_mergeCell (x : Option DiffEntry) (op : DiffOp) (e2 : DiffEntry)
    (j : Nat) (hx : ∀ e, x = some e → e.idsMatch j) (hop : op.rowId = j)
    (hids : op.idsOK) (h : mergeCell x op = some e2) : e2.idsMatch j := by
  rcases x with _ | e
  · cases op with
    | add r => cases h; exact hop
    | modify o n => cases h; exact ⟨hop, hids.trans hop⟩
    | del r => cases h; exact hop
  · have he := hx e rfl
    cases e with
    | added r0 =>
      cases op with
      | add n => cases h; exact hop
      | modify o n => cases h; exact hids.trans hop
      | del r => cases h
    | modified o1 n1 =>
      cases op with
      | add n => cases h; exact ⟨he.1, hop⟩
      | modify o n => cases h; exact ⟨he.1, hids.trans hop⟩
      | del r => cases h; exact he.1
    | deleted dr =>
      cases op with
      | add n =>
        simp only [mergeCell] at h
        split at h
        · cases h
        · cases h; exact ⟨he, hop⟩
      | modify o n => cases h; exact ⟨he, hids.trans hop⟩
      | del r => cases h; exact he

theorem keys_append_singleton (l : List (Nat × DiffEntry)) (i : Nat) (e : DiffEntry)
    (hnd : (l.map Prod.fst).Nodup) (hi : i ∉ l.map Prod.fst) :
    ((l ++ [(i, e)]).map Prod.fst).Nodup := by
  rw [List.map_append]
  refine List.Nodup.append hnd (List.nodup_singleton _) ?_
  intro a ha hb
  have : a = i := by simpa using hb
  subst this
  exact hi ha

theorem nodup_setEntry (l : List (Nat × DiffEntry)) (i : Nat) (e : DiffEntry)
    (hnd : (l.map Prod.fst).Nodup) (hp : (l.lookup i).isSome) :
    ((setEntry l i e).map Prod.fst).Nodup := by
  rw [keys_setEntry_present l i e hp]
  exact hnd

theorem nodup_removeEntry (l : List (Nat × DiffEntry)) (i : Nat)
    (hnd : (l.map Prod.fst).Nodup) :
    ((removeEntry l i).map Prod.fst).Nodup :=
  (keys_removeEntry_sublist l i).nodup hnd

theorem keys_applyOp (d : TableDiff) (op : DiffOp)
    (hnd : (d.entries.map Prod.fst).Nodup) :
    ((d.applyOp op).entries.map Prod.fst).Nodup := by
  rcases hf : d.find op.rowId with _ | e
  · have hfresh : op.rowId ∉ d.entries.map Prod.fst :=
      (lookup_eq_none_iff_keys _ _).mp hf
    cases op with
    | add r =>
      have hb : d.applyOp (.add r) =
          TableDiff.mk (d.entries ++ [((DiffOp.add r).rowId, .added r)]) := by
        simp only [TableDiff.applyOp, hf]
      rw [hb]
      exact keys_append_singleton _ _ _ hnd hfresh
    | modify o n =>
      have hb : d.applyOp (.modify o n) =
          TableDiff.mk (d.entries ++ [((DiffOp.modify o n).rowId, .modified o n)]) := by
        simp only [TableDiff.applyOp, hf]
      rw [hb]
      exact keys_append_singleton _ _ _ hnd hfresh
    | del r =>
      have hb : d.applyOp (.del r) =
          TableDiff.mk (d.entries ++ [((DiffOp.del r).rowId, .deleted r)]) := by
        simp only [TableDiff.applyOp, hf]
      rw [hb]
      exact keys_append_singleton _ _ _ hnd hfresh
  · have hp : (d.entries.lookup op.rowId).isSome := by
      have : d.entries.lookup op.rowId = some e := hf
      rw [this]
      rfl
    cases e with
    | added r0 =>
      cases op with
      | add n =>
        have hb : d.applyOp (.add n) =
            TableDiff.mk (setEntry d.entries (DiffOp.add n).rowId (.added n)) := by
          simp only [TableDiff.applyOp, hf]
        rw [hb]
        exact nodup_setEntry _ _ _ hnd hp
      | modify o n =>
        have hb : d.applyOp (.modify o n) =
            TableDiff.mk (setEntry d.entries (DiffOp.modify o n).rowId (.added n)) := by
          simp only [TableDiff.applyOp, hf]
        rw [hb]
        exact nodup_setEntry _ _ _ hnd hp
      | del r =>
        have hb : d.applyOp (.del r) =
            TableDiff.mk (removeEntry d.entries (DiffOp.del r).rowId) := by
          simp only [TableDiff.applyOp, hf]
        rw [hb]
        exact nodup_removeEntry _ _ hnd
    | modified o1 n1 =>
      cases op with
      | add n =>
        have hb : d.applyOp (.add n) =
            TableDiff.mk (setEntry d.entries (DiffOp.add n).rowId (.modified o1 n)) := by
          simp only [TableDiff.applyOp, hf]
        rw [hb]
        exact nodup_setEntry _ _ _ hnd hp
      | modify o n =>
        have hb : d.applyOp (.modify o n) =
            TableDiff.mk (setEntry d.entries (DiffOp.modify o n).rowId (.modified o1 n)) := by
          simp only [TableDiff.applyOp, hf]
        rw [hb]
        exact nodup_setEntry _ _ _ hnd hp
      | del r =>
        have hb : d.applyOp (.del r) =
            TableDiff.mk (setEntry d.entries (DiffOp.del r).rowId (.deleted o1)) := by
          simp only [TableDiff.applyOp, hf]
        rw [hb]
        exact nodup_setEntry _ _ _ hnd hp
    | deleted dr =>
      cases op with
      | add n =>
        by_cases hn : n = dr
        · have hb : d.applyOp (.add n) =
              TableDiff.mk (removeEntry d.entries (DiffOp.add n).rowId) := by
            simp only [TableDiff.applyOp, hf, if_pos hn]
          rw [hb]
          exact nodup_removeEntry _ _ hnd
        · have hb : d.applyOp (.add n) =
              TableDiff.mk (setEntry d.entries (DiffOp.add n).rowId (.modified dr n)) := by
            simp only [TableDiff.applyOp, hf, if_neg hn]
          rw [hb]
          exact nodup_setEntry _ _ _ hnd hp
      | modify o n =>
        have hb : d.applyOp (.modify o n) =
            TableDiff.mk (setEntry d.entries (DiffOp.modify o n).rowId (.modified dr n)) := by
          simp only [TableDiff.applyOp, hf]
        rw [hb]
        exact nodup_setEntry _ _ _ hnd hp
      | del r =>
        have hb : d.applyOp (.del r) = d := by
          simp only [TableDiff.applyOp, hf]
        rw [hb]
        exact hnd

theorem DiffWF.find_ids {d : TableDiff} (hd : DiffWF d) {j : Nat} {e : DiffEntry}
    (h : d.find j = some e) : e.idsMatch j :=
  hd.ids (j, e) (mem_of_lookup_eq_some h)

theorem diffWF_of_find {d : TableDiff} (hnd : (d.entries.map Prod.fst).Nodup)
    (h : ∀ j e, d.find j = some e → e.idsMatch j) : DiffWF d :=
  ⟨hnd, fun p hp => h p.1 p.2 (lookup_eq_some_of_mem_nodup hnd hp)⟩

theorem diffWF_applyOp {d : TableDiff} (hd : DiffWF d) (op : DiffOp)
    (hids : op.idsOK) : DiffWF (d.applyOp op) := by
  refine diffWF_of_find (keys_applyOp d op hd.nodup) ?_
  intro j e2 h
  rw [find_applyOp] at h
  by_cases hj : j = op.rowId
  · subst hj
    rw [if_pos rfl] at h
    exact entryIds_mergeCell (d.find op.rowId) op e2 op.rowId
      (fun e he => hd.find_ids he) rfl hids h
  · rw [if_neg hj] at h
    exact hd.find_ids h

theorem applyOp_invariant (s : Journal) (tn : String) (P : Nat → Prop)
    (d : TableDiff) (op : DiffOp)
    (hWF : DiffWF d) (hch : ChainsWith s d) (hbl : BelongsTo s tn d)
    (hP : ∀ j, (d.find j).isSome → P j)
    (hids : op.idsOK) (hthen : op.thenImg = s.cache op.rowId)
    (hbel : op.thenImg ≠ none →
      ((op.rowId : Int), op.rowId) ∈ s.store (IndexName.rowId tn))
    (hPop : P op.rowId) :
    DiffWF (d.applyOp op) ∧ ChainsWith s (d.applyOp op) ∧
    BelongsTo s tn (d.applyOp op) ∧
    (∀ j, ((d.applyOp op).find j).isSome → P j) := by
  refine ⟨diffWF_applyOp hWF op hids, ?_, ?_, ?_⟩
  · intro j e2 h
    rw [find_applyOp] at h
    by_cases hj : j = op.rowId
    · subst hj
      rw [if_pos rfl] at h
      cases hx : d.find op.rowId with
      | some e =>
        rw [hx] at h
        rw [mergeCell_then _ _ _ h]
        exact hch _ _ hx
      | none =>
        rw [hx] at h
        rw [mergeCell_then _ _ _ h]
        exact hthen
    · rw [if_neg hj] at h
      exact hch _ _ h
  · intro j e2 h hthen2
    rw [find_applyOp] at h
    by_cases hj : j = op.rowId
    · subst hj
      rw [if_pos rfl] at h
      cases hx : d.find op.rowId with
      | some e =>
        rw [hx] at h
        rw [mergeCell_then _ _ _ h] at hthen2
        exact hbl _ _ hx hthen2
      | none =>
        rw [hx] at h
        rw [mergeCell_then _ _ _ h] at hthen2
        exact hbel hthen2
    · rw [if_neg hj] at h
      exact hbl _ _ h hthen2
  · intro j h
    rw [find_applyOp] at h
    by_cases hj : j = op.rowId
    · subst hj
      exact hPop
    · rw [if_neg hj] at h
      exact hP _ h

theorem foldl_applyOp_invariant (s : Journal) (tn : String) (P : Nat → Prop)
    (l : List DiffOp)
    (hl : ∀ op ∈ l, op.idsOK ∧ op.thenImg = s.cache op.rowId ∧
      (op.thenImg ≠ none →
        ((op.rowId : Int), op.rowId) ∈ s.store (IndexName.rowId tn)) ∧
      P op.rowId)
    (d : TableDiff)
    (hWF : DiffWF d) (hch : ChainsWith s d) (hbl : BelongsTo s tn d)
    (hP : ∀ j, (d.find j).isSome → P j) :
    DiffWF (l.foldl TableDiff.applyOp d) ∧
    ChainsWith s (l.foldl TableDiff.applyOp d) ∧
    BelongsTo s tn (l.foldl TableDiff.applyOp d) ∧
    (∀ j, ((l.foldl TableDiff.applyOp d).find j).isSome → P j) := by
  induction l generalizing d with
  | nil => exact ⟨hWF, hch, hbl, hP⟩
  | cons op rest ih =>
    obtain ⟨h1, h2, h3, h4⟩ := hl op (List.mem_cons_self op rest)
    obtain ⟨g1, g2, g3, g4⟩ :=
      applyOp_invariant s tn P d op hWF hch hbl hP h1 h2 h3 h4
    exact ih (fun op2 hm => hl op2 (List.mem_cons_of_mem op hm)) _ g1 g2 g3 g4

theorem empty_diff_invariant (s : Journal) (tn : String) (P : Nat → Prop) :
    DiffWF TableDiff.empty ∧ ChainsWith s TableDiff.empty ∧
    BelongsTo s tn TableDiff.empty ∧
    (∀ j, (TableDiff.empty.find j).isSome → P j) := by
  refine ⟨⟨List.nodup_nil, ?_⟩, ?_, ?_, ?_⟩
  · intro p hp; cases hp
  · intro j e h; cases h
  · intro j e h; cases h
  · intro j h; cases h

/-! ## updateCache characterization -/

theorem mem_getDeleted_iff {d : TableDiff} {j : Nat} {r : Row} :
    (j, r) ∈ d.getDeleted ↔ (j, DiffEntry.deleted r) ∈ d.entries := by
  unfold TableDiff.getDeleted
  rw [List.mem_filterMap]
  constructor
  · rintro ⟨⟨i, e⟩, hm, he⟩
    cases e with
    | added r0 => cases he
    | modified o n => cases he
    | deleted r0 =>
      simp only [Option.some.injEq, Prod.mk.injEq] at he
      obtain ⟨rfl, rfl⟩ := he
      exact hm
  · intro hm
    exact ⟨(j, DiffEntry.deleted r), hm, rfl⟩

theorem mem_getAdded_iff {d : TableDiff} {j : Nat} {r : Row} :
    (j, r) ∈ d.getAdded ↔ (j, DiffEntry.added r) ∈ d.entries := by
  unfold TableDiff.getAdded
  rw [List.mem_filterMap]
  constructor
  · rintro ⟨⟨i, e⟩, hm, he⟩
    cases e with
    | added r0 =>
      simp only [Option.some.injEq, Prod.mk.injEq] at he
      obtain ⟨rfl, rfl⟩ := he
      exact hm
    | modified o n => cases he
    | deleted r0 => cases he
  · intro hm
    exact ⟨(j, DiffEntry.added r), hm, rfl⟩

theorem mem_getModified_iff {d : TableDiff} {j : Nat} {o n : Row} :
    (j, (o, n)) ∈ d.getModified ↔ (j, DiffEntry.modified o n) ∈ d.entries := by
  unfold TableDiff.getModified
  rw [List.mem_filterMap]
  constructor
  · rintro ⟨⟨i, e⟩, hm, he⟩
    cases e with
    | added r0 => cases he
    | modified o2 n2 =>
      simp only [Option.some.injEq, Prod.mk.injEq] at he
      obtain ⟨rfl, ⟨rfl, rfl⟩⟩ := he
      exact hm
    | deleted r0 => cases he
  · intro hm
    exact ⟨(j, DiffEntry.modified o n), hm, rfl⟩

theorem map_fst_filterMap_sublist {ν ν2 : Type} (g : Nat × ν → Option (Nat × ν2))
    (hg : ∀ p q, g p = some q → q.1 = p.1) (l : List (Nat × ν)) :
    (((l.filterMap g).map Prod.fst)).Sublist (l.map Prod.fst) := by
  induction l with
  | nil => simp
  | cons p l ih =>
    rw [List.filterMap_cons]
    cases hq : g p with
    | none =>
      rw [List.map_cons]
      exact ih.trans (List.sublist_cons_self _ _)
    | some q =>
      rw [List.map_cons, List.map_cons, hg p q hq]
      exact ih.cons₂ _

theorem keys_getDeleted_sublist (d : TableDiff) :
    ((d.getDeleted.map Prod.fst)).Sublist (d.entries.map Prod.fst) := by
  refine map_fst_filterMap_sublist _ ?_ _
  rintro ⟨i, e⟩ q hq
  cases e <;> (cases hq <;> rfl)

theorem keys_getAdded_sublist (d : TableDiff) :
    ((d.getAdded.map Prod.fst)).Sublist (d.entries.map Prod.fst) := by
  refine map_fst_filterMap_sublist _ ?_ _
  rintro ⟨i, e⟩ q hq
  cases e <;> (cases hq <;> rfl)

theorem keys_getModified_sublist (d : TableDiff) :
    ((d.getModified.map Prod.fst)).Sublist (d.entries.map Prod.fst) := by
  refine map_fst_filterMap_sublist _ ?_ _
  rintro ⟨i, e⟩ q hq
  cases e <;> (cases hq <;> rfl)

theorem find?_assoc_eq_some {ν : Type} (l : List (Nat × ν)) (f : ν → Nat)
    (hids : ∀ p ∈ l, f p.2 = p.1) (hnd : (l.map Prod.fst).Nodup)
    (j : Nat) (v : ν) (hmem : (j, v) ∈ l) :
    l.find? (fun p => f p.2 == j) = some (j, v) := by
  induction l with
  | nil => cases hmem
  | cons q l ih =>
    rw [List.map_cons, List.nodup_cons] at hnd
    rcases List.mem_cons.mp hmem with heq | hm2
    · subst heq
      refine List.find?_cons_of_pos _ ?_
      have := hids (j, v) (List.mem_cons_self _ _)
      simp only [] at this
      simp [this]
    · have hq : q.1 ≠ j := by
        intro he
        exact hnd.1 (he ▸ List.mem_map.mpr ⟨(j, v), hm2, rfl⟩)
      rw [List.find?_cons_of_neg]
      · exact ih (fun p hp => hids p (List.mem_cons_of_mem _ hp)) hnd.2 hm2
      · have := hids q (List.mem_cons_self _ _)
        simp [this, hq]

theorem find?_assoc_eq_none {ν : Type} (l : List (Nat × ν)) (f : ν → Nat)
    (hids : ∀ p ∈ l, f p.2 = p.1) (j : Nat) (hno : j ∉ l.map Prod.fst) :
    l.find? (fun p => f p.2 == j) = none := by
  rw [List.find?_eq_none]
  intro p hp
  have := hids p hp
  simp only [this, beq_iff_eq]
  intro he
  exact hno (he ▸ List.mem_map.mpr ⟨p, hp, rfl⟩)

theorem foldl_setter {β : Type} (L : List β) (idx : β → Nat) (val : β → Option Row)
    (c : Nat → Option Row) (j : Nat) (hnd : (L.map idx).Nodup) :
    L.foldl (fun c b => fun i => if i = idx b then val b else c i) c j =
      (match L.find? (fun b => idx b == j) with
       | some b => val b
       | none => c j) := by
  induction L generalizing c with
  | nil => rfl
  | cons b L ih =>
    rw [List.map_cons, List.nodup_cons] at hnd
    rw [List.foldl_cons, ih _ hnd.2]
    by_cases hj : idx b = j
    · subst hj
      rw [List.find?_cons_of_pos _ (by simp)]
      have hfn : L.find? (fun b2 => idx b2 == idx b) = none := by
        rw [List.find?_eq_none]
        intro x hx
        simp only [beq_iff_eq]
        intro he
        exact hnd.1 (he ▸ List.mem_map.mpr ⟨x, hx, rfl⟩)
      rw [hfn]
      simp
    · rw [List.find?_cons_of_neg _ (by simpa using fun he => hj he)]
      cases hf : L.find? (fun b2 => idx b2 == j) with
      | some b2 => rfl
      | none =>
        have : j ≠ idx b := fun he => hj he.symm
        simp [if_neg this]

theorem mem_keys_getDeleted_iff {d : TableDiff} (hd : DiffWF d) {j : Nat} :
    j ∈ d.getDeleted.map Prod.fst ↔ ∃ r, d.find j = some (DiffEntry.deleted r) := by
  constructor
  · intro hm
    obtain ⟨⟨i, r⟩, hp, he⟩ := List.mem_map.mp hm
    simp only [] at he
    subst he
    exact ⟨r, lookup_eq_some_of_mem_nodup hd.nodup (mem_getDeleted_iff.mp hp)⟩
  · rintro ⟨r, hf⟩
    exact List.mem_map.mpr ⟨(j, r), mem_getDeleted_iff.mpr (mem_of_lookup_eq_some hf), rfl⟩

theorem mem_keys_getAdded_iff {d : TableDiff} (hd : DiffWF d) {j : Nat} :
    j ∈ d.getAdded.map Prod.fst ↔ ∃ r, d.find j = some (DiffEntry.added r) := by
  constructor
  · intro hm
    obtain ⟨⟨i, r⟩, hp, he⟩ := List.mem_map.mp hm
    simp only [] at he
    subst he
    exact ⟨r, lookup_eq_some_of_mem_nodup hd.nodup (mem_getAdded_iff.mp hp)⟩
  · rintro ⟨r, hf⟩
    exact List.mem_map.mpr ⟨(j, r), mem_getAdded_iff.mpr (mem_of_lookup_eq_some hf), rfl⟩

theorem mem_keys_getModified_iff {d : TableDiff} (hd : DiffWF d) {j : Nat} :
    j ∈ d.getModified.map Prod.fst ↔
      ∃ o n, d.find j = some (DiffEntry.modified o n) := by
  constructor
  · intro hm
    obtain ⟨⟨i, m⟩, hp, he⟩ := List.mem_map.mp hm
    simp only [] at he
    subst he
    exact ⟨m.1, m.2, lookup_eq_some_of_mem_nodup hd.nodup (mem_getModified_iff.mp hp)⟩
  · rintro ⟨o, n, hf⟩
    exact List.mem_map.mpr
      ⟨(j, (o, n)), mem_getModified_iff.mpr (mem_of_lookup_eq_some hf), rfl⟩

theorem updateCache_apply (d : TableDiff) (hd : DiffWF d)
    (c : Nat → Option Row) (j : Nat) :
    updateCache_ d c j =
      (match d.find j with
       | some e => e.nowImg
       | none => c j) := by
  have hidsDel : ∀ p ∈ d.getDeleted, Row.id p.2 = p.1 := by
    rintro ⟨i, r⟩ hp
    exact hd.ids (i, DiffEntry.deleted r) (mem_getDeleted_iff.mp hp)
  have hidsAdd : ∀ p ∈ d.getAdded, Row.id p.2 = p.1 := by
    rintro ⟨i, r⟩ hp
    exact hd.ids (i, DiffEntry.added r) (mem_getAdded_iff.mp hp)
  have hidsMod : ∀ p ∈ d.getModified, Row.id p.2.2 = p.1 := by
    rintro ⟨i, m⟩ hp
    exact (hd.ids (i, DiffEntry.modified m.1 m.2) (mem_getModified_iff.mp hp)).2
  have hndDel : (d.getDeleted.map (fun p => Row.id p.2)).Nodup := by
    rw [List.map_congr_left hidsDel]
    exact (keys_getDeleted_sublist d).nodup hd.nodup
  have hndAdd : (d.getAdded.map (fun p => Row.id p.2)).Nodup := by
    rw [List.map_congr_left hidsAdd]
    exact (keys_getAdded_sublist d).nodup hd.nodup
  have hndMod : (d.getModified.map (fun p => Row.id p.2.2)).Nodup := by
    rw [List.map_congr_left hidsMod]
    exact (keys_getModified_sublist d).nodup hd.nodup
  unfold updateCache_
  rw [foldl_setter (d.getModified) (fun p => p.2.2.id) (fun p => some p.2.2) _ j hndMod]
  rw [foldl_setter (d.getAdded) (fun p => p.2.id) (fun p => some p.2) _ j hndAdd]
  rw [foldl_setter (d.getDeleted) (fun p => p.2.id) (fun _ => none) _ j hndDel]
  cases hf : d.find j with
  | some e =>
    cases e with
    | deleted r =>
      have h1 : d.getModified.find? (fun p => p.2.2.id == j) = none := by
        refine find?_assoc_eq_none _ (fun m : Row × Row => m.2.id) hidsMod j ?_
        rw [mem_keys_getModified_iff hd]
        rintro ⟨o, n, hf2⟩
        rw [hf] at hf2
        cases hf2
      have h2 : d.getAdded.find? (fun p => p.2.id == j) = none := by
        refine find?_assoc_eq_none _ Row.id hidsAdd j ?_
        rw [mem_keys_getAdded_iff hd]
        rintro ⟨r2, hf2⟩
        rw [hf] at hf2
        cases hf2
      have h3 : d.getDeleted.find? (fun p => p.2.id == j) = some (j, r) := by
        exact find?_assoc_eq_some _ Row.id hidsDel
          ((keys_getDeleted_sublist d).nodup hd.nodup) j r
          (mem_getDeleted_iff.mpr (mem_of_lookup_eq_some hf))
      rw [h1, h2, h3]
      rfl
    | added r =>
      have h1 : d.getModified.find? (fun p => p.2.2.id == j) = none := by
        refine find?_assoc_eq_none _ (fun m : Row × Row => m.2.id) hidsMod j ?_
        rw [mem_keys_getModified_iff hd]
        rintro ⟨o, n, hf2⟩
        rw [hf] at hf2
        cases hf2
      have h2 : d.getAdded.find? (fun p => p.2.id == j) = some (j, r) := by
        exact find?_assoc_eq_some _ Row.id hidsAdd
          ((keys_getAdded_sublist d).nodup hd.nodup) j r
          (mem_getAdded_iff.mpr (mem_of_lookup_eq_some hf))
      rw [h1, h2]
      rfl
    | modified o n =>
      have h1 : d.getModified.find? (fun p => p.2.2.id == j) = some (j, (o, n)) := by
        exact find?_assoc_eq_some _ (fun m : Row × Row => m.2.id) hidsMod
          ((keys_getModified_sublist d).nodup hd.nodup) j (o, n)
          (mem_getModified_iff.mpr (mem_of_lookup_eq_some hf))
      rw [h1]
      rfl
  | none =>
    have hno : j ∉ d.entries.map Prod.fst := (lookup_eq_none_iff_keys _ _).mp hf
    have h1 : d.getModified.find? (fun p => p.2.2.id == j) = none := by
      refine find?_assoc_eq_none _ (fun m : Row × Row => m.2.id) hidsMod j ?_
      intro hm
      exact hno ((keys_getModified_sublist d).mem hm)
    have h2 : d.getAdded.find? (fun p => p.2.id == j) = none := by
      refine find?_assoc_eq_none _ Row.id hidsAdd j ?_
      intro hm
      exact hno ((keys_getAdded_sublist d).mem hm)
    have h3 : d.getDeleted.find? (fun p => p.2.id == j) = none := by
      refine find?_assoc_eq_none _ Row.id hidsDel j ?_
      intro hm
      exact hno ((keys_getDeleted_sublist d).mem hm)
    rw [h1, h2, h3]

/-! ## updateTableIndices characterization -/

theorem foldNames_apply (names : List IndexName)
    (g : IndexName → IndexData → IndexData) (st : IndexName → IndexData)
    (n : IndexName) (hnd : names.Nodup) :
    (names.foldl (fun st name => fun m => if m = name then g name (st name) else st m) st) n =
      if n ∈ names then g n (st n) else st n := by
  induction names generalizing st with
  | nil => simp
  | cons x names ih =>
    rw [List.nodup_cons] at hnd
    rw [List.foldl_cons, ih _ hnd.2]
    by_cases hmem : n ∈ names
    · rw [if_pos hmem, if_pos (List.mem_cons_of_mem x hmem)]
      have hnx : n ≠ x := fun he => hnd.1 (he ▸ hmem)
      rw [if_neg hnx]
    · rw [if_neg hmem]
      by_cases hx : n = x
      · subst hx
        rw [if_pos rfl, if_pos (List.mem_cons_self n names)]
      · rw [if_neg hx, if_neg (by
          intro hm
          rcases List.mem_cons.mp hm with he | hm2
          · exact hx he
          · exact hmem hm2)]

theorem updateTableIndices_apply (t : Table) (d : TableDiff)
    (st : IndexName → IndexData) (n : IndexName) (hnd : t.indexNames.Nodup) :
    updateTableIndices_ t d st n =
      if n ∈ t.indexNames then (snapshotOf d).foldl (applyPair n) (st n)
      else st n := by
  unfold updateTableIndices_
  exact foldNames_apply t.indexNames
    (fun name c => (snapshotOf d).foldl (applyPair name) c) st n hnd

theorem applyPair_mem_other (n : IndexName) (c : IndexData)
    (p : Option Row × Option Row) (hg : pairGood p) (k : Int) (j : Nat)
    (hj : j ≠ pairRowId p) :
    ((k, j) ∈ applyPair n c p ↔ (k, j) ∈ c) := by
  rcases p with ⟨pN, pT⟩
  cases pN with
  | some rN =>
    cases pT with
    | some rT =>
      have hids : rN.id = rT.id := hg
      have hj2 : j ≠ rN.id := hj
      simp only [applyPair]
      split
      · exact Iff.rfl
      · simp only [Finset.mem_insert, Finset.mem_erase, Prod.mk.injEq, ne_eq]
        constructor
        · rintro (⟨hk, hid⟩ | ⟨_, hm⟩)
          · exact absurd hid hj2
          · exact hm
        · intro hm
          refine Or.inr ⟨?_, hm⟩
          rintro ⟨_, hid⟩
          exact hj2 (hids ▸ hid)
    | none =>
      have hj2 : j ≠ rN.id := hj
      simp only [applyPair]
      split
      · exact Iff.rfl
      · simp only [Finset.mem_insert, Prod.mk.injEq]
        constructor
        · rintro (⟨hk, hid⟩ | hm)
          · exact absurd hid hj2
          · exact hm
        · intro hm
          exact Or.inr hm
  | none =>
    cases pT with
    | some rT =>
      have hj2 : j ≠ rT.id := hj
      simp only [applyPair]
      split
      · exact Iff.rfl
      · simp only [Finset.mem_erase, Prod.mk.injEq, ne_eq]
        constructor
        · rintro ⟨_, hm⟩
          exact hm
        · intro hm
          refine ⟨?_, hm⟩
          rintro ⟨_, hid⟩
          exact hj2 hid
    | none => cases hg

theorem applyPair_mem_self (n : IndexName) (c : IndexData)
    (p : Option Row × Option Row) (hg : pairGood p) (k : Int) :
    ((k, pairRowId p) ∈ applyPair n c p ↔
      pairMemAfter n p k ((k, pairRowId p) ∈ c)) := by
  rcases p with ⟨pN, pT⟩
  cases pN with
  | some rN =>
    cases pT with
    | some rT =>
      have hids : rN.id = rT.id := hg
      have hpid : pairRowId (some rN, some rT) = rN.id := rfl
      rw [hpid]
      simp only [applyPair, pairMemAfter]
      split <;> rename_i hguard
      · exact Iff.rfl
      · simp only [Option.map_some', Option.some.injEq, ne_eq,
          Finset.mem_insert, Finset.mem_erase, Prod.mk.injEq]
        constructor
        · rintro (⟨h1, _⟩ | ⟨h1, h2⟩)
          · exact Or.inl h1.symm
          · refine Or.inr ⟨h2, ?_⟩
            intro he
            exact h1 ⟨he.symm, hids⟩
        · rintro (h1 | ⟨h1, h2⟩)
          · exact Or.inl ⟨h1.symm, trivial⟩
          · refine Or.inr ⟨?_, h1⟩
            rintro ⟨he, _⟩
            exact h2 he.symm
    | none =>
      have hpid : pairRowId (some rN, none) = rN.id := rfl
      rw [hpid]
      simp only [applyPair, pairMemAfter]
      split <;> rename_i hguard
      · exact absurd hguard (by simp)
      · simp only [Option.map_some', Option.map_none', Option.some.injEq, ne_eq,
          Finset.mem_insert, Prod.mk.injEq]
        constructor
        · rintro (⟨h1, _⟩ | hm)
          · exact Or.inl h1.symm
          · exact Or.inr ⟨hm, by simp⟩
        · rintro (h1 | ⟨h1, _⟩)
          · exact Or.inl ⟨h1.symm, trivial⟩
          · exact Or.inr h1
  | none =>
    cases pT with
    | some rT =>
      have hpid : pairRowId (none, some rT) = rT.id := rfl
      rw [hpid]
      simp only [applyPair, pairMemAfter]
      split <;> rename_i hguard
      · exact absurd hguard (by simp)
      · simp only [Option.map_some', Option.map_none', Option.some.injEq, ne_eq,
          Finset.mem_erase, Prod.mk.injEq]
        constructor
        · rintro ⟨h1, hm⟩
          refine Or.inr ⟨hm, ?_⟩
          intro he
          exact h1 ⟨he.symm, trivial⟩
        · rintro (h1 | ⟨h1, h2⟩)
          · cases h1
          · refine ⟨?_, h1⟩
            rintro ⟨he, _⟩
            exact h2 he.symm
    | none => cases hg

theorem pairMemAfter_congr (n : IndexName) (p : Option Row × Option Row)
    (k : Int) {b b2 : Prop} (h : b ↔ b2) :
    pairMemAfter n p k b ↔ pairMemAfter n p k b2 := by
  unfold pairMemAfter
  split
  · exact h
  · exact or_congr Iff.rfl (and_congr h Iff.rfl)

theorem foldPairs_mem (P : List (Option Row × Option Row)) (n : IndexName)
    (c : IndexData) (k : Int) (j : Nat)
    (hP : ∀ p ∈ P, pairGood p) (hnd : (P.map pairRowId).Nodup) :
    ((k, j) ∈ P.foldl (applyPair n) c) ↔
      (match P.find? (fun p => pairRowId p == j) with
       | some p => pairMemAfter n p k ((k, j) ∈ c)
       | none => (k, j) ∈ c) := by
  induction P generalizing c with
  | nil => exact Iff.rfl
  | cons p P ih =>
    rw [List.map_cons, List.nodup_cons] at hnd
    rw [List.foldl_cons]
    rw [ih _ (fun q hq => hP q (List.mem_cons_of_mem p hq)) hnd.2]
    have hgp := hP p (List.mem_cons_self p P)
    by_cases hj : pairRowId p = j
    · subst hj
      rw [List.find?_cons_of_pos _ (by simp)]
      have hfn : P.find? (fun q => pairRowId q == pairRowId p) = none := by
        rw [List.find?_eq_none]
        intro q hq
        simp only [beq_iff_eq]
        intro he
        exact hnd.1 (he ▸ List.mem_map.mpr ⟨q, hq, rfl⟩)
      rw [hfn]
      exact applyPair_mem_self n c p hgp k
    · rw [List.find?_cons_of_neg _ (by simpa using fun he => hj he)]
      have hc : ((k, j) ∈ applyPair n c p ↔ (k, j) ∈ c) :=
        applyPair_mem_other n c p hgp k j (fun he => hj he.symm)
      cases hf : P.find? (fun q => pairRowId q == j) with
      | some q => exact pairMemAfter_congr n q k hc
      | none => exact hc

theorem snapshot_pairs_good (d : TableDiff) (hd : DiffWF d) :
    ∀ p ∈ snapshotOf d, pairGood p := by
  intro p hp
  unfold snapshotOf at hp
  rcases List.mem_append.mp hp with h12 | h3
  · rcases List.mem_append.mp h12 with h1 | h2
    · obtain ⟨q, _, rfl⟩ := List.mem_map.mp h1
      trivial
    · obtain ⟨q, hq, rfl⟩ := List.mem_map.mp h2
      have := hd.ids (q.1, DiffEntry.modified q.2.1 q.2.2) (mem_getModified_iff.mp hq)
      exact this.2.trans this.1.symm
  · obtain ⟨q, _, rfl⟩ := List.mem_map.mp h3
    trivial

theorem snapshot_pids_eq (d : TableDiff) (hd : DiffWF d) :
    (snapshotOf d).map pairRowId =
      d.getDeleted.map Prod.fst ++ d.getModified.map Prod.fst ++
        d.getAdded.map Prod.fst := by
  unfold snapshotOf
  rw [List.map_append, List.map_append, List.map_map, List.map_map, List.map_map]
  congr 1
  · congr 1
    · exact List.map_congr_left (fun p hp =>
        hd.ids (p.1, DiffEntry.deleted p.2) (mem_getDeleted_iff.mp hp))
    · exact List.map_congr_left (fun p hp =>
        (hd.ids (p.1, DiffEntry.modified p.2.1 p.2.2) (mem_getModified_iff.mp hp)).2)
  · exact List.map_congr_left (fun p hp =>
      hd.ids (p.1, DiffEntry.added p.2) (mem_getAdded_iff.mp hp))

theorem snapshot_pids_nodup (d : TableDiff) (hd : DiffWF d) :
    ((snapshotOf d).map pairRowId).Nodup := by
  rw [snapshot_pids_eq d hd]
  refine List.Nodup.append (List.Nodup.append ?_ ?_ ?_) ?_ ?_
  · exact (keys_getDeleted_sublist d).nodup hd.nodup
  · exact (keys_getModified_sublist d).nodup hd.nodup
  · intro a ha hb
    obtain ⟨r, hfr⟩ := (mem_keys_getDeleted_iff hd).mp ha
    obtain ⟨o, n2, hfo⟩ := (mem_keys_getModified_iff hd).mp hb
    rw [hfr] at hfo
    cases hfo
  · exact (keys_getAdded_sublist d).nodup hd.nodup
  · intro a ha hb
    obtain ⟨r, hfr⟩ := (mem_keys_getAdded_iff hd).mp hb
    rcases List.mem_append.mp ha with h1 | h2
    · obtain ⟨r2, hf2⟩ := (mem_keys_getDeleted_iff hd).mp h1
      rw [hfr] at hf2
      cases hf2
    · obtain ⟨o, n2, hf2⟩ := (mem_keys_getModified_iff hd).mp h2
      rw [hfr] at hf2
      cases hf2

theorem find?_comp_del (d : TableDiff) (j : Nat) :
    d.getDeleted.find?
      ((fun p => pairRowId p == j) ∘ (fun p => ((none : Option Row), some p.2))) =
      d.getDeleted.find? (fun p => Row.id p.2 == j) := rfl

theorem find?_comp_mod (d : TableDiff) (j : Nat) :
    d.getModified.find?
      ((fun p => pairRowId p == j) ∘ (fun p => (some p.2.2, some p.2.1))) =
      d.getModified.find? (fun p => Row.id p.2.2 == j) := rfl

theorem find?_comp_add (d : TableDiff) (j : Nat) :
    d.getAdded.find?
      ((fun p => pairRowId p == j) ∘ (fun p => (some p.2, (none : Option Row)))) =
      d.getAdded.find? (fun p => Row.id p.2 == j) := rfl

theorem snapshot_find (d : TableDiff) (hd : DiffWF d) (j : Nat) :
    (snapshotOf d).find? (fun p => pairRowId p == j) =
      (match d.find j with
       | some e => some (e.nowImg, e.thenImg)
       | none => none) := by
  have hidsDel : ∀ p ∈ d.getDeleted, Row.id p.2 = p.1 := fun p hp =>
    hd.ids (p.1, DiffEntry.deleted p.2) (mem_getDeleted_iff.mp hp)
  have hidsAdd : ∀ p ∈ d.getAdded, Row.id p.2 = p.1 := fun p hp =>
    hd.ids (p.1, DiffEntry.added p.2) (mem_getAdded_iff.mp hp)
  have hidsMod : ∀ p ∈ d.getModified, Row.id p.2.2 = p.1 := fun p hp =>
    (hd.ids (p.1, DiffEntry.modified p.2.1 p.2.2) (mem_getModified_iff.mp hp)).2
  unfold snapshotOf
  rw [List.find?_append, List.find?_append, List.find?_map, List.find?_map,
    List.find?_map, find?_comp_del, find?_comp_mod, find?_comp_add]
  cases hf : d.find j with
  | some e =>
    cases e with
    | deleted r =>
      rw [find?_assoc_eq_some _ Row.id hidsDel
        ((keys_getDeleted_sublist d).nodup hd.nodup) j r
        (mem_getDeleted_iff.mpr (mem_of_lookup_eq_some hf))]
      rfl
    | modified o n =>
      rw [find?_assoc_eq_none _ Row.id hidsDel j (by
        rw [mem_keys_getDeleted_iff hd]
        rintro ⟨r2, hf2⟩
        rw [hf] at hf2
        cases hf2)]
      rw [find?_assoc_eq_some _ (fun m : Row × Row => m.2.id) hidsMod
        ((keys_getModified_sublist d).nodup hd.nodup) j (o, n)
        (mem_getModified_iff.mpr (mem_of_lookup_eq_some hf))]
      rfl
    | added r =>
      rw [find?_assoc_eq_none _ Row.id hidsDel j (by
        rw [mem_keys_getDeleted_iff hd]
        rintro ⟨r2, hf2⟩
        rw [hf] at hf2
        cases hf2)]
      rw [find?_assoc_eq_none _ (fun m : Row × Row => m.2.id) hidsMod j (by
        rw [mem_keys_getModified_iff hd]
        rintro ⟨o2, n2, hf2⟩
        rw [hf] at hf2
        cases hf2)]
      rw [find?_assoc_eq_some _ Row.id hidsAdd
        ((keys_getAdded_sublist d).nodup hd.nodup) j r
        (mem_getAdded_iff.mpr (mem_of_lookup_eq_some hf))]
      rfl
  | none =>
    have hno : j ∉ d.entries.map Prod.fst := (lookup_eq_none_iff_keys _ _).mp hf
    rw [find?_assoc_eq_none _ Row.id hidsDel j
      (fun hm => hno ((keys_getDeleted_sublist d).mem hm))]
    rw [find?_assoc_eq_none _ (fun m : Row × Row => m.2.id) hidsMod j
      (fun hm => hno ((keys_getModified_sublist d).mem hm))]
    rw [find?_assoc_eq_none _ Row.id hidsAdd j
      (fun hm => hno ((keys_getAdded_sublist d).mem hm))]
    rfl

theorem applySnap_mem (d : TableDiff) (hd : DiffWF d) (n : IndexName)
    (c : IndexData) (k : Int) (j : Nat) :
    ((k, j) ∈ (snapshotOf d).foldl (applyPair n) c) ↔
      (match d.find j with
       | some e => pairMemAfter n (e.nowImg, e.thenImg) k ((k, j) ∈ c)
       | none => (k, j) ∈ c) := by
  rw [foldPairs_mem _ n c k j (snapshot_pairs_good d hd) (snapshot_pids_nodup d hd)]
  rw [snapshot_find d hd j]
  cases d.find j with
  | some e => exact Iff.rfl
  | none => exact Iff.rfl

/-! ## merge and getReverse characterization -/

theorem toOps_rowIds_eq (d : TableDiff) (hd : DiffWF d) :
    d.toOps.map DiffOp.rowId =
      d.getAdded.map Prod.fst ++ d.getModified.map Prod.fst ++
        d.getDeleted.map Prod.fst := by
  unfold TableDiff.toOps
  rw [List.map_append, List.map_append, List.map_map, List.map_map, List.map_map]
  congr 1
  · congr 1
    · exact List.map_congr_left (fun p hp =>
        hd.ids (p.1, DiffEntry.added p.2) (mem_getAdded_iff.mp hp))
    · exact List.map_congr_left (fun p hp =>
        (hd.ids (p.1, DiffEntry.modified p.2.1 p.2.2) (mem_getModified_iff.mp hp)).1)
  · exact List.map_congr_left (fun p hp =>
      hd.ids (p.1, DiffEntry.deleted p.2) (mem_getDeleted_iff.mp hp))

theorem toOps_rowIds_nodup (d : TableDiff) (hd : DiffWF d) :
    (d.toOps.map DiffOp.rowId).Nodup := by
  rw [toOps_rowIds_eq d hd]
  refine List.Nodup.append (List.Nodup.append ?_ ?_ ?_) ?_ ?_
  · exact (keys_getAdded_sublist d).nodup hd.nodup
  · exact (keys_getModified_sublist d).nodup hd.nodup
  · intro a ha hb
    obtain ⟨r, hfr⟩ := (mem_keys_getAdded_iff hd).mp ha
    obtain ⟨o, n2, hfo⟩ := (mem_keys_getModified_iff hd).mp hb
    rw [hfr] at hfo
    cases hfo
  · exact (keys_getDeleted_sublist d).nodup hd.nodup
  · intro a ha hb
    obtain ⟨r, hfr⟩ := (mem_keys_getDeleted_iff hd).mp hb
    rcases List.mem_append.mp ha with h1 | h2
    · obtain ⟨r2, hf2⟩ := (mem_keys_getAdded_iff hd).mp h1
      rw [hfr] at hf2
      cases hf2
    · obtain ⟨o, n2, hf2⟩ := (mem_keys_getModified_iff hd).mp h2
      rw [hfr] at hf2
      cases hf2

theorem toOps_idsOK (d : TableDiff) (hd : DiffWF d) :
    ∀ op ∈ d.toOps, op.idsOK := by
  intro op hop
  unfold TableDiff.toOps at hop
  rcases List.mem_append.mp hop with h12 | h3
  · rcases List.mem_append.mp h12 with h1 | h2
    · obtain ⟨q, _, rfl⟩ := List.mem_map.mp h1
      trivial
    · obtain ⟨q, hq, rfl⟩ := List.mem_map.mp h2
      have := hd.ids (q.1, DiffEntry.modified q.2.1 q.2.2) (mem_getModified_iff.mp hq)
      exact this.2.trans this.1.symm
  · obtain ⟨q, _, rfl⟩ := List.mem_map.mp h3
    trivial

theorem find?_comp_toOps_add (d : TableDiff) (j : Nat) :
    d.getAdded.find?
      ((fun op => DiffOp.rowId op == j) ∘ (fun p => DiffOp.add p.2)) =
      d.getAdded.find? (fun p => Row.id p.2 == j) := rfl

theorem find?_comp_toOps_mod (d : TableDiff) (j : Nat) :
    d.getModified.find?
      ((fun op => DiffOp.rowId op == j) ∘ (fun p => DiffOp.modify p.2.1 p.2.2)) =
      d.getModified.find? (fun p => Row.id p.2.1 == j) := rfl

theorem find?_comp_toOps_del (d : TableDiff) (j : Nat) :
    d.getDeleted.find?
      ((fun op => DiffOp.rowId op == j) ∘ (fun p => DiffOp.del p.2)) =
      d.getDeleted.find? (fun p => Row.id p.2 == j) := rfl

theorem toOps_find (d : TableDiff) (hd : DiffWF d) (j : Nat) :
    d.toOps.find? (fun op => op.rowId == j) =
      (match d.find j with
       | some e => some (entryToOp e)
       | none => none) := by
  have hidsDel : ∀ p ∈ d.getDeleted, Row.id p.2 = p.1 := fun p hp =>
    hd.ids (p.1, DiffEntry.deleted p.2) (mem_getDeleted_iff.mp hp)
  have hidsAdd : ∀ p ∈ d.getAdded, Row.id p.2 = p.1 := fun p hp =>
    hd.ids (p.1, DiffEntry.added p.2) (mem_getAdded_iff.mp hp)
  have hidsMod : ∀ p ∈ d.getModified, Row.id p.2.1 = p.1 := fun p hp =>
    (hd.ids (p.1, DiffEntry.modified p.2.1 p.2.2) (mem_getModified_iff.mp hp)).1
  unfold TableDiff.toOps
  rw [List.find?_append, List.find?_append, List.find?_map, List.find?_map,
    List.find?_map, find?_comp_toOps_add, find?_comp_toOps_mod, find?_comp_toOps_del]
  cases hf : d.find j with
  | some e =>
    cases e with
    | added r =>
      rw [find?_assoc_eq_some _ Row.id hidsAdd
        ((keys_getAdded_sublist d).nodup hd.nodup) j r
        (mem_getAdded_iff.mpr (mem_of_lookup_eq_some hf))]
      rfl
    | modified o n =>
      rw [find?_assoc_eq_none _ Row.id hidsAdd j (by
        rw [mem_keys_getAdded_iff hd]
        rintro ⟨r2, hf2⟩
        rw [hf] at hf2
        cases hf2)]
      rw [find?_assoc_eq_some _ (fun m : Row × Row => m.1.id) hidsMod
        ((keys_getModified_sublist d).nodup hd.nodup) j (o, n)
        (mem_getModified_iff.mpr (mem_of_lookup_eq_some hf))]
      rfl
    | deleted r =>
      rw [find?_assoc_eq_none _ Row.id hidsAdd j (by
        rw [mem_keys_getAdded_iff hd]
        rintro ⟨r2, hf2⟩
        rw [hf] at hf2
        cases hf2)]
      rw [find?_assoc_eq_none _ (fun m : Row × Row => m.1.id) hidsMod j (by
        rw [mem_keys_getModified_iff hd]
        rintro ⟨o2, n2, hf2⟩
        rw [hf] at hf2
        cases hf2)]
      rw [find?_assoc_eq_some _ Row.id hidsDel
        ((keys_getDeleted_sublist d).nodup hd.nodup) j r
        (mem_getDeleted_iff.mpr (mem_of_lookup_eq_some hf))]
      rfl
  | none =>
    have hno : j ∉ d.entries.map Prod.fst := (lookup_eq_none_iff_keys _ _).mp hf
    rw [find?_assoc_eq_none _ Row.id hidsAdd j
      (fun hm => hno ((keys_getAdded_sublist d).mem hm))]
    rw [find?_assoc_eq_none _ (fun m : Row × Row => m.1.id) hidsMod j
      (fun hm => hno ((keys_getModified_sublist d).mem hm))]
    rw [find?_assoc_eq_none _ Row.id hidsDel j
      (fun hm => hno ((keys_getDeleted_sublist d).mem hm))]
    rfl

theorem foldl_applyOp_find (D : TableDiff) (l : List DiffOp) (j : Nat)
    (hnd : (l.map DiffOp.rowId).Nodup) :
    (l.foldl TableDiff.applyOp D).find j =
      (match l.find? (fun op => op.rowId == j) with
       | some op => mergeCell (D.find j) op
       | none => D.find j) := by
  induction l generalizing D with
  | nil => rfl
  | cons op rest ih =>
    rw [List.map_cons, List.nodup_cons] at hnd
    rw [List.foldl_cons, ih _ hnd.2]
    by_cases hj : op.rowId = j
    · rw [List.find?_cons_of_pos _ (by simp [hj])]
      have hfn : rest.find? (fun op2 => op2.rowId == j) = none := by
        rw [List.find?_eq_none]
        intro op2 h2
        simp only [beq_iff_eq]
        intro he
        refine hnd.1 ?_
        rw [← hj] at he
        exact he ▸ List.mem_map.mpr ⟨op2, h2, rfl⟩
      rw [hfn, find_applyOp]
      rw [if_pos hj.symm, hj]
    · rw [List.find?_cons_of_neg _ (by simpa using fun he => hj he)]
      have hne : (D.applyOp op).find j = D.find j := by
        rw [find_applyOp, if_neg (fun he => hj he.symm)]
      cases hf : rest.find? (fun op2 => op2.rowId == j) with
      | some op2 => rw [hne]
      | none => rw [hne]

theorem diffWF_foldl_applyOp (l : List DiffOp) :
    ∀ (D : TableDiff), DiffWF D → (∀ op ∈ l, op.idsOK) →
      DiffWF (l.foldl TableDiff.applyOp D) := by
  induction l with
  | nil => exact fun D hD _ => hD
  | cons op rest ih =>
    intro D hD hops
    rw [List.foldl_cons]
    exact ih _ (diffWF_applyOp hD op (hops op (List.mem_cons_self op rest)))
      (fun op2 h2 => hops op2 (List.mem_cons_of_mem op h2))

theorem diffWF_merge (D d : TableDiff) (hD : DiffWF D) (hd : DiffWF d) :
    DiffWF (D.merge d) :=
  diffWF_foldl_applyOp d.toOps D hD (toOps_idsOK d hd)

theorem merge_find (D d : TableDiff) (hd : DiffWF d) (j : Nat) :
    (D.merge d).find j =
      (match d.find j with
       | some e => mergeCell (D.find j) (entryToOp e)
       | none => D.find j) := by
  unfold TableDiff.merge
  rw [foldl_applyOp_find D d.toOps j (toOps_rowIds_nodup d hd)]
  rw [toOps_find d hd j]
  cases d.find j with
  | some e => rfl
  | none => rfl

theorem reverse_nowImg (e : DiffEntry) : e.reverse.nowImg = e.thenImg := by
  cases e <;> rfl

theorem reverse_thenImg (e : DiffEntry) : e.reverse.thenImg = e.nowImg := by
  cases e <;> rfl

theorem find_getReverse (d : TableDiff) (j : Nat) :
    d.getReverse.find j = (d.find j).map DiffEntry.reverse := by
  show (d.entries.map (fun p => (p.1, p.2.reverse))).lookup j =
    (d.entries.lookup j).map DiffEntry.reverse
  induction d.entries with
  | nil => rfl
  | cons p rest ih =>
    obtain ⟨a, b⟩ := p
    by_cases h : j = a
    · subst h
      simp only [List.map_cons, List.lookup_cons_self]
      rfl
    · simp only [List.map_cons, List.lookup_cons, beq_false_of_ne h]
      exact ih

theorem diffWF_getReverse (d : TableDiff) (hd : DiffWF d) :
    DiffWF d.getReverse := by
  constructor
  · have : d.getReverse.entries.map Prod.fst = d.entries.map Prod.fst := by
      show (d.entries.map (fun p => (p.1, p.2.reverse))).map Prod.fst = _
      rw [List.map_map]
      exact List.map_congr_left (fun p _ => rfl)
    rw [this]
    exact hd.nodup
  · rintro ⟨i, e2⟩ hp
    obtain ⟨⟨i0, e0⟩, hp0, he⟩ := List.mem_map.mp hp
    simp only [Prod.mk.injEq] at he
    obtain ⟨rfl, rfl⟩ := he
    have := hd.ids (i0, e0) hp0
    cases e0 with
    | added r => exact this
    | modified o n => exact ⟨this.2, this.1⟩
    | deleted r => exact this

/-! ## diffsSet and findDiffEntry lemmas -/

theorem find_empty (j : Nat) : TableDiff.empty.find j = none := rfl

theorem diffWF_empty : DiffWF TableDiff.empty :=
  ⟨List.nodup_nil, fun p hp => absurd hp (List.not_mem_nil p)⟩

theorem entryToOp_nowImg (e : DiffEntry) : (entryToOp e).nowImg = e.nowImg := by
  cases e <;> rfl

theorem entryToOp_thenImg (e : DiffEntry) : (entryToOp e).thenImg = e.thenImg := by
  cases e <;> rfl

theorem rowId_mem_indexNames (t : Table) :
    IndexName.rowId t.name ∈ t.indexNames :=
  List.mem_append_right _ (List.mem_singleton.mpr rfl)

theorem lookup_append_gen {κ ν : Type} [BEq κ] (l1 l2 : List (κ × ν)) (a : κ) :
    (l1 ++ l2).lookup a =
      (match l1.lookup a with
       | some v => some v
       | none => l2.lookup a) := by
  induction l1 with
  | nil => rfl
  | cons p rest ih =>
    obtain ⟨x, y⟩ := p
    rw [List.cons_append]
    cases hx : (a == x) with
    | true => simp only [List.lookup_cons, hx]
    | false =>
      simp only [List.lookup_cons, hx]
      exact ih

theorem lookup_map_set (ds : List (String × TableDiff)) (tn : String)
    (d : TableDiff) (h : (ds.lookup tn).isSome) :
    (ds.map (fun p => if p.1 = tn then (tn, d) else p)).lookup tn = some d := by
  induction ds with
  | nil => cases h
  | cons p rest ih =>
    obtain ⟨a, b⟩ := p
    by_cases ha : a = tn
    · simp only [List.map_cons]
      rw [if_pos ha]
      exact List.lookup_cons_self
    · have hne : tn ≠ a := fun he => ha he.symm
      simp only [List.lookup_cons, beq_false_of_ne hne] at h
      simp only [List.map_cons, if_neg ha, List.lookup_cons, beq_false_of_ne hne]
      exact ih h

theorem lookup_map_set_ne (ds : List (String × TableDiff)) (tn : String)
    (d : TableDiff) (tn2 : String) (h : tn2 ≠ tn) :
    (ds.map (fun p => if p.1 = tn then (tn, d) else p)).lookup tn2 =
      ds.lookup tn2 := by
  induction ds with
  | nil => rfl
  | cons p rest ih =>
    obtain ⟨a, b⟩ := p
    by_cases ha : a = tn
    · simp only [List.map_cons]
      rw [if_pos ha]
      subst ha
      simp only [List.lookup_cons, beq_false_of_ne h]
      exact ih
    · simp only [List.map_cons, if_neg ha]
      by_cases hx : tn2 = a
      · subst hx
        rw [List.lookup_cons_self, List.lookup_cons_self]
      · simp only [List.lookup_cons, beq_false_of_ne hx]
        exact ih

theorem diffsSet_lookup_self (ds : List (String × TableDiff)) (tn : String)
    (d : TableDiff) : (diffsSet ds tn d).lookup tn = some d := by
  unfold diffsSet
  split
  · exact lookup_map_set ds tn d (by assumption)
  · rename_i hns
    rw [lookup_append_gen]
    have hn : ds.lookup tn = none := by
      cases ho : ds.lookup tn with
      | none => rfl
      | some v => rw [ho] at hns; exact absurd rfl hns
    rw [hn]
    exact List.lookup_cons_self

theorem diffsSet_lookup_ne (ds : List (String × TableDiff)) (tn : String)
    (d : TableDiff) (tn2 : String) (h : tn2 ≠ tn) :
    (diffsSet ds tn d).lookup tn2 = ds.lookup tn2 := by
  unfold diffsSet
  split
  · exact lookup_map_set_ne ds tn d tn2 h
  · rw [lookup_append_gen]
    cases ho : ds.lookup tn2 with
    | some v => rfl
    | none => simp only [List.lookup_cons, beq_false_of_ne h, List.lookup_nil]

theorem diffOf_diffsSet_self (ds : List (String × TableDiff)) (tn : String)
    (d : TableDiff) : diffOf (diffsSet ds tn d) tn = d := by
  unfold diffOf
  rw [diffsSet_lookup_self]
  rfl

theorem diffOf_diffsSet_ne (ds : List (String × TableDiff)) (tn : String)
    (d : TableDiff) (tn2 : String) (h : tn2 ≠ tn) :
    diffOf (diffsSet ds tn d) tn2 = diffOf ds tn2 := by
  unfold diffOf
  rw [diffsSet_lookup_ne ds tn d tn2 h]

theorem mem_diffsSet (ds : List (String × TableDiff)) (tn : String)
    (d : TableDiff) (q : String × TableDiff) (hq : q ∈ diffsSet ds tn d) :
    q = (tn, d) ∨ (q ∈ ds ∧ q.1 ≠ tn) := by
  unfold diffsSet at hq
  split at hq
  · obtain ⟨p, hp, he⟩ := List.mem_map.mp hq
    by_cases h1 : p.1 = tn
    · left
      rw [if_pos h1] at he
      exact he.symm
    · right
      rw [if_neg h1] at he
      exact ⟨he ▸ hp, he ▸ h1⟩
  · rename_i hns
    rcases List.mem_append.mp hq with h1 | h2
    · right
      refine ⟨h1, fun he => ?_⟩
      have hk : tn ∈ ds.map Prod.fst := List.mem_map.mpr ⟨q, h1, he⟩
      cases ho : ds.lookup tn with
      | none => exact ((lookup_eq_none_iff_keys ds tn).mp ho) hk
      | some v => rw [ho] at hns; exact hns rfl
    · left
      exact (List.mem_singleton.mp h2)

theorem diffsSet_keys_nodup (ds : List (String × TableDiff)) (tn : String)
    (d : TableDiff) (hnd : (ds.map Prod.fst).Nodup) :
    ((diffsSet ds tn d).map Prod.fst).Nodup := by
  unfold diffsSet
  split
  · rw [List.map_map]
    have he : (Prod.fst ∘ fun p : String × TableDiff =>
        if p.1 = tn then (tn, d) else p) = Prod.fst := by
      funext p
      show (if p.1 = tn then (tn, d) else p).1 = p.1
      by_cases h1 : p.1 = tn
      · rw [if_pos h1, h1]
      · rw [if_neg h1]
    rw [he]
    exact hnd
  · rename_i hns
    rw [List.map_append]
    refine List.Nodup.append hnd ?_ ?_
    · exact List.nodup_singleton tn
    · intro a ha hb
      have hb2 : a = tn := by
        rcases List.mem_map.mp hb with ⟨p, hp, he⟩
        cases List.mem_singleton.mp hp
        exact he.symm
      subst hb2
      cases ho : ds.lookup a with
      | none => exact ((lookup_eq_none_iff_keys ds a).mp ho) ha
      | some v => rw [ho] at hns; exact hns rfl

theorem diffOf_mem (ds : List (String × TableDiff)) (tn : String)
    (h : (ds.lookup tn).isSome) : (tn, diffOf ds tn) ∈ ds := by
  unfold diffOf
  cases ho : ds.lookup tn with
  | none => rw [ho] at h; cases h
  | some v => exact mem_of_lookup_eq_some ho

theorem findDiffEntry_eq_none_iff (ds : List (String × TableDiff)) (j : Nat) :
    findDiffEntry ds j = none ↔ ∀ p ∈ ds, p.2.find j = none := by
  unfold findDiffEntry
  exact List.findSome?_eq_none_iff

theorem findDiffEntry_eq_some (ds : List (String × TableDiff)) (j : Nat)
    (e : DiffEntry) (h : findDiffEntry ds j = some e) :
    ∃ p, p ∈ ds ∧ p.2.find j = some e := by
  unfold findDiffEntry at h
  exact List.exists_of_findSome?_eq_some h

theorem findDiffEntry_char (ds : List (String × TableDiff)) (j : Nat) (tn : String)
    (hnd : (ds.map Prod.fst).Nodup)
    (hother : ∀ q ∈ ds, q.1 ≠ tn → q.2.find j = none) :
    findDiffEntry ds j = (diffOf ds tn).find j := by
  induction ds with
  | nil => rfl
  | cons p rest ih =>
    rw [List.map_cons, List.nodup_cons] at hnd
    obtain ⟨a, b⟩ := p
    unfold findDiffEntry diffOf
    by_cases ha : a = tn
    · subst ha
      rw [List.lookup_cons_self]
      cases hb : b.find j with
      | some e => simp only [List.findSome?_cons, hb, Option.getD_some]
      | none =>
        simp only [List.findSome?_cons, hb, Option.getD_some]
        rw [List.findSome?_eq_none_iff]
        intro q hq
        refine hother q (List.mem_cons_of_mem _ hq) ?_
        intro he
        exact hnd.1 (he ▸ List.mem_map.mpr ⟨q, hq, rfl⟩)
    · have hpb : b.find j = none :=
        hother (a, b) (List.mem_cons_self _ _) ha
      have hne : tn ≠ a := fun he => ha he.symm
      simp only [List.findSome?_cons, hpb, List.lookup_cons, beq_false_of_ne hne]
      exact ih hnd.2 (fun q hq hq1 => hother q (List.mem_cons_of_mem _ hq) hq1)

theorem ownerOkay_spec (ds : List (String × TableDiff)) (tn : String) (j : Nat)
    (h : ownerOkay ds tn j = true) :
    ∀ q ∈ ds, q.1 ≠ tn → q.2.find j = none := by
  intro q hq hne
  have h2 := List.all_eq_true.mp h q hq
  simp only [Bool.or_eq_true, decide_eq_true_eq, Option.isNone_iff_eq_none] at h2
  exact h2.resolve_left hne

theorem img_key_iff (img : Option Row) (n : IndexName) (k : Int) :
    (∃ r, img = some r ∧ k = r.keyOfIndex n) ↔
      img.map (fun r => r.keyOfIndex n) = some k := by
  cases img with
  | none =>
    constructor
    · rintro ⟨r, he, _⟩
      cases he
    · intro h
      cases h
  | some r =>
    simp only [Option.map_some']
    constructor
    · rintro ⟨r2, he, hk⟩
      cases he
      exact congrArg some hk.symm
    · intro h
      exact ⟨r, rfl, (Option.some.inj h).symm⟩

/-! ## Deriving the ownership condition from the shared state -/

theorem owner_from_state (s0 s : Journal) (hw : StateWF s0) (hl : Link s0 s)
    (t : Table) (ht : t ∈ s0.scope) (j : Nat)
    (hj : ((j : Int), j) ∈ s.store (IndexName.rowId t.name)) :
    ∀ q ∈ s.tableDiffs, q.1 ≠ t.name → q.2.find j = none := by
  rintro ⟨qn, qd⟩ hq hne
  replace hne : qn ≠ t.name := hne
  cases he : qd.find j with
  | none => rfl
  | some e =>
  exfalso
  obtain ⟨t2, ht2, ht2n⟩ := hl.diffNames (qn, qd) hq
  replace ht2n : t2.name = qn := ht2n
  have hlq : s.tableDiffs.lookup qn = some qd :=
    lookup_eq_some_of_mem_nodup hl.diffKeysNodup hq
  have hdq : diffOf s.tableDiffs qn = qd := by
    unfold diffOf
    rw [hlq]
    rfl
  cases hD : (diffOf s.tableDiffs t.name).find j with
  | some e2 =>
    have hls : (s.tableDiffs.lookup t.name).isSome := by
      cases hlo : s.tableDiffs.lookup t.name with
      | none =>
        unfold diffOf at hD
        rw [hlo] at hD
        exact Option.noConfusion hD
      | some D => rfl
    have hown := hl.ownerUnique (t.name, diffOf s.tableDiffs t.name)
      (diffOf_mem _ _ hls) (qn, qd) hq j
      (by show ((diffOf s.tableDiffs t.name).find j).isSome = true
          rw [hD]
          rfl)
      (by show (qd.find j).isSome = true
          rw [he]
          rfl)
    exact hne hown.symm
  | none =>
    have hsn := hl.storeNow t ht (IndexName.rowId t.name)
      (rowId_mem_indexNames t) (j : Int) j
    rw [hD] at hsn
    replace hsn : (((j : Int), j) ∈ s.store (IndexName.rowId t.name) ↔
        ((j : Int), j) ∈ s0.store (IndexName.rowId t.name)) := hsn
    have hrowmem : ((j : Int), j) ∈ s0.store (IndexName.rowId t.name) :=
      hsn.mp hj
    have hDwf : DiffWF qd := hl.diffWF (qn, qd) hq
    have hids : e.idsMatch j := hDwf.find_ids he
    cases hti : e.thenImg with
    | some r =>
      have hst := hl.storeThen t2 ht2 (IndexName.rowId t2.name)
        (rowId_mem_indexNames t2) (j : Int) j e
        (by rw [ht2n, hdq]; exact he)
      have hmem0 : ((j : Int), j) ∈ s0.store (IndexName.rowId t2.name) := by
        rw [hst]
        refine ⟨r, hti, ?_⟩
        have hrid : r.id = j := by
          cases e with
          | added r0 => cases hti
          | modified o n =>
            cases hti
            exact hids.1
          | deleted r0 =>
            cases hti
            exact hids
        show (j : Int) = (r.id : Int)
        rw [hrid]
      have htne : t ≠ t2 := by
        intro heq
        exact hne (by rw [← ht2n, ← heq])
      exact hw.popDisjoint t ht t2 ht2 htne j hrowmem hmem0
    | none =>
      have hfde : findDiffEntry s.tableDiffs j = some e := by
        have hchar := findDiffEntry_char s.tableDiffs j qn hl.diffKeysNodup ?_
        · rw [hchar, hdq]
          exact he
        · intro q2 hq2 hq2n
          cases he2 : q2.2.find j with
          | none => rfl
          | some e3 =>
            exact absurd (hl.ownerUnique q2 hq2 (qn, qd) hq j
              (by rw [he2]; rfl)
              (by show (qd.find j).isSome = true
                  rw [he]
                  rfl)) hq2n
      have hc0 : s0.cache j = none := by
        have hct := hl.cacheThen j e hfde
        rw [hct, hti]
      obtain ⟨r, hr, _⟩ := hw.storeSound t ht (IndexName.rowId t.name)
        (rowId_mem_indexNames t) (j : Int) j hrowmem
      rw [hc0] at hr
      exact Option.noConfusion hr

theorem mergeCell_none_isSome (op : DiffOp) : (mergeCell none op).isSome := by
  cases op <;> rfl

theorem diffOf_wf (ds : List (String × TableDiff)) (tn : String)
    (hdw : ∀ p ∈ ds, DiffWF p.2) : DiffWF (diffOf ds tn) := by
  cases hlo : ds.lookup tn with
  | none =>
    unfold diffOf
    rw [hlo]
    exact diffWF_empty
  | some D =>
    unfold diffOf
    rw [hlo]
    exact hdw (tn, D) (mem_of_lookup_eq_some hlo)

theorem diffOf_find_isSome_mem (ds : List (String × TableDiff)) (tn : String)
    (j : Nat) (h : ((diffOf ds tn).find j).isSome) :
    (tn, diffOf ds tn) ∈ ds := by
  refine diffOf_mem ds tn ?_
  cases hlo : ds.lookup tn with
  | some D => rfl
  | none =>
    unfold diffOf at h
    rw [hlo] at h
    exact Bool.noConfusion h

theorem findDiffEntry_diffsSet_owner (ds : List (String × TableDiff)) (tn : String)
    (D2 : TableDiff) (j : Nat)
    (hnd : (ds.map Prod.fst).Nodup)
    (hother : ∀ q ∈ ds, q.1 ≠ tn → q.2.find j = none) :
    findDiffEntry (diffsSet ds tn D2) j = D2.find j := by
  have hchar := findDiffEntry_char (diffsSet ds tn D2) j tn
    (diffsSet_keys_nodup ds tn D2 hnd) ?_
  · rw [hchar, diffOf_diffsSet_self]
  · intro q hq hqn
    rcases mem_diffsSet ds tn D2 q hq with h1 | h2
    · exact absurd (by rw [h1]) hqn
    · exact hother q h2.1 hqn

theorem findDiffEntry_diffsSet_skip (ds : List (String × TableDiff)) (tn : String)
    (D2 : TableDiff) (j : Nat)
    (hnd : (ds.map Prod.fst).Nodup)
    (hou : ∀ p ∈ ds, ∀ q ∈ ds,
      (p.2.find j).isSome → (q.2.find j).isSome → p.1 = q.1)
    (hD2 : D2.find j = (diffOf ds tn).find j) :
    findDiffEntry (diffsSet ds tn D2) j = findDiffEntry ds j := by
  cases hfd : findDiffEntry ds j with
  | some e0 =>
    obtain ⟨⟨q0n, q0d⟩, hq0, hq0f⟩ := findDiffEntry_eq_some ds j e0 hfd
    have hother : ∀ q ∈ ds, q.1 ≠ q0n → q.2.find j = none := by
      intro q hq hqn
      cases heq : q.2.find j with
      | none => rfl
      | some e3 =>
        exact absurd (hou q hq (q0n, q0d) hq0
          (by rw [heq]; rfl)
          (by show (q0d.find j).isSome = true
              rw [hq0f]
              rfl)) hqn
    have hchar := findDiffEntry_char ds j q0n hnd hother
    have hother2 : ∀ q ∈ diffsSet ds tn D2, q.1 ≠ q0n → q.2.find j = none := by
      intro q hq hqn
      rcases mem_diffsSet ds tn D2 q hq with h1 | h2
      · subst h1
        show D2.find j = none
        rw [hD2]
        cases hlo : ds.lookup tn with
        | none =>
          unfold diffOf
          rw [hlo]
          rfl
        | some Dt =>
          unfold diffOf
          rw [hlo]
          exact hother (tn, Dt) (mem_of_lookup_eq_some hlo) (fun he => hqn he)
      · exact hother q h2.1 hqn
    have hchar2 := findDiffEntry_char (diffsSet ds tn D2) j q0n
      (diffsSet_keys_nodup ds tn D2 hnd) hother2
    rw [hchar2, ← hfd, hchar]
    by_cases htn : q0n = tn
    · subst htn
      rw [diffOf_diffsSet_self]
      exact hD2
    · rw [diffOf_diffsSet_ne ds tn D2 q0n htn]
  | none =>
    rw [findDiffEntry_eq_none_iff] at hfd ⊢
    intro q hq
    rcases mem_diffsSet ds tn D2 q hq with h1 | h2
    · subst h1
      show D2.find j = none
      rw [hD2]
      cases hlo : ds.lookup tn with
      | none =>
        unfold diffOf
        rw [hlo]
        rfl
      | some Dt =>
        unfold diffOf
        rw [hlo]
        exact hfd (tn, Dt) (mem_of_lookup_eq_some hlo)
    · exact hfd q h2.1

/-! ## Preservation of the linking relation by applyTableDiff_ -/

theorem step_diffNames (s0 s : Journal) (t : Table) (d : TableDiff)
    (hl : Link s0 s) (ht : t ∈ s0.scope) :
    ∀ p ∈ (s.applyTableDiff_ t d).tableDiffs, ∃ u ∈ s0.scope, u.name = p.1 := by
  intro p hp
  have htd : (s.applyTableDiff_ t d).tableDiffs =
      diffsSet s.tableDiffs t.name ((diffOf s.tableDiffs t.name).merge d) := rfl
  rw [htd] at hp
  rcases mem_diffsSet _ _ _ p hp with h1 | h2
  · exact ⟨t, ht, by rw [h1]⟩
  · exact hl.diffNames p h2.1

theorem step_diffWF (s0 s : Journal) (t : Table) (d : TableDiff)
    (hl : Link s0 s) (hd : DiffWF d) :
    ∀ p ∈ (s.applyTableDiff_ t d).tableDiffs, DiffWF p.2 := by
  intro p hp
  have htd : (s.applyTableDiff_ t d).tableDiffs =
      diffsSet s.tableDiffs t.name ((diffOf s.tableDiffs t.name).merge d) := rfl
  rw [htd] at hp
  rcases mem_diffsSet _ _ _ p hp with h1 | h2
  · subst h1
    exact diffWF_merge _ _ (diffOf_wf _ _ hl.diffWF) hd
  · exact hl.diffWF p h2.1

theorem step_ownerUnique (s0 s : Journal) (t : Table) (d : TableDiff)
    (hl : Link s0 s) (hd : DiffWF d)
    (hown : ∀ j, (d.find j).isSome → ∀ q ∈ s.tableDiffs, q.1 ≠ t.name →
      q.2.find j = none) :
    ∀ p ∈ (s.applyTableDiff_ t d).tableDiffs,
      ∀ q ∈ (s.applyTableDiff_ t d).tableDiffs, ∀ j,
      (p.2.find j).isSome → (q.2.find j).isSome → p.1 = q.1 := by
  have htd : (s.applyTableDiff_ t d).tableDiffs =
      diffsSet s.tableDiffs t.name ((diffOf s.tableDiffs t.name).merge d) := rfl
  rw [htd]
  intro p hp q hq j hps hqs
  have hmain : ∀ z ∈ s.tableDiffs, z.1 ≠ t.name → (z.2.find j).isSome →
      (((diffOf s.tableDiffs t.name).merge d).find j).isSome → False := by
    intro z hz hzn hzs hms
    rw [merge_find _ d hd j] at hms
    cases hdj : d.find j with
    | some e =>
      rw [hown j (by rw [hdj]; rfl) z hz hzn] at hzs
      exact Bool.noConfusion hzs
    | none =>
      rw [hdj] at hms
      replace hms : ((diffOf s.tableDiffs t.name).find j).isSome = true := hms
      have hmem := diffOf_find_isSome_mem s.tableDiffs t.name j hms
      exact hzn (hl.ownerUnique z hz (t.name, diffOf s.tableDiffs t.name)
        hmem j hzs hms)
  rcases mem_diffsSet _ _ _ p hp with h1 | h2 <;>
    rcases mem_diffsSet _ _ _ q hq with g1 | g2
  · rw [h1, g1]
  · subst h1
    exact (hmain q g2.1 g2.2 hqs hps).elim
  · subst g1
    exact (hmain p h2.1 h2.2 hps hqs).elim
  · exact hl.ownerUnique p h2.1 q g2.1 j hps hqs

theorem step_cacheNow (s0 s : Journal) (t : Table) (d : TableDiff)
    (hl : Link s0 s) (hd : DiffWF d) (hch : ChainsWith s d)
    (hown : ∀ j, (d.find j).isSome → ∀ q ∈ s.tableDiffs, q.1 ≠ t.name →
      q.2.find j = none) (j : Nat) :
    (s.applyTableDiff_ t d).cache j =
      (match findDiffEntry (s.applyTableDiff_ t d).tableDiffs j with
       | some e => e.nowImg
       | none => s0.cache j) := by
  have hcache : (s.applyTableDiff_ t d).cache j = updateCache_ d s.cache j := rfl
  have htd : (s.applyTableDiff_ t d).tableDiffs =
      diffsSet s.tableDiffs t.name ((diffOf s.tableDiffs t.name).merge d) := rfl
  rw [hcache, htd, updateCache_apply d hd s.cache j]
  cases hdj : d.find j with
  | none =>
    have hskip := findDiffEntry_diffsSet_skip s.tableDiffs t.name
      ((diffOf s.tableDiffs t.name).merge d) j hl.diffKeysNodup
      (fun p hp q hq => hl.ownerUnique p hp q hq j)
      (by rw [merge_find _ d hd j, hdj])
    rw [hskip]
    exact hl.cacheNow j
  | some e =>
    have hfde := findDiffEntry_diffsSet_owner s.tableDiffs t.name
      ((diffOf s.tableDiffs t.name).merge d) j hl.diffKeysNodup
      (hown j (by rw [hdj]; rfl))
    rw [hfde, merge_find _ d hd j, hdj]
    show e.nowImg =
      (match mergeCell ((diffOf s.tableDiffs t.name).find j) (entryToOp e) with
       | some e2 => e2.nowImg
       | none => s0.cache j)
    cases hDj : (diffOf s.tableDiffs t.name).find j with
    | none =>
      cases hmc : mergeCell none (entryToOp e) with
      | none =>
        have hs := mergeCell_none_isSome (entryToOp e)
        rw [hmc] at hs
        exact Bool.noConfusion hs
      | some e2 =>
        show e.nowImg = e2.nowImg
        rw [mergeCell_now none (entryToOp e) e2 hmc, entryToOp_nowImg]
    | some e1 =>
      have hother := hown j (by rw [hdj]; rfl)
      have hfdeold : findDiffEntry s.tableDiffs j = some e1 := by
        rw [findDiffEntry_char s.tableDiffs j t.name hl.diffKeysNodup hother,
          hDj]
      have hthen := hl.cacheThen j e1 hfdeold
      cases e1 with
      | added r1 =>
        cases e with
        | added n => rfl
        | modified o n => rfl
        | deleted r0 =>
          show (DiffEntry.deleted r0).nowImg = s0.cache j
          rw [hthen]
          rfl
      | modified o1 n1 =>
        cases e with
        | added n => rfl
        | modified o n => rfl
        | deleted r0 => rfl
      | deleted dr =>
        cases e with
        | added n =>
          show (DiffEntry.added n).nowImg =
            (match (if n = dr then none
                    else some (DiffEntry.modified dr n)) with
             | some e2 => e2.nowImg
             | none => s0.cache j)
          by_cases hndr : n = dr
          · rw [if_pos hndr]
            show some n = s0.cache j
            rw [hthen, hndr]
            rfl
          · rw [if_neg hndr]
            rfl
        | modified o n => rfl
        | deleted r0 => rfl

theorem step_cacheThen (s0 s : Journal) (t : Table) (d : TableDiff)
    (hl : Link s0 s) (hd : DiffWF d) (hch : ChainsWith s d)
    (hown : ∀ j, (d.find j).isSome → ∀ q ∈ s.tableDiffs, q.1 ≠ t.name →
      q.2.find j = none) (j : Nat) (e2 : DiffEntry)
    (hfde : findDiffEntry (s.applyTableDiff_ t d).tableDiffs j = some e2) :
    s0.cache j = e2.thenImg := by
  have htd : (s.applyTableDiff_ t d).tableDiffs =
      diffsSet s.tableDiffs t.name ((diffOf s.tableDiffs t.name).merge d) := rfl
  rw [htd] at hfde
  cases hdj : d.find j with
  | none =>
    rw [findDiffEntry_diffsSet_skip s.tableDiffs t.name
      ((diffOf s.tableDiffs t.name).merge d) j hl.diffKeysNodup
      (fun p hp q hq => hl.ownerUnique p hp q hq j)
      (by rw [merge_find _ d hd j, hdj])] at hfde
    exact hl.cacheThen j e2 hfde
  | some e =>
    rw [findDiffEntry_diffsSet_owner s.tableDiffs t.name
      ((diffOf s.tableDiffs t.name).merge d) j hl.diffKeysNodup
      (hown j (by rw [hdj]; rfl)), merge_find _ d hd j, hdj] at hfde
    replace hfde : mergeCell ((diffOf s.tableDiffs t.name).find j)
        (entryToOp e) = some e2 := hfde
    cases hDj : (diffOf s.tableDiffs t.name).find j with
    | some e1 =>
      rw [hDj] at hfde
      have hth := mergeCell_then _ _ _ hfde
      replace hth : e2.thenImg = e1.thenImg := hth
      rw [hth]
      refine hl.cacheThen j e1 ?_
      rw [findDiffEntry_char s.tableDiffs j t.name hl.diffKeysNodup
        (hown j (by rw [hdj]; rfl)), hDj]
    | none =>
      rw [hDj] at hfde
      have hth := mergeCell_then _ _ _ hfde
      replace hth : e2.thenImg = (entryToOp e).thenImg := hth
      rw [hth, entryToOp_thenImg, hch j e hdj]
      have hfdeold : findDiffEntry s.tableDiffs j = none := by
        rw [findDiffEntry_char s.tableDiffs j t.name hl.diffKeysNodup
          (hown j (by rw [hdj]; rfl)), hDj]
      have hnow := hl.cacheNow j
      rw [hfdeold] at hnow
      replace hnow : s.cache j = s0.cache j := hnow
      rw [hnow]

/-! ## Instantiated forms of the characterization lemmas -/

theorem applySnap_mem_some (d : TableDiff) (hd : DiffWF d) (n : IndexName)
    (c : IndexData) (k : Int) (j : Nat) (e : DiffEntry)
    (hdj : d.find j = some e) :
    ((k, j) ∈ (snapshotOf d).foldl (applyPair n) c) ↔
      pairMemAfter n (e.nowImg, e.thenImg) k ((k, j) ∈ c) := by
  have h := applySnap_mem d hd n c k j
  simp only [hdj] at h
  exact h

theorem applySnap_mem_none (d : TableDiff) (hd : DiffWF d) (n : IndexName)
    (c : IndexData) (k : Int) (j : Nat) (hdj : d.find j = none) :
    ((k, j) ∈ (snapshotOf d).foldl (applyPair n) c) ↔ (k, j) ∈ c := by
  have h := applySnap_mem d hd n c k j
  simp only [hdj] at h
  exact h

theorem merge_find_some (D d : TableDiff) (hd : DiffWF d) (j : Nat)
    (e : DiffEntry) (hdj : d.find j = some e) :
    (D.merge d).find j = mergeCell (D.find j) (entryToOp e) := by
  have h := merge_find D d hd j
  simp only [hdj] at h
  exact h

theorem merge_find_none (D d : TableDiff) (hd : DiffWF d) (j : Nat)
    (hdj : d.find j = none) : (D.merge d).find j = D.find j := by
  have h := merge_find D d hd j
  simp only [hdj] at h
  exact h

theorem link_storeNow_some (s0 s : Journal) (hl : Link s0 s) (t : Table)
    (ht : t ∈ s0.scope) (n : IndexName) (hn : n ∈ t.indexNames) (k : Int)
    (j : Nat) (e : DiffEntry)
    (hDj : (diffOf s.tableDiffs t.name).find j = some e) :
    ((k, j) ∈ s.store n ↔ ∃ r, e.nowImg = some r ∧ k = r.keyOfIndex n) := by
  have h := hl.storeNow t ht n hn k j
  simp only [hDj] at h
  exact h

theorem link_storeNow_none (s0 s : Journal) (hl : Link s0 s) (t : Table)
    (ht : t ∈ s0.scope) (n : IndexName) (hn : n ∈ t.indexNames) (k : Int)
    (j : Nat) (hDj : (diffOf s.tableDiffs t.name).find j = none) :
    ((k, j) ∈ s.store n ↔ (k, j) ∈ s0.store n) := by
  have h := hl.storeNow t ht n hn k j
  simp only [hDj] at h
  exact h

theorem link_cacheNow_some (s0 s : Journal) (hl : Link s0 s) (j : Nat)
    (e : DiffEntry) (hfd : findDiffEntry s.tableDiffs j = some e) :
    s.cache j = e.nowImg := by
  have h := hl.cacheNow j
  simp only [hfd] at h
  exact h

theorem link_cacheNow_none (s0 s : Journal) (hl : Link s0 s) (j : Nat)
    (hfd : findDiffEntry s.tableDiffs j = none) :
    s.cache j = s0.cache j := by
  have h := hl.cacheNow j
  simp only [hfd] at h
  exact h

theorem pairMemAfter_resolve (n : IndexName) (iNow iThen : Option Row) (k : Int)
    (b : Prop) (hb : b ↔ iThen.map (fun r => r.keyOfIndex n) = some k) :
    pairMemAfter n (iNow, iThen) k b ↔
      iNow.map (fun r => r.keyOfIndex n) = some k := by
  unfold pairMemAfter
  by_cases he : iNow.map (fun r => r.keyOfIndex n) =
      iThen.map (fun r => r.keyOfIndex n)
  · rw [if_pos he, hb, he]
  · rw [if_neg he]
    constructor
    · rintro (h1 | h2)
      · exact h1
      · exact absurd (hb.mp h2.1) h2.2
    · intro h1
      exact Or.inl h1

theorem stateWF_mem_iff (s0 : Journal) (hw : StateWF s0) (t : Table)
    (ht : t ∈ s0.scope) (n : IndexName) (hn : n ∈ t.indexNames)
    (k : Int) (j : Nat)
    (hrow : ∀ r, s0.cache j = some r →
      ((j : Int), j) ∈ s0.store (IndexName.rowId t.name)) :
    ((k, j) ∈ s0.store n ↔
      (s0.cache j).map (fun r => r.keyOfIndex n) = some k) := by
  constructor
  · intro hm
    obtain ⟨r, hr, hk, _⟩ := hw.storeSound t ht n hn k j hm
    rw [hr, Option.map_some']
    exact congrArg some hk.symm
  · intro hm
    cases hc : s0.cache j with
    | none =>
      rw [hc] at hm
      cases hm
    | some r =>
      rw [hc, Option.map_some'] at hm
      have hk := Option.some.inj hm
      have hmemrow := hrow r hc
      have hcomp := hw.storeComplete t ht n hn j r hmemrow hc
      rw [hk] at hcomp
      exact hcomp

theorem step_storeNow (s0 s : Journal) (t : Table) (d : TableDiff)
    (hw : StateWF s0) (hl : Link s0 s) (ht : t ∈ s0.scope) (hd : DiffWF d)
    (hch : ChainsWith s d)
    (hown : ∀ j, (d.find j).isSome → ∀ q ∈ s.tableDiffs, q.1 ≠ t.name →
      q.2.find j = none)
    (hbel : BelongsTo s t.name d) :
    ∀ u ∈ s0.scope, ∀ n ∈ u.indexNames, ∀ (k : Int) (j : Nat),
      (match (diffOf (s.applyTableDiff_ t d).tableDiffs u.name).find j with
       | some e => ((k, j) ∈ (s.applyTableDiff_ t d).store n ↔
           ∃ r, e.nowImg = some r ∧ k = r.keyOfIndex n)
       | none => ((k, j) ∈ (s.applyTableDiff_ t d).store n ↔
           (k, j) ∈ s0.store n)) := by
  intro u hu n hn k j
  have htd : (s.applyTableDiff_ t d).tableDiffs =
      diffsSet s.tableDiffs t.name ((diffOf s.tableDiffs t.name).merge d) := rfl
  have hstn : (s.applyTableDiff_ t d).store n =
      updateTableIndices_ t d s.store n := rfl
  have htwf : TableWF t := hw.tablesWF t ht
  rw [htd, hstn, updateTableIndices_apply t d s.store n htwf.1]
  by_cases hut : u.name = t.name
  · have huet : u = t := List.inj_on_of_nodup_map hw.scopeNames hu ht hut
    rw [huet] at hn hu
    rw [huet]
    rw [if_pos hn, diffOf_diffsSet_self]
    cases hdj : d.find j with
    | none =>
      rw [merge_find_none _ d hd j hdj]
      have hfold := applySnap_mem_none d hd n (s.store n) k j hdj
      cases hDj : (diffOf s.tableDiffs t.name).find j with
      | some e1 =>
        show ((k, j) ∈ (snapshotOf d).foldl (applyPair n) (s.store n) ↔
          ∃ r, e1.nowImg = some r ∧ k = r.keyOfIndex n)
        rw [hfold]
        exact link_storeNow_some s0 s hl t ht n hn k j e1 hDj
      | none =>
        show ((k, j) ∈ (snapshotOf d).foldl (applyPair n) (s.store n) ↔
          (k, j) ∈ s0.store n)
        rw [hfold]
        exact link_storeNow_none s0 s hl t ht n hn k j hDj
    | some e =>
      rw [merge_find_some _ d hd j e hdj]
      have hmem := applySnap_mem_some d hd n (s.store n) k j e hdj
      have hother := hown j (by rw [hdj]; rfl)
      cases hDj : (diffOf s.tableDiffs t.name).find j with
      | some e1 =>
        have hfdeold : findDiffEntry s.tableDiffs j = some e1 := by
          rw [findDiffEntry_char s.tableDiffs j t.name hl.diffKeysNodup hother,
            hDj]
        have hthen_eq : e.thenImg = e1.nowImg := by
          rw [hch j e hdj]
          exact link_cacheNow_some s0 s hl j e1 hfdeold
        have hb : ((k, j) ∈ s.store n) ↔
            e.thenImg.map (fun r => r.keyOfIndex n) = some k := by
          rw [hthen_eq, ← img_key_iff]
          exact link_storeNow_some s0 s hl t ht n hn k j e1 hDj
        have hresolve := hmem.trans
          (pairMemAfter_resolve n e.nowImg e.thenImg k _ hb)
        have hst := hl.storeThen t ht n hn k j e1 hDj
        cases hmc : mergeCell (some e1) (entryToOp e) with
        | some e2 =>
          show ((k, j) ∈ (snapshotOf d).foldl (applyPair n) (s.store n) ↔
            ∃ r, e2.nowImg = some r ∧ k = r.keyOfIndex n)
          rw [img_key_iff, mergeCell_now _ _ _ hmc, entryToOp_nowImg]
          exact hresolve
        | none =>
          show ((k, j) ∈ (snapshotOf d).foldl (applyPair n) (s.store n) ↔
            (k, j) ∈ s0.store n)
          rw [hresolve, hst, img_key_iff]
          cases e1 with
          | added r1 =>
            cases e with
            | added n2 => exact absurd hmc (by simp [entryToOp, mergeCell])
            | modified o2 n2 => exact absurd hmc (by simp [entryToOp, mergeCell])
            | deleted r0 => simp [DiffEntry.nowImg, DiffEntry.thenImg]
          | modified o1 n1 =>
            cases e with
            | added n2 => exact absurd hmc (by simp [entryToOp, mergeCell])
            | modified o2 n2 => exact absurd hmc (by simp [entryToOp, mergeCell])
            | deleted r0 => exact absurd hmc (by simp [entryToOp, mergeCell])
          | deleted dr =>
            cases e with
            | added n2 =>
              have hn2 : n2 = dr := by
                simp only [entryToOp, mergeCell] at hmc
                by_cases hx : n2 = dr
                · exact hx
                · rw [if_neg hx] at hmc
                  cases hmc
              subst hn2
              simp [DiffEntry.nowImg, DiffEntry.thenImg]
            | modified o2 n2 => exact absurd hmc (by simp [entryToOp, mergeCell])
            | deleted r0 => exact absurd hmc (by simp [entryToOp, mergeCell])
      | none =>
        have hfdeold : findDiffEntry s.tableDiffs j = none := by
          rw [findDiffEntry_char s.tableDiffs j t.name hl.diffKeysNodup hother,
            hDj]
        have hcac : s.cache j = s0.cache j :=
          link_cacheNow_none s0 s hl j hfdeold
        have hthen_eq : e.thenImg = s0.cache j := by
          rw [hch j e hdj]
          exact hcac
        have hrow : ∀ r, s0.cache j = some r →
            ((j : Int), j) ∈ s0.store (IndexName.rowId t.name) := by
          intro r hc
          have hmem1 : ((j : Int), j) ∈ s.store (IndexName.rowId t.name) := by
            refine hbel j e hdj ?_
            rw [hthen_eq, hc]
            exact fun h => Option.noConfusion h
          exact (link_storeNow_none s0 s hl t ht (IndexName.rowId t.name)
            (rowId_mem_indexNames t) (j : Int) j hDj).mp hmem1
        have hs0iff := stateWF_mem_iff s0 hw t ht n hn k j hrow
        have hb : ((k, j) ∈ s.store n) ↔
            e.thenImg.map (fun r => r.keyOfIndex n) = some k := by
          rw [hthen_eq]
          exact (link_storeNow_none s0 s hl t ht n hn k j hDj).trans hs0iff
        have hresolve := hmem.trans
          (pairMemAfter_resolve n e.nowImg e.thenImg k _ hb)
        cases hmc : mergeCell none (entryToOp e) with
        | none =>
          have hs := mergeCell_none_isSome (entryToOp e)
          rw [hmc] at hs
          exact Bool.noConfusion hs
        | some e2 =>
          show ((k, j) ∈ (snapshotOf d).foldl (applyPair n) (s.store n) ↔
            ∃ r, e2.nowImg = some r ∧ k = r.keyOfIndex n)
          rw [img_key_iff, mergeCell_now _ _ _ hmc, entryToOp_nowImg]
          exact hresolve
  · have hune : u ≠ t := fun he => hut (by rw [he])
    have hnin : n ∉ t.indexNames := hw.namesDisjoint u hu t ht hune n hn
    rw [if_neg hnin, diffOf_diffsSet_ne _ _ _ _ hut]
    exact hl.storeNow u hu n hn k j

theorem step_storeThen (s0 s : Journal) (t : Table) (d : TableDiff)
    (hw : StateWF s0) (hl : Link s0 s) (ht : t ∈ s0.scope) (hd : DiffWF d)
    (hch : ChainsWith s d)
    (hown : ∀ j, (d.find j).isSome → ∀ q ∈ s.tableDiffs, q.1 ≠ t.name →
      q.2.find j = none)
    (hbel : BelongsTo s t.name d) :
    ∀ u ∈ s0.scope, ∀ n ∈ u.indexNames, ∀ (k : Int) (j : Nat) (e2 : DiffEntry),
      (diffOf (s.applyTableDiff_ t d).tableDiffs u.name).find j = some e2 →
      ((k, j) ∈ s0.store n ↔ ∃ r, e2.thenImg = some r ∧ k = r.keyOfIndex n) := by
  intro u hu n hn k j e2 hf
  have htd : (s.applyTableDiff_ t d).tableDiffs =
      diffsSet s.tableDiffs t.name ((diffOf s.tableDiffs t.name).merge d) := rfl
  rw [htd] at hf
  by_cases hut : u.name = t.name
  · have huet : u = t := List.inj_on_of_nodup_map hw.scopeNames hu ht hut
    rw [huet] at hn hu hf
    rw [diffOf_diffsSet_self] at hf
    cases hdj : d.find j with
    | none =>
      rw [merge_find_none _ d hd j hdj] at hf
      exact hl.storeThen t ht n hn k j e2 hf
    | some e =>
      rw [merge_find_some _ d hd j e hdj] at hf
      have hother := hown j (by rw [hdj]; rfl)
      cases hDj : (diffOf s.tableDiffs t.name).find j with
      | some e1 =>
        rw [hDj] at hf
        have hth := mergeCell_then _ _ _ hf
        replace hth : e2.thenImg = e1.thenImg := hth
        rw [hth]
        exact hl.storeThen t ht n hn k j e1 hDj
      | none =>
        rw [hDj] at hf
        have hth := mergeCell_then _ _ _ hf
        replace hth : e2.thenImg = (entryToOp e).thenImg := hth
        rw [hth, entryToOp_thenImg]
        have hfdeold : findDiffEntry s.tableDiffs j = none := by
          rw [findDiffEntry_char s.tableDiffs j t.name hl.diffKeysNodup hother,
            hDj]
        have hthen_eq : e.thenImg = s0.cache j := by
          rw [hch j e hdj]
          exact link_cacheNow_none s0 s hl j hfdeold
        have hrow : ∀ r, s0.cache j = some r →
            ((j : Int), j) ∈ s0.store (IndexName.rowId t.name) := by
          intro r hc
          have hmem1 : ((j : Int), j) ∈ s.store (IndexName.rowId t.name) := by
            refine hbel j e hdj ?_
            rw [hthen_eq, hc]
            exact fun h => Option.noConfusion h
          exact (link_storeNow_none s0 s hl t ht (IndexName.rowId t.name)
            (rowId_mem_indexNames t) (j : Int) j hDj).mp hmem1
        rw [hthen_eq, img_key_iff]
        exact stateWF_mem_iff s0 hw t ht n hn k j hrow
  · rw [diffOf_diffsSet_ne _ _ _ _ hut] at hf
    exact hl.storeThen u hu n hn k j e2 hf

theorem step_storeUnowned (s0 s : Journal) (t : Table) (d : TableDiff)
    (hw : StateWF s0) (hl : Link s0 s) (ht : t ∈ s0.scope) :
    ∀ n, (∀ u ∈ s0.scope, n ∉ u.indexNames) →
      (s.applyTableDiff_ t d).store n = s0.store n := by
  intro n hnn
  have hstn : (s.applyTableDiff_ t d).store n =
      updateTableIndices_ t d s.store n := rfl
  have htwf : TableWF t := hw.tablesWF t ht
  rw [hstn, updateTableIndices_apply t d s.store n htwf.1,
    if_neg (hnn t ht)]
  exact hl.storeUnowned n hnn

theorem step_preserves (s0 s : Journal) (t : Table) (d : TableDiff)
    (hw : StateWF s0) (hl : Link s0 s) (ht : t ∈ s0.scope) (hd : DiffWF d)
    (hch : ChainsWith s d)
    (hown : ∀ j, (d.find j).isSome → ∀ q ∈ s.tableDiffs, q.1 ≠ t.name →
      q.2.find j = none)
    (hbel : BelongsTo s t.name d) :
    Link s0 (s.applyTableDiff_ t d) := by
  refine ⟨?_, ?_, ?_, ?_, ?_, ?_, ?_, ?_, ?_, ?_, ?_⟩
  · exact hl.scopeEq
  · exact hl.termEq
  · exact step_diffNames s0 s t d hl ht
  · exact diffsSet_keys_nodup _ _ _ hl.diffKeysNodup
  · exact step_diffWF s0 s t d hl hd
  · exact step_ownerUnique s0 s t d hl hd hown
  · exact step_cacheNow s0 s t d hl hd hch hown
  · exact step_cacheThen s0 s t d hl hd hch hown
  · exact step_storeNow s0 s t d hw hl ht hd hch hown hbel
  · exact step_storeThen s0 s t d hw hl ht hd hch hown hbel
  · exact step_storeUnowned s0 s t d hw hl ht

/-! ## Per-operation derivations of the step premises -/

theorem link_cacheIds (s0 s : Journal) (hw : StateWF s0) (hl : Link s0 s)
    (j : Nat) (r : Row) (hc : s.cache j = some r) : r.id = j := by
  cases hfd : findDiffEntry s.tableDiffs j with
  | some e =>
    have hcn := link_cacheNow_some s0 s hl j e hfd
    rw [hcn] at hc
    obtain ⟨q, hq, hqf⟩ := findDiffEntry_eq_some _ j e hfd
    have hids := (hl.diffWF q hq).find_ids hqf
    cases e with
    | added r0 =>
      replace hc : some r0 = some r := hc
      cases hc
      exact hids
    | modified o n2 =>
      replace hc : some n2 = some r := hc
      cases hc
      exact hids.2
    | deleted r0 =>
      replace hc : (none : Option Row) = some r := hc
      cases hc
  | none =>
    have hcn := link_cacheNow_none s0 s hl j hfd
    rw [hcn] at hc
    exact hw.cacheIds j r hc

theorem rowId_mem_from_member (s0 s : Journal) (hw : StateWF s0) (hl : Link s0 s)
    (t : Table) (ht : t ∈ s0.scope) (n : IndexName) (hn : n ∈ t.indexNames)
    (k : Int) (j : Nat) (hm : (k, j) ∈ s.store n) :
    ((j : Int), j) ∈ s.store (IndexName.rowId t.name) := by
  cases hDj : (diffOf s.tableDiffs t.name).find j with
  | some e0 =>
    obtain ⟨r, hr, hk⟩ := (link_storeNow_some s0 s hl t ht n hn k j e0 hDj).mp hm
    have hids : e0.idsMatch j :=
      (diffOf_wf s.tableDiffs t.name hl.diffWF).find_ids hDj
    have hrid : r.id = j := by
      cases e0 with
      | added r0 =>
        replace hr : some r0 = some r := hr
        cases hr
        exact hids
      | modified o n2 =>
        replace hr : some n2 = some r := hr
        cases hr
        exact hids.2
      | deleted r0 =>
        replace hr : (none : Option Row) = some r := hr
        cases hr
    rw [link_storeNow_some s0 s hl t ht (IndexName.rowId t.name)
      (rowId_mem_indexNames t) (j : Int) j e0 hDj]
    refine ⟨r, hr, ?_⟩
    show (j : Int) = (r.id : Int)
    rw [hrid]
  | none =>
    have hm0 := (link_storeNow_none s0 s hl t ht n hn k j hDj).mp hm
    obtain ⟨r, hr, hk, hrow0⟩ := hw.storeSound t ht n hn k j hm0
    exact (link_storeNow_none s0 s hl t ht (IndexName.rowId t.name)
      (rowId_mem_indexNames t) (j : Int) j hDj).mpr hrow0

theorem owner_from_member (s0 s : Journal) (hw : StateWF s0) (hl : Link s0 s)
    (t : Table) (ht : t ∈ s0.scope) (n : IndexName) (hn : n ∈ t.indexNames)
    (k : Int) (j : Nat) (hm : (k, j) ∈ s.store n) :
    ∀ q ∈ s.tableDiffs, q.1 ≠ t.name → q.2.find j = none :=
  owner_from_state s0 s hw hl t ht j
    (rowId_mem_from_member s0 s hw hl t ht n hn k j hm)

theorem pk_mem_indexNames (t : Table) (htwf : TableWF t) (pk : IndexSchema)
    (hpk : t.primaryKey = some pk) : pk.normalizedName ∈ t.indexNames :=
  List.mem_append_left _ (List.mem_map.mpr ⟨pk, htwf.2 pk hpk, rfl⟩)

theorem buildDiff_premises (s : Journal) (tn : String) (l : List DiffOp)
    (hops : ∀ op ∈ l, op.idsOK ∧ op.thenImg = s.cache op.rowId ∧
      (op.thenImg ≠ none →
        ((op.rowId : Int), op.rowId) ∈ s.store (IndexName.rowId tn)) ∧
      (∀ q ∈ s.tableDiffs, q.1 ≠ tn → q.2.find op.rowId = none)) :
    DiffWF (buildDiff l) ∧ ChainsWith s (buildDiff l) ∧
    BelongsTo s tn (buildDiff l) ∧
    (∀ j, ((buildDiff l).find j).isSome →
      ∀ q ∈ s.tableDiffs, q.1 ≠ tn → q.2.find j = none) := by
  unfold buildDiff
  obtain ⟨e1, e2, e3, e4⟩ := empty_diff_invariant s tn
    (fun j => ∀ q ∈ s.tableDiffs, q.1 ≠ tn → q.2.find j = none)
  exact foldl_applyOp_invariant s tn _ l hops TableDiff.empty e1 e2 e3 e4

theorem updOps_mem (s : Journal) (rows : List Row) (ops : List DiffOp)
    (h : s.updOps rows = some ops) :
    ∀ op ∈ ops, ∃ row ∈ rows, ∃ oldRow, s.cache row.id = some oldRow ∧
      op = DiffOp.modify oldRow row := by
  induction rows generalizing ops with
  | nil =>
    replace h : some [] = some ops := h
    cases h
    intro op hop
    cases hop
  | cons row rest ih =>
    simp only [Journal.updOps] at h
    cases hc : s.cache row.id with
    | none =>
      simp only [hc] at h
      cases h
    | some oldRow =>
      cases hrest : s.updOps rest with
      | none =>
        simp only [hc, hrest, Option.map_none'] at h
        cases h
      | some ops2 =>
        simp only [hc, hrest, Option.map_some'] at h
        cases h
        intro op hop
        rcases List.mem_cons.mp hop with h1 | h2
        · exact ⟨row, List.mem_cons_self _ _, oldRow, hc, h1⟩
        · obtain ⟨row2, hr2, oldRow2, hc2, he2⟩ := ih ops2 hrest op h2
          exact ⟨row2, List.mem_cons_of_mem _ hr2, oldRow2, hc2, he2⟩

theorem iorOps_mem (s : Journal) (t : Table) (rows : List Row)
    (ops : List DiffOp) (h : s.iorOps t rows = some ops) :
    ∀ op ∈ ops,
      (∃ row, row ∈ rows ∧ ∃ rid oldRow,
        s.findExistingRowIdInPkIndex_ t row = some rid ∧
        s.cache rid = some oldRow ∧
        op = DiffOp.modify oldRow (row.setRowId rid)) ∨
      (∃ row, row ∈ rows ∧
        s.findExistingRowIdInPkIndex_ t row = none ∧ op = DiffOp.add row) := by
  induction rows generalizing ops with
  | nil =>
    replace h : some [] = some ops := h
    cases h
    intro op hop
    cases hop
  | cons row rest ih =>
    simp only [Journal.iorOps] at h
    cases hf : s.findExistingRowIdInPkIndex_ t row with
    | some rid =>
      cases hc : s.cache rid with
      | none =>
        simp only [hf, hc] at h
        cases h
      | some oldRow =>
        cases hrest : s.iorOps t rest with
        | none =>
          simp only [hf, hc, hrest, Option.map_none'] at h
          cases h
        | some ops2 =>
          simp only [hf, hc, hrest, Option.map_some'] at h
          cases h
          intro op hop
          rcases List.mem_cons.mp hop with h1 | h2
          · exact Or.inl ⟨row, List.mem_cons_self _ _, rid, oldRow, hf, hc, h1⟩
          · rcases ih ops2 hrest op h2 with ⟨r2, hr2, hrr⟩ | ⟨r2, hr2, hrr⟩
            · exact Or.inl ⟨r2, List.mem_cons_of_mem _ hr2, hrr⟩
            · exact Or.inr ⟨r2, List.mem_cons_of_mem _ hr2, hrr⟩
    | none =>
      cases hrest : s.iorOps t rest with
      | none =>
        simp only [hf, hrest, Option.map_none'] at h
        cases h
      | some ops2 =>
        simp only [hf, hrest, Option.map_some'] at h
        cases h
        intro op hop
        rcases List.mem_cons.mp hop with h1 | h2
        · exact Or.inr ⟨row, List.mem_cons_self _ _, hf, h1⟩
        · rcases ih ops2 hrest op h2 with ⟨r2, hr2, hrr⟩ | ⟨r2, hr2, hrr⟩
          · exact Or.inl ⟨r2, List.mem_cons_of_mem _ hr2, hrr⟩
          · exact Or.inr ⟨r2, List.mem_cons_of_mem _ hr2, hrr⟩

theorem runOp_link (s0 s : Journal) (hw : StateWF s0) (hl : Link s0 s)
    (op : JournalOp) (hok : s.opOK op = true) (s1 : Journal)
    (hrun : s.runOp op = .ok s1) : Link s0 s1 := by
  cases op with
  | ins t rows =>
    simp only [Journal.opOK, Bool.and_eq_true, decide_eq_true_eq,
      List.all_eq_true, Option.isNone_iff_eq_none] at hok
    obtain ⟨hts, hrows⟩ := hok
    have hts0 : t ∈ s0.scope := hl.scopeEq ▸ hts
    simp only [Journal.runOp, Journal.insert] at hrun
    cases hsc : s.checkScope_ t with
    | some e =>
      simp only [hsc] at hrun
      cases hrun
    | none =>
      simp only [hsc] at hrun
      cases hcu : s.checkPrimaryKeysUnique_ t rows with
      | some e =>
        simp only [hcu] at hrun
        cases hrun
      | none =>
        simp only [hcu] at hrun
        cases hce : s.checkPrimaryKeyExistence_ t rows with
        | some e =>
          simp only [hce] at hrun
          cases hrun
        | none =>
          simp only [hce] at hrun
          replace hrun :
              Except.ok (s.applyTableDiff_ t (buildDiff (rows.map DiffOp.add)))
                = Except.ok s1 := hrun
          cases hrun
          have hprem := buildDiff_premises s t.name (rows.map DiffOp.add) ?_
          · exact step_preserves s0 s t _ hw hl hts0 hprem.1 hprem.2.1
              hprem.2.2.2 hprem.2.2.1
          · intro op2 hop2
            obtain ⟨row, hrow, rfl⟩ := List.mem_map.mp hop2
            obtain ⟨hnone, hownok⟩ := hrows row hrow
            refine ⟨trivial, hnone.symm, ?_, ?_⟩
            · intro hcontra
              exact absurd rfl hcontra
            · exact ownerOkay_spec _ _ _ hownok
  | upd t rows =>
    simp only [Journal.opOK, Bool.and_eq_true, decide_eq_true_eq,
      List.all_eq_true] at hok
    obtain ⟨hts, hrows⟩ := hok
    have hts0 : t ∈ s0.scope := hl.scopeEq ▸ hts
    simp only [Journal.runOp, Journal.update] at hrun
    cases hsc : s.checkScope_ t with
    | some e =>
      simp only [hsc] at hrun
      cases hrun
    | none =>
      simp only [hsc] at hrun
      cases hcp : s.checkPrimaryKeyUpdate_ t rows with
      | some e =>
        simp only [hcp] at hrun
        cases hrun
      | none =>
        simp only [hcp] at hrun
        cases hup : s.updOps rows with
        | none =>
          simp only [hup] at hrun
          cases hrun
        | some ops =>
          simp only [hup] at hrun
          replace hrun : Except.ok (s.applyTableDiff_ t (buildDiff ops))
              = Except.ok s1 := hrun
          cases hrun
          have hprem := buildDiff_premises s t.name ops ?_
          · exact step_preserves s0 s t _ hw hl hts0 hprem.1 hprem.2.1
              hprem.2.2.2 hprem.2.2.1
          · intro op2 hop2
            obtain ⟨row, hrow, oldRow, hc, rfl⟩ :=
              updOps_mem s rows ops hup op2 hop2
            have hoid : oldRow.id = row.id :=
              link_cacheIds s0 s hw hl row.id oldRow hc
            obtain ⟨hsome, hmem⟩ := hrows row hrow
            refine ⟨hoid.symm, ?_, ?_, ?_⟩
            · show some oldRow = s.cache oldRow.id
              rw [hoid]
              exact hc.symm
            · intro hne2
              show ((oldRow.id : Int), oldRow.id) ∈
                s.store (IndexName.rowId t.name)
              rw [hoid]
              exact hmem
            · show ∀ q ∈ s.tableDiffs, q.1 ≠ t.name →
                q.2.find oldRow.id = none
              rw [hoid]
              exact owner_from_state s0 s hw hl t hts0 row.id hmem
  | ior t rows =>
    simp only [Journal.opOK, Bool.and_eq_true, decide_eq_true_eq,
      List.all_eq_true, Bool.or_eq_true, Option.isSome_iff_exists,
      Option.isNone_iff_eq_none] at hok
    obtain ⟨hts, hrows⟩ := hok
    have hts0 : t ∈ s0.scope := hl.scopeEq ▸ hts
    have htwf : TableWF t := hw.tablesWF t hts0
    simp only [Journal.runOp, Journal.insertOrReplace] at hrun
    cases hsc : s.checkScope_ t with
    | some e =>
      simp only [hsc] at hrun
      cases hrun
    | none =>
      simp only [hsc] at hrun
      cases hio : s.iorOps t rows with
      | none =>
        simp only [hio] at hrun
        cases hrun
      | some ops =>
        simp only [hio] at hrun
        replace hrun : Except.ok (s.applyTableDiff_ t (buildDiff ops))
            = Except.ok s1 := hrun
        cases hrun
        have hprem := buildDiff_premises s t.name ops ?_
        · exact step_preserves s0 s t _ hw hl hts0 hprem.1 hprem.2.1
            hprem.2.2.2 hprem.2.2.1
        · intro op2 hop2
          rcases iorOps_mem s t rows ops hio op2 hop2 with
            ⟨row, hrow, rid, oldRow, hfind, hc, rfl⟩ | ⟨row, hrow, hfind, rfl⟩
          · have hoid : oldRow.id = rid :=
              link_cacheIds s0 s hw hl rid oldRow hc
            cases hpk : t.primaryKey with
            | none =>
              rw [findExisting_of_no_pk s t row hpk] at hfind
              cases hfind
            | some pk =>
              have hpkmem := findExisting_mem s t row pk hpk rid hfind
              have hpkn : pk.normalizedName ∈ t.indexNames :=
                pk_mem_indexNames t htwf pk hpk
              have hrowm : ((rid : Int), rid) ∈
                  s.store (IndexName.rowId t.name) :=
                rowId_mem_from_member s0 s hw hl t hts0 pk.normalizedName hpkn
                  (row.keyOfIndex pk.normalizedName) rid hpkmem
              refine ⟨?_, ?_, ?_, ?_⟩
              · show (row.setRowId rid).id = oldRow.id
                rw [hoid]
                rfl
              · show some oldRow = s.cache oldRow.id
                rw [hoid]
                exact hc.symm
              · intro hne2
                show ((oldRow.id : Int), oldRow.id) ∈
                  s.store (IndexName.rowId t.name)
                rw [hoid]
                exact hrowm
              · show ∀ q ∈ s.tableDiffs, q.1 ≠ t.name →
                  q.2.find oldRow.id = none
                rw [hoid]
                exact owner_from_state s0 s hw hl t hts0 rid hrowm
          · rcases hrows row hrow with ⟨x, hx⟩ | ⟨hcnone, hownok⟩
            · rw [hfind] at hx
              cases hx
            · refine ⟨trivial, hcnone.symm, ?_, ?_⟩
              · intro hcontra
                exact absurd rfl hcontra
              · exact ownerOkay_spec _ _ _ hownok
  | rem t rows =>
    simp only [Journal.opOK, Bool.and_eq_true, decide_eq_true_eq,
      List.all_eq_true, beq_iff_eq] at hok
    obtain ⟨hts, hrows⟩ := hok
    have hts0 : t ∈ s0.scope := hl.scopeEq ▸ hts
    simp only [Journal.runOp, Journal.remove] at hrun
    cases hsc : s.checkScope_ t with
    | some e =>
      simp only [hsc] at hrun
      cases hrun
    | none =>
      simp only [hsc] at hrun
      replace hrun :
          Except.ok (s.applyTableDiff_ t (buildDiff (rows.map DiffOp.del)))
            = Except.ok s1 := hrun
      cases hrun
      have hprem := buildDiff_premises s t.name (rows.map DiffOp.del) ?_
      · exact step_preserves s0 s t _ hw hl hts0 hprem.1 hprem.2.1
          hprem.2.2.2 hprem.2.2.1
      · intro op2 hop2
        obtain ⟨row, hrow, rfl⟩ := List.mem_map.mp hop2
        obtain ⟨hcache, hmem⟩ := hrows row hrow
        refine ⟨trivial, hcache.symm, ?_, ?_⟩
        · intro hne2
          exact hmem
        · exact owner_from_state s0 s hw hl t hts0 row.id hmem

theorem runOps_link (s0 : Journal) (hw : StateWF s0) (ops : List JournalOp) :
    ∀ s, Link s0 s → s.opsOK ops = true → ∀ s1, s.runOps ops = .ok s1 →
      Link s0 s1 := by
  induction ops with
  | nil =>
    intro s hl hok s1 hrun
    replace hrun : Except.ok s = Except.ok s1 := hrun
    cases hrun
    exact hl
  | cons op rest ih =>
    intro s hl hok s1 hrun
    simp only [Journal.opsOK, Bool.and_eq_true] at hok
    simp only [Journal.runOps] at hrun
    cases hro : s.runOp op with
    | error e =>
      simp only [hro] at hrun
      cases hrun
    | ok s2 =>
      simp only [hro] at hrun
      have hl2 := runOp_link s0 s hw hl op hok.1 s2 hro
      have hok2 := hok.2
      simp only [hro] at hok2
      exact ih s2 hl2 hok2 s1 hrun

theorem link_refl (s0 : Journal) (hempty : s0.tableDiffs = []) : Link s0 s0 := by
  have hfd : ∀ j, findDiffEntry s0.tableDiffs j = none := by
    intro j
    rw [hempty]
    rfl
  have hDf : ∀ tn j, (diffOf s0.tableDiffs tn).find j = none := by
    intro tn j
    rw [hempty]
    rfl
  refine ⟨rfl, rfl, ?_, ?_, ?_, ?_, ?_, ?_, ?_, ?_, ?_⟩
  · intro p hp
    rw [hempty] at hp
    cases hp
  · rw [hempty]
    exact List.nodup_nil
  · intro p hp
    rw [hempty] at hp
    cases hp
  · intro p hp q hq
    rw [hempty] at hp
    cases hp
  · intro j
    rw [hfd j]
  · intro j e hf
    rw [hfd j] at hf
    cases hf
  · intro t ht n hn k j
    rw [hDf t.name j]
  · intro t ht n hn k j e hf
    rw [hDf t.name j] at hf
    cases hf
  · intro n hnn
    rfl

theorem applySnap_reverse_restores (s0 s : Journal) (hw : StateWF s0)
    (hl : Link s0 s) (u : Table) (hu : u ∈ s0.scope) (n : IndexName)
    (hn : n ∈ u.indexNames) (dd : TableDiff)
    (hdd : diffOf s.tableDiffs u.name = dd) (hwf : DiffWF dd) :
    (snapshotOf dd.getReverse).foldl (applyPair n) (s.store n) = s0.store n := by
  apply Finset.ext
  rintro ⟨k, j⟩
  cases hdj : dd.find j with
  | some e =>
    have hrev : dd.getReverse.find j = some e.reverse := by
      rw [find_getReverse, hdj]
      rfl
    rw [applySnap_mem_some dd.getReverse (diffWF_getReverse dd hwf) n
      (s.store n) k j e.reverse hrev, reverse_nowImg, reverse_thenImg]
    have hDj : (diffOf s.tableDiffs u.name).find j = some e := by
      rw [hdd]
      exact hdj
    have hb : ((k, j) ∈ s.store n) ↔
        e.nowImg.map (fun r => r.keyOfIndex n) = some k := by
      rw [← img_key_iff]
      exact link_storeNow_some s0 s hl u hu n hn k j e hDj
    rw [pairMemAfter_resolve n e.thenImg e.nowImg k _ hb, ← img_key_iff]
    exact (hl.storeThen u hu n hn k j e hDj).symm
  | none =>
    have hrev : dd.getReverse.find j = none := by
      rw [find_getReverse, hdj]
      rfl
    rw [applySnap_mem_none dd.getReverse (diffWF_getReverse dd hwf) n
      (s.store n) k j hrev]
    have hDj : (diffOf s.tableDiffs u.name).find j = none := by
      rw [hdd]
      exact hdj
    exact link_storeNow_none s0 s hl u hu n hn k j hDj

theorem rollback_fold (s0 s : Journal) (hw : StateWF s0) (hl : Link s0 s)
    (L : List (String × TableDiff)) :
    ∀ (st : IndexName → IndexData) (c : Nat → Option Row),
    (∀ p ∈ L, p ∈ s.tableDiffs) →
    ((L.map Prod.fst).Nodup) →
    (∀ (j : Nat) (p : String × TableDiff), p ∈ L → (p.2.find j).isSome →
      c j = s.cache j) →
    (∀ j : Nat, (∀ p ∈ L, p.2.find j = none) → c j = s0.cache j) →
    (∀ u ∈ s0.scope, u.name ∈ L.map Prod.fst → ∀ n ∈ u.indexNames,
      st n = s.store n) →
    (∀ u ∈ s0.scope, u.name ∉ L.map Prod.fst → ∀ n ∈ u.indexNames,
      st n = s0.store n) →
    (∀ n, (∀ u ∈ s0.scope, n ∉ u.indexNames) → st n = s0.store n) →
    (L.foldl
      (fun (acc : (IndexName → IndexData) × (Nat → Option Row)) p =>
        match s.scope.find? (fun t => t.name = p.1) with
        | some tableSchema =>
          (updateTableIndices_ tableSchema p.2.getReverse acc.1,
           updateCache_ p.2.getReverse acc.2)
        | none => acc)
      (st, c)).1 = s0.store ∧
    (L.foldl
      (fun (acc : (IndexName → IndexData) × (Nat → Option Row)) p =>
        match s.scope.find? (fun t => t.name = p.1) with
        | some tableSchema =>
          (updateTableIndices_ tableSchema p.2.getReverse acc.1,
           updateCache_ p.2.getReverse acc.2)
        | none => acc)
      (st, c)).2 = s0.cache := by
  induction L with
  | nil =>
    intro st c hsub hnd hcOwn hcUn hstOwn hstUn hstNo
    constructor
    · funext n
      by_cases hex : ∃ u, u ∈ s0.scope ∧ n ∈ u.indexNames
      · obtain ⟨u, hu, hn⟩ := hex
        exact hstUn u hu (fun h => absurd h (List.not_mem_nil _)) n hn
      · refine hstNo n ?_
        intro u hu hn
        exact hex ⟨u, hu, hn⟩
    · funext j
      exact hcUn j (fun p hp => absurd hp (List.not_mem_nil p))
  | cons p rest ih =>
    intro st c hsub hnd hcOwn hcUn hstOwn hstUn hstNo
    obtain ⟨tn, dd⟩ := p
    rw [List.map_cons, List.nodup_cons] at hnd
    have hmem : (tn, dd) ∈ s.tableDiffs :=
      hsub (tn, dd) (List.mem_cons_self _ _)
    have hdd : diffOf s.tableDiffs tn = dd := by
      unfold diffOf
      rw [lookup_eq_some_of_mem_nodup hl.diffKeysNodup hmem]
      rfl
    have hwf : DiffWF dd := hl.diffWF (tn, dd) hmem
    obtain ⟨t2, ht2, ht2n⟩ := hl.diffNames (tn, dd) hmem
    have hfindSome : (s.scope.find? (fun t => t.name = tn)).isSome = true := by
      rw [List.find?_isSome]
      refine ⟨t2, ?_, ?_⟩
      · rw [hl.scopeEq]
        exact ht2
      · exact decide_eq_true ht2n
    cases hfind : s.scope.find? (fun t => t.name = tn) with
    | none =>
      rw [hfind] at hfindSome
      exact Bool.noConfusion hfindSome
    | some u =>
      have hu0 : u ∈ s0.scope := by
        rw [← hl.scopeEq]
        exact List.mem_of_find?_eq_some hfind
      have hpa := List.find?_some hfind
      have hun : u.name = tn := of_decide_eq_true hpa
      rw [List.foldl_cons]
      simp only [hfind]
      refine ih (updateTableIndices_ u dd.getReverse st)
        (updateCache_ dd.getReverse c)
        (fun q hq => hsub q (List.mem_cons_of_mem _ hq)) hnd.2
        ?_ ?_ ?_ ?_ ?_
      · intro j q hq hqs
        have hddj : dd.find j = none := by
          cases hx : dd.find j with
          | none => rfl
          | some e =>
            have hname := hl.ownerUnique (tn, dd) hmem q
              (hsub q (List.mem_cons_of_mem _ hq)) j
              (by show (dd.find j).isSome = true
                  rw [hx]
                  rfl) hqs
            exact absurd (List.mem_map.mpr ⟨q, hq, hname.symm⟩) hnd.1
        have hrev : dd.getReverse.find j = none := by
          rw [find_getReverse, hddj]
          rfl
        rw [updateCache_apply dd.getReverse (diffWF_getReverse dd hwf) c j]
        simp only [hrev]
        exact hcOwn j q (List.mem_cons_of_mem _ hq) hqs
      · intro j hrest
        rw [updateCache_apply dd.getReverse (diffWF_getReverse dd hwf) c j]
        cases hx : dd.find j with
        | some e =>
          have hrev : dd.getReverse.find j = some e.reverse := by
            rw [find_getReverse, hx]
            rfl
          simp only [hrev]
          rw [reverse_nowImg]
          have hother : ∀ q ∈ s.tableDiffs, q.1 ≠ tn → q.2.find j = none := by
            intro q hq hqn
            cases hy : q.2.find j with
            | none => rfl
            | some e3 =>
              exact absurd (hl.ownerUnique q hq (tn, dd) hmem j
                (by rw [hy]; rfl)
                (by show (dd.find j).isSome = true
                    rw [hx]
                    rfl)) hqn
          have hfde : findDiffEntry s.tableDiffs j = some e := by
            rw [findDiffEntry_char s.tableDiffs j tn hl.diffKeysNodup hother,
              hdd, hx]
          exact (hl.cacheThen j e hfde).symm
        | none =>
          have hrev : dd.getReverse.find j = none := by
            rw [find_getReverse, hx]
            rfl
          simp only [hrev]
          refine hcUn j ?_
          intro q hq
          rcases List.mem_cons.mp hq with h1 | h2
          · rw [h1]
            exact hx
          · exact hrest q h2
      · intro u2 hu2 hu2n n hn2
        have hne : u2 ≠ u := by
          intro he
          rw [he, hun] at hu2n
          exact hnd.1 hu2n
        have hnin : n ∉ u.indexNames := hw.namesDisjoint u2 hu2 u hu0 hne n hn2
        rw [updateTableIndices_apply u dd.getReverse st n
          (hw.tablesWF u hu0).1, if_neg hnin]
        refine hstOwn u2 hu2 ?_ n hn2
        rw [List.map_cons]
        exact List.mem_cons_of_mem _ hu2n
      · intro u2 hu2 hu2n n hn2
        by_cases hu2tn : u2.name = tn
        · have hueq : u2 = u := List.inj_on_of_nodup_map hw.scopeNames hu2 hu0
            (by rw [hu2tn, hun])
          rw [updateTableIndices_apply u dd.getReverse st n
            (hw.tablesWF u hu0).1, if_pos (hueq ▸ hn2)]
          rw [hstOwn u2 hu2 (by
            rw [List.map_cons]
            exact List.mem_cons.mpr (Or.inl hu2tn)) n hn2]
          refine applySnap_reverse_restores s0 s hw hl u hu0 n (hueq ▸ hn2) dd
            ?_ hwf
          rw [hun]
          exact hdd
        · have hne : u2 ≠ u := fun he => hu2tn (by rw [he, hun])
          have hnin : n ∉ u.indexNames := hw.namesDisjoint u2 hu2 u hu0 hne n hn2
          rw [updateTableIndices_apply u dd.getReverse st n
            (hw.tablesWF u hu0).1, if_neg hnin]
          refine hstUn u2 hu2 ?_ n hn2
          rw [List.map_cons]
          intro hmem2
          rcases List.mem_cons.mp hmem2 with h1 | h2
          · exact hu2tn h1
          · exact hu2n h2
      · intro n hnn
        rw [updateTableIndices_apply u dd.getReverse st n
          (hw.tablesWF u hu0).1, if_neg (hnn u hu0)]
        exact hstNo n hnn

theorem rollback_restores (s0 s : Journal) (hw : StateWF s0) (hl : Link s0 s)
    (hterm : s.terminated = false) :
    ∃ s2, s.rollback = .ok s2 ∧ s2.cache = s0.cache ∧ s2.store = s0.store := by
  have hstUn0 : ∀ u ∈ s0.scope, u.name ∉ s.tableDiffs.map Prod.fst →
      ∀ n ∈ u.indexNames, s.store n = s0.store n := by
    intro u hu hk n hn
    apply Finset.ext
    rintro ⟨k2, j⟩
    have hDj : (diffOf s.tableDiffs u.name).find j = none := by
      unfold diffOf
      rw [(lookup_eq_none_iff_keys _ _).mpr hk]
      rfl
    exact link_storeNow_none s0 s hl u hu n hn k2 j hDj
  have hfold := rollback_fold s0 s hw hl s.tableDiffs s.store s.cache
    (fun p hp => hp) hl.diffKeysNodup
    (fun j p hp hps => rfl)
    (fun j hnone => link_cacheNow_none s0 s hl j
      ((findDiffEntry_eq_none_iff s.tableDiffs j).mpr hnone))
    (fun u hu hk n hn => rfl)
    hstUn0
    (fun n hnn => hl.storeUnowned n hnn)
  unfold Journal.rollback
  rw [if_neg (by rw [hterm]; exact Bool.false_ne_true)]
  exact ⟨_, rfl, hfold.2, hfold.1⟩

theorem j0_stateWF : StateWF J0 := by
  refine ⟨?_, ?_, ?_, ?_, ?_, ?_, ?_⟩
  · decide
  · intro t ht
    rcases List.mem_cons.mp ht with h1 | h2
    · subst h1
      refine ⟨by decide, ?_⟩
      intro pk hpk
      cases hpk
      exact List.mem_singleton.mpr rfl
    · rcases List.mem_cons.mp h2 with h1 | h3
      · subst h1
        refine ⟨by decide, ?_⟩
        intro pk hpk
        cases hpk
      · cases h3
  · decide
  · intro j r h
    exact Option.noConfusion h
  · intro t ht n hn k j hm
    exact absurd hm (Finset.not_mem_empty _)
  · intro t ht n hn j r hm hc
    exact absurd hm (Finset.not_mem_empty _)
  · intro t ht u hu htu j hm
    exact absurd hm (Finset.not_mem_empty _)

/-- C2: for every sequence of successful insert, update, insertOrReplace and
remove operations on a fresh journal over a well-formed shared state (each
operation satisfying the engine-maintained side conditions `opOK`), running
the sequence and then `rollback` restores the row cache and the entire index
store to exactly the state they had before the journal's first operation. -/
theorem c2_rollback_roundtrip (s0 : Journal) (ops : List JournalOp)
    (hw : StateWF s0) (hempty : s0.tableDiffs = [])
    (hterm : s0.terminated = false) (hok : s0.opsOK ops = true)
    (hrun : ∃ s1, s0.runOps ops = .ok s1) :
    roundTrip s0 ops = some (s0.cache, s0.store) := by
  obtain ⟨s1, hs1⟩ := hrun
  have hl1 := runOps_link s0 hw ops s0 (link_refl s0 hempty) hok s1 hs1
  have hterm1 : s1.terminated = false := hl1.termEq.trans hterm
  obtain ⟨s2, hrb, hc2, hst2⟩ := rollback_restores s0 s1 hw hl1 hterm1
  unfold roundTrip
  simp only [hs1, hrb]
  rw [hc2, hst2]

/-- Witness for C2: inserting `rowA` into `T1` on the fresh journal `J0` and
rolling back restores the initial cache and index store. -/
theorem c2_witness :
    roundTrip J0 [JournalOp.ins tblT1 [rowA]] = some (J0.cache, J0.store) :=
  c2_rollback_roundtrip J0 [JournalOp.ins tblT1 [rowA]] j0_stateWF rfl rfl
    (by decide) ⟨_, rfl⟩
